import Mathlib

/-!
# MTD block-translation layer (`drivers/mtd/mtd_blkdevs.c`, build with `MTD_MERGE == 1`)

A shallow embedding of the request worker `mtd_blktrans_thread`, of the open/release
entry points and of the device numbering of `add_mtd_blktrans_dev`, followed by the
properties established about them.

Conventions of the embedding.

* Addresses are natural numbers and `0` is the null pointer, as in the C source
  (`buf = 0`, `firstbuf == 0`, `nextbuffer != 0`).  Sector numbers, byte counts and
  addresses are unbounded naturals.  The sum of the bounds check of line 301 is
  taken modulo `2 ^ SECTOR_BITS`, the width of `sector_t`, which is a parameter;
  the running sector and byte counts of a request within the capacity do not wrap.
* Device numbers are integers without an upper bound; where line 613 compares
  `new->devnum` with the unsigned `MINORMASK >> tr->part_bits`, a negative number
  is converted to `unsigned int`.
* Memory is a function from addresses to byte values.  The translation layer is a
  record of hooks over a world made of that memory and of the layer's own state;
  a hook that the C code tests against `NULL` is an `Option`.
* Every call of a translation-layer hook is recorded, with its arguments and its
  return value, in a trace, together with the scratch-buffer lock operations and
  the copies out of the scratch buffer.
* A call through a null hook and a `BUG_ON` that fires end the worker: the
  functions return `none` there.
* The mutexes and the queue spinlock are not modelled, except for the trace
  events of `mtd_rw_buffer_lock`.
-/

namespace MtdBlk

/-! ## Constants -/

/-- The errno `EIO` (the code uses `-EIO`). -/
def EIO_errno : Int := 5

/-- The errno `EBUSY`. -/
def EBUSY : Int := 16

/-- The errno `ENOMEM`. -/
def ENOMEM : Int := 12

/-- Data direction `READ` of `rq_data_dir`. -/
def READ : Nat := 0

/-- Data direction `WRITE` of `rq_data_dir`. -/
def WRITE : Nat := 1

/-- Size of the scratch buffer in sectors, `#define MTD_RW_SECTORS (2048)`. -/
def MTD_RW_SECTORS : Nat := 2048

/-! ## Data model -/

/-- Memory: the byte stored at each address. -/
abbrev Mem := Nat → Nat

/-- The state the hooks act on: memory and the translation layer's own state. -/
structure World (σ : Type) where
  mem : Mem
  ftl : σ

/-- One segment of a request: `addr` is `page_address(bv_page) + bv_offset`. -/
structure bio_vec where
  addr : Nat
  bv_len : Nat
deriving DecidableEq, Repr

/-- A block-layer request.  `cmd_type_fs` is `cmd_type == REQ_TYPE_FS`, `cmd_write`
is bit 0 of `cmd_flags` (what `rq_data_dir` reads), `cmd_discard` is the
`REQ_DISCARD` bit, `pos` is `blk_rq_pos`, `data_len` is `__data_len` and `segs`
is what `rq_for_each_segment` enumerates. -/
structure request where
  cmd_type_fs : Bool
  cmd_write : Bool
  cmd_discard : Bool
  pos : Nat
  data_len : Nat
  segs : List bio_vec
deriving DecidableEq, Repr

/-- The macro `rq_data_dir(req)`, i.e. `cmd_flags & 1`. -/
def rq_data_dir (req : request) : Nat := if req.cmd_write then 1 else 0

/-- The accessor `blk_rq_pos(req)`. -/
def blk_rq_pos (req : request) : Nat := req.pos

/-- The accessor `blk_rq_sectors(req)`, i.e. `blk_rq_bytes(req) >> 9`. -/
def blk_rq_sectors (req : request) : Nat := req.data_len >>> 9

/-- A call of one of the sector primitives of the translation layer. -/
inductive Call where
  | readsect (block nsect buf : Nat)
  | writesect (block nsect buf : Nat)
  | discard (block nsect : Nat)
deriving DecidableEq, Repr

/-- What the worker does that is observable from outside: a translation-layer call
with its return value, the background hook, the scratch-buffer lock, a copy out of
the scratch buffer, and going to sleep. -/
inductive Ev where
  | tl (c : Call) (ret : Int)
  | background
  | lock_rw_buffer
  | unlock_rw_buffer
  | memcpy (dst src len : Nat)
  | schedule
deriving DecidableEq, Repr

/-- The translation-layer calls of a trace, in order. -/
def calls : List Ev → List Call
  | [] => []
  | Ev.tl c _ :: t => c :: calls t
  | _ :: t => calls t

/-- The return values of the translation-layer calls of a trace, in order. -/
def rets : List Ev → List Int
  | [] => []
  | Ev.tl _ r :: t => r :: rets t
  | _ :: t => rets t

/-- The operations `struct mtd_blktrans_ops` of one translation-layer family.
`readsect` is called without a test by the worker; the other hooks are tested
against `NULL` somewhere in the file and are optional.  `name` is the family name
`tr->name`. -/
structure mtd_blktrans_ops (σ : Type) where
  part_bits : Nat
  blksize : Nat
  readsect : World σ → Nat → Nat → Nat → World σ × Int
  writesect : Option (World σ → Nat → Nat → Nat → World σ × Int)
  discard : Option (World σ → Nat → Nat → World σ × Int)
  background : Option (World σ → World σ)
  open_hook : Option (World σ → World σ × Int)
  release : Option (World σ → World σ × Int)
  flush : Option (World σ → World σ × Int)
  name : List Char

/-! ## The worker: `req_check_buffer_align` -/

/-- The loop of `req_check_buffer_align` over the segments, with the locals
`firstbuf` and `nextbuffer`; `none` is the early `return 0`, `some firstbuf` is
reaching the end of the loop. -/
def req_check_buffer_align_loop : List bio_vec → Nat → Nat → Option Nat
  | [], firstbuf, _ => some firstbuf
  | bv :: rest, firstbuf, nextbuffer =>
    let buffer := bv.addr
    let firstbuf := if firstbuf = 0 then buffer else firstbuf
    if nextbuffer ≠ 0 ∧ nextbuffer ≠ buffer then none
    else req_check_buffer_align_loop rest firstbuf (buffer + bv.bv_len)

/-- The function `req_check_buffer_align(req, pbuf)`: the pair of the return value and
of `*pbuf` afterwards (`pbuf` is the value of `*pbuf` before the call). -/
def req_check_buffer_align (req : request) (pbuf : Nat) : Nat × Nat :=
  match req_check_buffer_align_loop req.segs 0 0 with
  | none => (0, pbuf)
  | some firstbuf => (1, firstbuf)

/-! ## The worker: processing of one request -/

/-- The C function `memcpy(dst, src, len)` on non-overlapping areas. -/
def memcpy (m : Mem) (dst src len : Nat) : Mem :=
  fun a => if dst ≤ a ∧ a < dst + len then m (src + (a - dst)) else m a

/-- The locals of the worker while it processes one request, the world and the
trace of the request so far. -/
structure Walk (σ : Type) where
  w : World σ
  block : Nat
  data_len : Nat
  buf : Nat
  res : Int
  trace : List Ev

/-- The statement `switch(cmd_flag)` of the segment walk (it occurs twice, lines
362-380 and 391-409): one `readsect` or `writesect` call for the accumulated run
`(block, data_len >> 9, buf)`; a non-zero return sets `res = -EIO`.  The test
of `tr->writesect` is commented out in the source, so the call goes through the
pointer as it is: `none` when it is null. -/
def switch_cmd_flag {σ : Type} (tr : mtd_blktrans_ops σ) (cmd_flag : Nat) (s : Walk σ) :
    Option (Walk σ) :=
  if cmd_flag = READ then
    let r := tr.readsect s.w s.block (s.data_len >>> 9) s.buf
    some { s with
      w := r.1
      res := if r.2 ≠ 0 then - EIO_errno else s.res
      trace := s.trace ++ [Ev.tl (Call.readsect s.block (s.data_len >>> 9) s.buf) r.2] }
  else if cmd_flag = WRITE then
    match tr.writesect with
    | none => none
    | some f =>
      let r := f s.w s.block (s.data_len >>> 9) s.buf
      some { s with
        w := r.1
        res := if r.2 ≠ 0 then - EIO_errno else s.res
        trace := s.trace ++ [Ev.tl (Call.writesect s.block (s.data_len >>> 9) s.buf) r.2] }
  else
    some { s with res := - EIO_errno }

/-- The body of `rq_for_each_segment` in the segment walk (lines 349-386) for one
segment. -/
def walk_segment {σ : Type} (tr : mtd_blktrans_ops σ) (cmd_flag : Nat) (s : Walk σ)
    (bvec : bio_vec) : Option (Walk σ) :=
  if bvec.addr = s.buf + s.data_len then
    some { s with data_len := s.data_len + bvec.bv_len }
  else
    match (if s.data_len ≠ 0 then switch_cmd_flag tr cmd_flag s else some s) with
    | none => none
    | some s1 =>
      some { s1 with
        block := s1.block + (s1.data_len >>> 9)
        buf := bvec.addr
        data_len := bvec.bv_len }

/-- The loop `rq_for_each_segment` of the segment walk (lines 348-386). -/
def walk_segments {σ : Type} (tr : mtd_blktrans_ops σ) (cmd_flag : Nat) :
    List bio_vec → Walk σ → Option (Walk σ)
  | [], s => some s
  | bvec :: rest, s =>
    match walk_segment tr cmd_flag s bvec with
    | none => none
    | some s1 => walk_segments tr cmd_flag rest s1

/-- The `else` branch of the worker (lines 346-411): the segment walk followed by
the call for the last run. -/
def rw_segments {σ : Type} (tr : mtd_blktrans_ops σ) (cmd_flag : Nat) (segs : List bio_vec)
    (s : Walk σ) : Option (Walk σ) :=
  match walk_segments tr cmd_flag segs s with
  | none => none
  | some s1 => if s1.data_len ≠ 0 then switch_cmd_flag tr cmd_flag s1 else some s1

/-- The loop that copies the scratch buffer out to the segments (lines 335-341),
`p` being the running source pointer: the memory and the copies made. -/
def copy_out : List bio_vec → Nat → Mem → Mem × List Ev
  | [], _, m => (m, [])
  | bvec :: rest, p, m =>
    let r := copy_out rest (p + bvec.bv_len) (memcpy m bvec.addr p bvec.bv_len)
    (r.1, Ev.memcpy bvec.addr p bvec.bv_len :: r.2)

/-- The read branch taken when the scratch buffer exists (lines 317-345).
`BUG_ON(1)` for more than `MTD_RW_SECTORS` sectors is `none`. -/
def read_rw_buffer {σ : Type} (tr : mtd_blktrans_ops σ) (mtd_rw_buffer : Nat) (req : request)
    (s : Walk σ) : Option (Walk σ) :=
  let buf := (req_check_buffer_align req mtd_rw_buffer).2
  let nsect := req.data_len >>> 9
  if nsect > MTD_RW_SECTORS then none
  else
    let t1 := if buf = mtd_rw_buffer then [Ev.lock_rw_buffer] else []
    let r := tr.readsect s.w s.block nsect buf
    let res := if r.2 ≠ 0 then - EIO_errno else s.res
    let t2 := [Ev.tl (Call.readsect s.block nsect buf) r.2]
    if buf = mtd_rw_buffer then
      let c := copy_out req.segs buf r.1.mem
      some { s with
        w := { r.1 with mem := c.1 }
        buf := buf
        res := res
        trace := s.trace ++ t1 ++ t2 ++ c.2 ++ [Ev.unlock_rw_buffer] }
    else
      some { s with w := r.1, buf := buf, res := res, trace := s.trace ++ t1 ++ t2 }

/-- The processing of a request that passed the validation (lines 309-411), from
the world `w`: the locals are initialised, then the read branch or the segment
walk runs. -/
def process_request {σ : Type} (tr : mtd_blktrans_ops σ) (mtd_rw_buffer : Nat) (w : World σ)
    (req : request) : Option (Walk σ) :=
  let s : Walk σ :=
    { w := w, block := blk_rq_pos req, data_len := 0, buf := 0, res := 0, trace := [] }
  let cmd_flag := rq_data_dir req
  if cmd_flag = READ ∧ mtd_rw_buffer ≠ 0 then read_rw_buffer tr mtd_rw_buffer req s
  else rw_segments tr cmd_flag req.segs s

/-! ## The worker: the loop of `mtd_blktrans_thread` -/

/-- What the surroundings answer during one iteration of the worker loop:
`should_stop` is `kthread_should_stop()` at the loop head, `fetch` is what
`blk_fetch_request` returns if it is called, and `bg_stop` is the value of
`dev->bg_stop` read after the background hook (whether `mtd_blktrans_request` ran
meanwhile). -/
structure Iter where
  should_stop : Bool
  fetch : Option request
  bg_stop : Bool
deriving DecidableEq, Repr

/-- The state of the worker thread at the head of its loop: the world, the locals
`req` and `background_done`, the field `dev->bg_stop`, and the history: the trace,
the requests fetched and the completions `__blk_end_request_all(req, res)`. -/
structure Thread (σ : Type) where
  w : World σ
  req : Option request
  background_done : Bool
  bg_stop : Bool
  trace : List Ev
  fetched : List request
  ended : List (request × Int)

/-- The worker as it starts: `req = NULL`, `background_done = 0`, nothing done yet. -/
def thread_init {σ : Type} (w : World σ) : Thread σ :=
  { w := w, req := none, background_done := false, bg_stop := false,
    trace := [], fetched := [], ended := [] }

/-- One iteration of the loop `while (!kthread_should_stop())` (lines 274-417);
`none` when the worker dies in the iteration.  The sum of line 301 is made in
`sector_t`, so it wraps modulo `2 ^ SECTOR_BITS`; `SECTOR_BITS` is the width of
`sector_t`, a type of `linux/types.h`, which is not part of this file (64 when
`sector_t` is `u64`). -/
def thread_body {σ : Type} (SECTOR_BITS : Nat) (tr : mtd_blktrans_ops σ)
    (capacity mtd_rw_buffer : Nat) (it : Iter) (s0 : Thread σ) : Option (Thread σ) :=
  let s := { s0 with bg_stop := false }
  let s :=
    match s.req with
    | some _ => s
    | none =>
      match it.fetch with
      | some r => { s with req := some r, fetched := s.fetched ++ [r] }
      | none => s
  match s.req with
  | none =>
    match tr.background, s.background_done with
    | some bg, false =>
      some { s with
        w := bg s.w
        trace := s.trace ++ [Ev.background]
        bg_stop := it.bg_stop
        background_done := !it.bg_stop }
    | _, _ => some { s with trace := s.trace ++ [Ev.schedule] }
  | some req =>
    if req.cmd_type_fs = false ∨
        (blk_rq_pos req + blk_rq_sectors req) % 2 ^ SECTOR_BITS > capacity then
      some { s with
        ended := s.ended ++ [(req, - EIO_errno)]
        req := none
        background_done := false }
    else
      match process_request tr mtd_rw_buffer s.w req with
      | none => none
      | some out =>
        some { s with
          w := out.w
          trace := s.trace ++ out.trace
          ended := s.ended ++ [(req, out.res)]
          req := none
          background_done := false }

/-- The state of the worker once `blk_fetch_request` has returned `req`. -/
def fetched_state {σ : Type} (s : Thread σ) (req : request) : Thread σ :=
  { s with bg_stop := false, req := some req, fetched := s.fetched ++ [req] }

/-- How a run of the worker stands after the iterations observed: still in the
loop, returned from the thread function, or dead (null call or `BUG`). -/
inductive Run (σ : Type) where
  | running (s : Thread σ)
  | exited (s : Thread σ)
  | oops (s : Thread σ)

/-- The thread function `mtd_blktrans_thread` along a list of iterations: the
loop ends at the first iteration where `kthread_should_stop()` holds, and a
request still held is then completed with `-EIO` (lines 420-421). -/
def mtd_blktrans_thread {σ : Type} (SECTOR_BITS : Nat) (tr : mtd_blktrans_ops σ)
    (capacity mtd_rw_buffer : Nat) : List Iter → Thread σ → Run σ
  | [], s => Run.running s
  | it :: its, s =>
    if it.should_stop then
      match s.req with
      | some req => Run.exited { s with ended := s.ended ++ [(req, - EIO_errno)] }
      | none => Run.exited s
    else
      match thread_body SECTOR_BITS tr capacity mtd_rw_buffer it s with
      | none => Run.oops s
      | some s1 => mtd_blktrans_thread SECTOR_BITS tr capacity mtd_rw_buffer its s1

/-! ## Opening and releasing a device -/

/-- The errno `ERESTARTSYS`. -/
def ERESTARTSYS : Int := 512

/-- The medium `struct mtd_info` as far as this file uses it: `__get_mtd_device`
(which can fail) and `__put_mtd_device`, both from the MTD core. -/
structure mtd_info (σ : Type) where
  get_mtd_device : World σ → World σ × Int
  put_mtd_device : World σ → World σ

/-- The device `struct mtd_blktrans_dev`: its number, the field `open` (here
`open_count`), the medium `mtd` (`none` is `NULL`), the count of the kref `ref`,
and the fields `readonly` and `size`. -/
structure mtd_blktrans_dev (σ : Type) where
  devnum : Int
  open_count : Int
  mtd : Option (mtd_info σ)
  ref : Nat
  readonly : Bool
  size : Nat

/-- What the open, release and ioctl paths do that is observable from outside: the
hooks `tr->open`, `tr->release` and `tr->flush` with their return values, and the
claim and the release of the medium. -/
inductive LifeEv where
  | open_hook (ret : Int)
  | release_hook (ret : Int)
  | get_mtd (ret : Int)
  | put_mtd
  | flush_hook (ret : Int)
deriving DecidableEq, Repr

/-- A disk with its device: `private_data` tells whether `disk->private_data` still
points to the device (it is cleared by `blktrans_dev_release`), `module_refs` is the
reference count of the module `tr->owner`, `w` is the world of the hooks and `log`
is the history of hook and medium calls. -/
structure Disk (σ : Type) where
  dev : mtd_blktrans_dev σ
  private_data : Bool
  module_refs : Int
  w : World σ
  log : List LifeEv

/-- The call `kref_get(&dev->ref)`. -/
def kref_get {σ : Type} (d : Disk σ) : Disk σ :=
  { d with dev := { d.dev with ref := d.dev.ref + 1 } }

/-- The call `kref_put(&dev->ref, blktrans_dev_release)`: when the count reaches
zero `blktrans_dev_release` clears `disk->private_data` and frees the device. -/
def kref_put {σ : Type} (d : Disk σ) : Disk σ :=
  let d1 : Disk σ := { d with dev := { d.dev with ref := d.dev.ref - 1 } }
  if d1.dev.ref = 0 then { d1 with private_data := false } else d1

/-- The function `blktrans_dev_put`. -/
def blktrans_dev_put {σ : Type} (d : Disk σ) : Disk σ := kref_put d

/-- The calls `__module_get(dev->tr->owner)` (`delta = 1`) and
`module_put(dev->tr->owner)` (`delta = -1`). -/
def module_ref {σ : Type} (d : Disk σ) (delta : Int) : Disk σ :=
  { d with module_refs := d.module_refs + delta }

/-- The label `unlock:` of `blktrans_open`: `dev->open++`, then
`blktrans_dev_put(dev)` and `return ret`. -/
def blktrans_open_unlock {σ : Type} (d : Disk σ) (ret : Int) : Disk σ × Int :=
  (blktrans_dev_put { d with dev := { d.dev with open_count := d.dev.open_count + 1 } }, ret)

/-- The label `error_put:` of `blktrans_open`. -/
def blktrans_open_error_put {σ : Type} (d : Disk σ) (ret : Int) : Disk σ × Int :=
  (blktrans_dev_put (kref_put (module_ref d (-1))), ret)

/-- The label `error_release:` of `blktrans_open`, which falls through to
`error_put:`. -/
def blktrans_open_error_release {σ : Type} (tr : mtd_blktrans_ops σ) (d : Disk σ) (ret : Int) :
    Disk σ × Int :=
  match tr.release with
  | some f =>
    let r := f d.w
    blktrans_open_error_put { d with w := r.1, log := d.log ++ [LifeEv.release_hook r.2] } ret
  | none => blktrans_open_error_put d ret

/-- The function `blktrans_open`: the disk afterwards and the return value. -/
def blktrans_open {σ : Type} (tr : mtd_blktrans_ops σ) (d0 : Disk σ) : Disk σ × Int :=
  if d0.private_data = false then (d0, - ERESTARTSYS)
  else
    let d := kref_get d0
    if d.dev.open_count ≠ 0 then blktrans_open_unlock d 0
    else
      let d := module_ref (kref_get d) 1
      match d.dev.mtd with
      | none => blktrans_open_unlock d 0
      | some mtd =>
        let o : Disk σ × Int :=
          match tr.open_hook with
          | some f =>
            let r := f d.w
            ({ d with w := r.1, log := d.log ++ [LifeEv.open_hook r.2] }, r.2)
          | none => (d, 0)
        if o.2 ≠ 0 then blktrans_open_error_put o.1 o.2
        else
          let g := mtd.get_mtd_device o.1.w
          let d2 : Disk σ := { o.1 with w := g.1, log := o.1.log ++ [LifeEv.get_mtd g.2] }
          if g.2 ≠ 0 then blktrans_open_error_release tr d2 g.2
          else blktrans_open_unlock d2 g.2

/-- The function `blktrans_release`: the disk afterwards and the return value. -/
def blktrans_release {σ : Type} (tr : mtd_blktrans_ops σ) (d0 : Disk σ) : Disk σ × Int :=
  if d0.private_data = false then (d0, 0)
  else
    let d := kref_get d0
    let d : Disk σ := { d with dev := { d.dev with open_count := d.dev.open_count - 1 } }
    if d.dev.open_count ≠ 0 then (blktrans_dev_put d, 0)
    else
      let d := module_ref (kref_put d) (-1)
      match d.dev.mtd with
      | some mtd =>
        let o : Disk σ × Int :=
          match tr.release with
          | some f =>
            let r := f d.w
            ({ d with w := r.1, log := d.log ++ [LifeEv.release_hook r.2] }, r.2)
          | none => (d, 0)
        let d2 : Disk σ :=
          { o.1 with w := mtd.put_mtd_device o.1.w, log := o.1.log ++ [LifeEv.put_mtd] }
        (blktrans_dev_put d2, o.2)
      | none => (blktrans_dev_put d, 0)

/-- The disk after `n` calls of `blktrans_open` in a row. -/
def open_times {σ : Type} (tr : mtd_blktrans_ops σ) : Nat → Disk σ → Disk σ
  | 0, d => d
  | n + 1, d => (blktrans_open tr (open_times tr n d)).1

/-- The disk after `n` calls of `blktrans_release` in a row. -/
def release_times {σ : Type} (tr : mtd_blktrans_ops σ) : Nat → Disk σ → Disk σ
  | 0, d => d
  | n + 1, d => (blktrans_release tr (release_times tr n d)).1

/-- The number of calls of the hook `tr->open` in a log. -/
def open_hook_count (l : List LifeEv) : Nat :=
  (l.filter (fun e => match e with | LifeEv.open_hook _ => true | _ => false)).length

/-- The number of calls of the hook `tr->release` in a log. -/
def release_hook_count (l : List LifeEv) : Nat :=
  (l.filter (fun e => match e with | LifeEv.release_hook _ => true | _ => false)).length

/-- The events of the first open of a device with a live medium when it succeeds. -/
def first_open_events {σ : Type} (tr : mtd_blktrans_ops σ) : List LifeEv :=
  (if tr.open_hook.isSome then [LifeEv.open_hook 0] else []) ++ [LifeEv.get_mtd 0]

/-- The events of the last release of a device with a live medium, from the
world `w`. -/
def last_release_events {σ : Type} (tr : mtd_blktrans_ops σ) (w : World σ) : List LifeEv :=
  (match tr.release with
    | some f => [LifeEv.release_hook (f w).2]
    | none => []) ++ [LifeEv.put_mtd]

/-! ## Device numbering: `add_mtd_blktrans_dev` -/

/-- How the loop `list_for_each_entry(d, &tr->devs, list)` of `add_mtd_blktrans_dev`
ends: `return -EBUSY`, `goto added` with the number chosen and the devices before
and after the place of insertion, or the end of the list with `last_devnum`. -/
inductive Scan (σ : Type) where
  | busy
  | added (devnum : Int) (before after : List (mtd_blktrans_dev σ))
  | fell_through (last_devnum : Int)

/-- The loop `list_for_each_entry(d, &tr->devs, list)` (lines 585-604) from the
device `d` on: `new_devnum` is `new->devnum`, `before` are the devices already
passed and `last_devnum` is the local of that name. -/
def scan_devs {σ : Type} (new_devnum : Int) :
    List (mtd_blktrans_dev σ) → List (mtd_blktrans_dev σ) → Int → Scan σ
  | [], _, last_devnum => Scan.fell_through last_devnum
  | d :: rest, before, last_devnum =>
    if new_devnum = -1 then
      if d.devnum ≠ last_devnum + 1 then Scan.added (last_devnum + 1) before (d :: rest)
      else scan_devs new_devnum rest (before ++ [d]) d.devnum
    else if d.devnum = new_devnum then Scan.busy
    else if d.devnum > new_devnum then Scan.added new_devnum before (d :: rest)
    else scan_devs new_devnum rest (before ++ [d]) d.devnum

/-- What the rest of the kernel answers to `add_mtd_blktrans_dev`: whether
`alloc_disk` and `blk_init_queue` return something, and the error of `kthread_run`
if it fails. -/
structure AddEnv where
  alloc_disk_ok : Bool
  blk_init_queue_ok : Bool
  kthread_run_err : Option Int
deriving DecidableEq, Repr

/-- The outcome of `add_mtd_blktrans_dev`: the return value, the list `tr->devs` and
the device `new` afterwards. -/
structure AddResult (σ : Type) where
  ret : Int
  devs : List (mtd_blktrans_dev σ)
  new : mtd_blktrans_dev σ

/-- The part of `add_mtd_blktrans_dev` after the label `added:` (lines 620-711).
`devs` is the list before the call, `before` and `after` surround the place where
`new` was linked in; the error paths `error2` to `error4` unlink it again
(`list_del`). -/
def add_mtd_blktrans_dev_added {σ : Type} (env : AddEnv) (tr : mtd_blktrans_ops σ)
    (devs before after : List (mtd_blktrans_dev σ)) (new : mtd_blktrans_dev σ) : AddResult σ :=
  let new1 : mtd_blktrans_dev σ :=
    { new with ref := 1, readonly := if tr.writesect.isNone then true else new.readonly }
  if env.alloc_disk_ok = false then { ret := - ENOMEM, devs := devs, new := new1 }
  else if env.blk_init_queue_ok = false then { ret := - ENOMEM, devs := devs, new := new1 }
  else
    match env.kthread_run_err with
    | some e => { ret := e, devs := devs, new := new1 }
    | none => { ret := 0, devs := before ++ new1 :: after, new := new1 }

/-- The conversion of the `int` `new->devnum` to `unsigned int` in the comparison
of line 613, whose other side `MINORMASK >> tr->part_bits` is unsigned: a negative
value has `2^32` added, which is its value modulo `2^32`; a value that is not
negative is kept, device numbers having no upper bound here. -/
def to_unsigned (x : Int) : Int := if x < 0 then x + 4294967296 else x

/-- The function `add_mtd_blktrans_dev(new)` on the list `devs` of the family `tr`.
`MINORMASK` is the constant of `linux/kdev_t.h`, which is not part of this file; it
is unsigned, so the comparison of line 613 converts `new->devnum` to
`unsigned int` (`to_unsigned`), while the comparison of line 614 is signed.  The
caller holds `mtd_table_mutex` (asserted at line 579).  Device numbers are
integers without an upper bound. -/
def add_mtd_blktrans_dev {σ : Type} (MINORMASK : Nat) (env : AddEnv) (tr : mtd_blktrans_ops σ)
    (devs : List (mtd_blktrans_dev σ)) (new : mtd_blktrans_dev σ) : AddResult σ :=
  match scan_devs new.devnum devs [] (-1) with
  | Scan.busy => { ret := - EBUSY, devs := devs, new := new }
  | Scan.added devnum before after =>
    add_mtd_blktrans_dev_added env tr devs before after { new with devnum := devnum }
  | Scan.fell_through last_devnum =>
    let new1 : mtd_blktrans_dev σ :=
      if new.devnum = -1 then { new with devnum := last_devnum + 1 } else new
    if to_unsigned new1.devnum > ((MINORMASK >>> tr.part_bits : Nat) : Int) ∨
        (tr.part_bits ≠ 0 ∧ new1.devnum ≥ 27 * 26) then
      { ret := - EBUSY, devs := devs, new := new1 }
    else add_mtd_blktrans_dev_added env tr devs devs [] new1

/-- The device numbers of a list of devices, in list order. -/
def devnums {σ : Type} (devs : List (mtd_blktrans_dev σ)) : List Int :=
  devs.map (fun d => d.devnum)

/-- Every allocation of `add_mtd_blktrans_dev` after the label `added:` succeeds. -/
def env_ok (env : AddEnv) : Prop :=
  env.alloc_disk_ok = true ∧ env.blk_init_queue_ok = true ∧ env.kthread_run_err = none

instance (env : AddEnv) : Decidable (env_ok env) :=
  inferInstanceAs (Decidable
    (env.alloc_disk_ok = true ∧ env.blk_init_queue_ok = true ∧ env.kthread_run_err = none))

/-- The number `n`, when it is not negative, passes the check of lines 613-614: it
is a valid minor number and, with partition bits, the naming code can cope with
it. -/
def within_limit {σ : Type} (MINORMASK : Nat) (tr : mtd_blktrans_ops σ) (n : Int) : Prop :=
  n ≤ ((MINORMASK >>> tr.part_bits : Nat) : Int) ∧ (tr.part_bits ≠ 0 → n < 27 * 26)

instance {σ : Type} (MINORMASK : Nat) (tr : mtd_blktrans_ops σ) (n : Int) :
    Decidable (within_limit MINORMASK tr n) :=
  inferInstanceAs (Decidable
    (n ≤ ((MINORMASK >>> tr.part_bits : Nat) : Int) ∧ (tr.part_bits ≠ 0 → n < 27 * 26)))

/-- One request to `add_mtd_blktrans_dev` in a sequence of registrations. -/
structure AddCall (σ : Type) where
  env : AddEnv
  new : mtd_blktrans_dev σ

/-- The list `tr->devs` after a sequence of calls of `add_mtd_blktrans_dev`, the
first call of the list being made first. -/
def add_all {σ : Type} (MINORMASK : Nat) (tr : mtd_blktrans_ops σ) :
    List (AddCall σ) → List (mtd_blktrans_dev σ) → List (mtd_blktrans_dev σ)
  | [], devs => devs
  | c :: cs, devs => add_all MINORMASK tr cs (add_mtd_blktrans_dev MINORMASK c.env tr devs c.new).devs

/-! ## Notions used to state the properties -/

/-- Segment `b` starts where segment `a` ends. -/
def follows (a b : bio_vec) : Prop := b.addr = a.addr + a.bv_len

instance (a b : bio_vec) : Decidable (follows a b) :=
  inferInstanceAs (Decidable (b.addr = a.addr + a.bv_len))

/-- The total number of bytes of a list of segments. -/
def seg_bytes (l : List bio_vec) : Nat := (l.map (fun bv => bv.bv_len)).sum

/-- Two segments occupy disjoint areas of memory. -/
def disjoint (a b : bio_vec) : Prop :=
  a.addr + a.bv_len ≤ b.addr ∨ b.addr + b.bv_len ≤ a.addr

instance (a b : bio_vec) : Decidable (disjoint a b) :=
  inferInstanceAs (Decidable (a.addr + a.bv_len ≤ b.addr ∨ b.addr + b.bv_len ≤ a.addr))

/-- The call the segment walk makes for a run in data direction `cmd_flag`. -/
def run_call (cmd_flag block nsect buf : Nat) : Call :=
  if cmd_flag = READ then Call.readsect block nsect buf else Call.writesect block nsect buf

/-- A coalesced run of the specification: starting sector, byte length and
buffer start. -/
structure CoalescedRun where
  start_sector : Nat
  length : Nat
  buffer : Nat
deriving DecidableEq, Repr

/-- The Segment Coalescer of the specification with the run `cur` being
accumulated: a segment adjacent to the end of the run extends it, any other
segment flushes the run and starts a new one at the sector after it; the last
run is flushed after the scan. -/
def spec_coalesce_from (cur : CoalescedRun) : List bio_vec → List CoalescedRun
  | [] => [cur]
  | bv :: rest =>
    if bv.addr = cur.buffer + cur.length then
      spec_coalesce_from { cur with length := cur.length + bv.bv_len } rest
    else
      cur :: spec_coalesce_from
        { start_sector := cur.start_sector + cur.length / 512, length := bv.bv_len,
          buffer := bv.addr } rest

/-- The Segment Coalescer of the specification on a fragment list whose first
fragment is at sector `start`: no fragment gives no run. -/
def spec_coalesce (start : Nat) : List bio_vec → List CoalescedRun
  | [] => []
  | bv :: rest =>
    spec_coalesce_from { start_sector := start, length := bv.bv_len, buffer := bv.addr } rest

/-- No call of the hook `tr->discard` occurs in the trace. -/
def no_discard (t : List Ev) : Prop := ∀ b n, Call.discard b n ∉ calls t

/-- The worker can serve the request without dying: a write needs the hook
`tr->writesect`, and a read through the scratch buffer has at most
`MTD_RW_SECTORS` sectors (the limit the queue is configured with at line 669). -/
def serviceable {σ : Type} (tr : mtd_blktrans_ops σ) (mtd_rw_buffer : Nat) (req : request) : Prop :=
  (req.cmd_write = true → tr.writesect.isSome = true) ∧
  (req.cmd_write = false → mtd_rw_buffer ≠ 0 → blk_rq_sectors req ≤ MTD_RW_SECTORS)

instance {σ : Type} (tr : mtd_blktrans_ops σ) (mtd_rw_buffer : Nat) (req : request) :
    Decidable (serviceable tr mtd_rw_buffer req) :=
  inferInstanceAs (Decidable
    ((req.cmd_write = true → tr.writesect.isSome = true) ∧
     (req.cmd_write = false → mtd_rw_buffer ≠ 0 → blk_rq_sectors req ≤ MTD_RW_SECTORS)))

/-! ## Concrete translation layers, requests and devices for the examples -/

/-- A world whose memory holds `a % 256` at address `a`. -/
def ex_world : World Unit := { mem := fun a => a % 256, ftl := () }

/-- A translation layer whose hooks all exist and succeed; `readsect` fills the
sectors it reads with the byte `7`. -/
def ex_tr : mtd_blktrans_ops Unit :=
  { part_bits := 0, blksize := 512,
    readsect := fun w _ nsect buf =>
      ({ w with mem := fun a => if buf ≤ a ∧ a < buf + nsect * 512 then 7 else w.mem a }, 0),
    writesect := some (fun w _ _ _ => (w, 0)),
    discard := some (fun w _ _ => (w, 0)),
    background := some (fun w => w),
    open_hook := some (fun w => (w, 0)),
    release := some (fun w => (w, 0)),
    flush := some (fun w => (w, 0)),
    name := ['m', 't', 'd', 'b', 'l', 'o', 'c', 'k'] }

/-- The layer `ex_tr` without write capability (`writesect == NULL`). -/
def ex_tr_readonly : mtd_blktrans_ops Unit := { ex_tr with writesect := none }

/-- The layer `ex_tr` without discard capability (`discard == NULL`). -/
def ex_tr_no_discard : mtd_blktrans_ops Unit := { ex_tr with discard := none }

/-- The layer `ex_tr` with a `writesect` that always fails with `-EIO`. -/
def ex_tr_write_fails : mtd_blktrans_ops Unit :=
  { ex_tr with writesect := some (fun w _ _ _ => (w, -5)) }

/-- A file-system request. -/
def ex_req (write : Bool) (pos data_len : Nat) (segs : List bio_vec) : request :=
  { cmd_type_fs := true, cmd_write := write, cmd_discard := false, pos := pos,
    data_len := data_len, segs := segs }

/-- A discard request of 8 sectors at sector 16: `REQ_WRITE | REQ_DISCARD`, no
payload segments. -/
def ex_discard : request :=
  { cmd_type_fs := true, cmd_write := true, cmd_discard := true, pos := 16,
    data_len := 4096, segs := [] }

/-- An iteration of the worker in which `blk_fetch_request` returns `req`. -/
def ex_iter (req : request) : Iter := { should_stop := false, fetch := some req, bg_stop := false }

/-- A medium whose claim succeeds. -/
def ex_mtd : mtd_info Unit :=
  { get_mtd_device := fun w => (w, 0), put_mtd_device := fun w => w }

/-- A registered device with number `n`: closed, with a live medium and the
reference taken by `kref_init`. -/
def ex_dev (n : Int) : mtd_blktrans_dev Unit :=
  { devnum := n, open_count := 0, mtd := some ex_mtd, ref := 1, readonly := false, size := 2048 }

/-- The disk of the device `ex_dev 0`. -/
def ex_disk : Disk Unit :=
  { dev := ex_dev 0, private_data := true, module_refs := 0, w := ex_world, log := [] }

/-- A kernel in which every allocation of `add_mtd_blktrans_dev` succeeds. -/
def ex_env : AddEnv := { alloc_disk_ok := true, blk_init_queue_ok := true, kthread_run_err := none }

/-! ## The disk set up by `add_mtd_blktrans_dev` -/

/-- The conversion `%c` of `snprintf`: the argument converted to `unsigned char`. -/
def fmt_c (x : Int) : Char := Char.ofNat (x % 256).toNat

/-- The conversion `%d` of `snprintf`: the decimal digits of the number, after a
minus sign when it is negative. -/
def fmt_d (x : Int) : List Char :=
  if x < 0 then '-' :: Nat.toDigits 10 (-x).toNat else Nat.toDigits 10 x.toNat

/-- The function `snprintf(buf, size, ...)` as far as the buffer goes: at most
`size - 1` characters of the formatted text are stored. -/
def snprintf (size : Nat) (text : List Char) : List Char := text.take (size - 1)

/-- What lines 641-652 print after `tr->name`: with partition bits one letter for a
number below 26 and two letters otherwise, without partition bits the decimal
number.  The division is only reached with a number of at least 26, where the
division of C and the one used here agree. -/
def disk_name_suffix (part_bits : Nat) (devnum : Int) : List Char :=
  if part_bits ≠ 0 then
    if devnum < 26 then [fmt_c (('a'.toNat : Int) + devnum)]
    else [fmt_c (('a'.toNat : Int) - 1 + devnum / 26), fmt_c (('a'.toNat : Int) + devnum % 26)]
  else fmt_d devnum

/-- The fields of the `struct gendisk` that `add_mtd_blktrans_dev` computes from the
family and the device (lines 638-657). -/
structure gendisk where
  first_minor : Int
  disk_name : List Char
  capacity : Nat
deriving DecidableEq, Repr

/-- The disk that `add_mtd_blktrans_dev` sets up for the device `new` once its number
is assigned (lines 635-657).  `DISK_NAME_LEN` is `sizeof(gd->disk_name)`, a
constant of `linux/genhd.h`, which is not part of this file. -/
def add_mtd_blktrans_dev_disk {σ : Type} (DISK_NAME_LEN : Nat) (tr : mtd_blktrans_ops σ)
    (new : mtd_blktrans_dev σ) : gendisk :=
  { first_minor := new.devnum * 2 ^ tr.part_bits
    disk_name := snprintf DISK_NAME_LEN (tr.name ++ disk_name_suffix tr.part_bits new.devnum)
    capacity := (new.size >>> 9) * tr.blksize }

/-! ## Notions and examples for the worker loop -/

/-- An iteration of the worker in which the thread is not stopped, the queue is
empty and `dev->bg_stop` is not set by `mtd_blktrans_request`. -/
def idle_iter : Iter := { should_stop := false, fetch := none, bg_stop := false }

/-- An iteration of the worker at whose head `kthread_should_stop()` holds. -/
def stop_iter : Iter := { should_stop := true, fetch := none, bg_stop := false }

/-- The state of the worker in a run. -/
def Run.state {σ : Type} : Run σ → Thread σ
  | Run.running s => s
  | Run.exited s => s
  | Run.oops s => s

/-- The thread function has returned. -/
def Run.is_exited {σ : Type} : Run σ → Bool
  | Run.exited _ => true
  | _ => false

/-- The status is 0 when every call of the trace returned 0, and `-EIO` otherwise. -/
def status_of_rets (res : Int) (t : List Ev) : Prop :=
  res = if ∀ r ∈ rets t, r = 0 then 0 else - EIO_errno

/-- The layer `ex_tr` with a `writesect` that always fails with `-ENOMEM`. -/
def ex_tr_write_nomem : mtd_blktrans_ops Unit :=
  { ex_tr with writesect := some (fun w _ _ _ => (w, -12)) }

/-! ## The ioctl and the removal of a device -/

/-- The errno `ENXIO`. -/
def ENXIO_errno : Int := 6

/-- The errno `ENOTTY`. -/
def ENOTTY : Int := 25

/-- The function `blktrans_ioctl(bdev, mode, cmd, arg)`: the disk afterwards and the
return value.  `BLKFLSBUF` is the command number of `linux/fs.h`, which is not
part of this file. -/
def blktrans_ioctl {σ : Type} (BLKFLSBUF : Nat) (tr : mtd_blktrans_ops σ) (d0 : Disk σ)
    (cmd : Nat) : Disk σ × Int :=
  if d0.private_data = false then (d0, - ENXIO_errno)
  else
    let d := kref_get d0
    match d.dev.mtd with
    | none => (blktrans_dev_put d, - ENXIO_errno)
    | some _ =>
      if cmd = BLKFLSBUF then
        match tr.flush with
        | some f =>
          let r := f d.w
          (blktrans_dev_put { d with w := r.1, log := d.log ++ [LifeEv.flush_hook r.2] }, r.2)
        | none => (blktrans_dev_put d, 0)
      else (blktrans_dev_put d, - ENOTTY)

/-- The function `del_mtd_blktrans_dev(old)` as far as the device goes (lines
739-752): when the device is open the hook `tr->release`, if there is one, and
`__put_mtd_device(old->mtd)` are called; then `old->mtd = NULL` and the reference of
the registration is dropped.  `none` is `__put_mtd_device` called on a null
medium. -/
def del_mtd_blktrans_dev {σ : Type} (tr : mtd_blktrans_ops σ) (d0 : Disk σ) : Option (Disk σ) :=
  let d1 : Option (Disk σ) :=
    if d0.dev.open_count ≠ 0 then
      let o : Disk σ :=
        match tr.release with
        | some f =>
          let r := f d0.w
          { d0 with w := r.1, log := d0.log ++ [LifeEv.release_hook r.2] }
        | none => d0
      match o.dev.mtd with
      | some mtd =>
        some { o with w := mtd.put_mtd_device o.w, log := o.log ++ [LifeEv.put_mtd] }
      | none => none
    else some d0
  match d1 with
  | none => none
  | some d => some (blktrans_dev_put { d with dev := { d.dev with mtd := none } })

/-- The outcome of the hook `tr->open` in `blktrans_open` from the world `w`: the
world afterwards and the return value, 0 when there is no hook. -/
def open_hook_outcome {σ : Type} (tr : mtd_blktrans_ops σ) (w : World σ) : World σ × Int :=
  match tr.open_hook with
  | some f => f w
  | none => (w, 0)

/-- The events of the hook `tr->open` in `blktrans_open` from the world `w`. -/
def open_hook_events {σ : Type} (tr : mtd_blktrans_ops σ) (w : World σ) : List LifeEv :=
  match tr.open_hook with
  | some f => [LifeEv.open_hook (f w).2]
  | none => []

/-- The events of the hook `tr->release` from the world `w`. -/
def release_hook_events {σ : Type} (tr : mtd_blktrans_ops σ) (w : World σ) : List LifeEv :=
  match tr.release with
  | some f => [LifeEv.release_hook (f w).2]
  | none => []

/-- The events of the hook `tr->flush` from the world `w`. -/
def flush_hook_events {σ : Type} (tr : mtd_blktrans_ops σ) (w : World σ) : List LifeEv :=
  match tr.flush with
  | some f => [LifeEv.flush_hook (f w).2]
  | none => []

/-- The return value of the flush command: that of the hook `tr->flush`, 0 without
hook. -/
def flush_result {σ : Type} (tr : mtd_blktrans_ops σ) (w : World σ) : Int :=
  match tr.flush with
  | some f => (f w).2
  | none => 0

/-- The number of successful calls of `__get_mtd_device` in a log. -/
def get_count (l : List LifeEv) : Nat := l.count (LifeEv.get_mtd 0)

/-- The number of calls of `__put_mtd_device` in a log. -/
def put_count (l : List LifeEv) : Nat := l.count LifeEv.put_mtd

/-- The layer `ex_tr` with an open hook that fails with `-EIO`. -/
def ex_tr_open_fails : mtd_blktrans_ops Unit :=
  { ex_tr with open_hook := some (fun w => (w, -5)) }

/-- A medium whose claim fails with `-ENODEV`. -/
def ex_mtd_fails : mtd_info Unit :=
  { get_mtd_device := fun w => (w, -19), put_mtd_device := fun w => w }

/-- The disk `ex_disk` on the medium `ex_mtd_fails`. -/
def ex_disk_mtd_fails : Disk Unit :=
  { ex_disk with dev := { ex_disk.dev with mtd := some ex_mtd_fails } }

/-- The disk `ex_disk` after `del_mtd_blktrans_dev` of a device that has a second
reference: the medium is null. -/
def ex_disk_no_mtd : Disk Unit :=
  { ex_disk with dev := { ex_disk.dev with mtd := none } }

/-- The total number of bytes of a list of coalesced runs. -/
def run_bytes (l : List CoalescedRun) : Nat := (l.map (fun r => r.length)).sum

/-! ## Sequences of opens, releases and a removal on one device -/

/-- A call on one device: `blktrans_open`, `blktrans_release` or
`del_mtd_blktrans_dev`. -/
inductive LifeOp where
  | op_open
  | op_release
  | op_del
deriving DecidableEq, Repr

/-- A device in the course of a sequence of calls: its disk, the number of calls of
`blktrans_open` that returned 0 so far, and the number of calls of
`blktrans_release` so far. -/
structure LifeRun (σ : Type) where
  d : Disk σ
  opens_ok : Nat
  releases : Nat

/-- A device before any call of a sequence. -/
def life_init {σ : Type} (d : Disk σ) : LifeRun σ := { d := d, opens_ok := 0, releases := 0 }

/-- One call on the device; `none` when `del_mtd_blktrans_dev` dies. -/
def life_step {σ : Type} (tr : mtd_blktrans_ops σ) (s : LifeRun σ) : LifeOp → Option (LifeRun σ)
  | LifeOp.op_open =>
    let r := blktrans_open tr s.d
    some { s with d := r.1, opens_ok := if r.2 = 0 then s.opens_ok + 1 else s.opens_ok }
  | LifeOp.op_release =>
    some { s with d := (blktrans_release tr s.d).1, releases := s.releases + 1 }
  | LifeOp.op_del =>
    match del_mtd_blktrans_dev tr s.d with
    | some d => some { s with d := d }
    | none => none

/-- A sequence of calls on the device, one after the other. -/
def life_run {σ : Type} (tr : mtd_blktrans_ops σ) : List LifeOp → LifeRun σ → Option (LifeRun σ)
  | [], s => some s
  | op :: rest, s =>
    match life_step tr s op with
    | some s1 => life_run tr rest s1
    | none => none

/-- Whether, in a sequence of calls, the releases never outnumber the successful
opens made before them. -/
def releases_matched {σ : Type} (tr : mtd_blktrans_ops σ) : List LifeOp → LifeRun σ → Bool
  | [], _ => true
  | op :: rest, s =>
    match life_step tr s op with
    | some s1 => decide (s1.releases ≤ s1.opens_ok) && releases_matched tr rest s1
    | none => true

/-- The number 1 for an open device (`dev->open != 0`), 0 for a closed one. -/
def open_bit {σ : Type} (d : Disk σ) : Nat := if d.dev.open_count = 0 then 0 else 1

/-- The state of a device that started closed with `r0` references and a live
medium, in the course of a sequence of calls: `dev->open` is the number of
successful opens less the number of releases; while the medium is live the device
is present, an open device holds one reference and one medium claim more than a
closed one; once the medium is null the claims are all released, the reference of
the registration is dropped, and the device is present as long as a reference is
left. -/
def life_inv {σ : Type} (r0 : Nat) (s : LifeRun σ) : Prop :=
  s.releases ≤ s.opens_ok ∧
  s.d.dev.open_count = (s.opens_ok : Int) - (s.releases : Int) ∧
  ((s.d.dev.mtd.isSome = true ∧ s.d.private_data = true ∧ s.d.dev.ref = r0 + open_bit s.d ∧
      get_count s.d.log = put_count s.d.log + open_bit s.d) ∨
   (s.d.dev.mtd = none ∧ s.d.dev.ref + 1 = r0 + open_bit s.d ∧
      (s.d.private_data = true ↔ s.d.dev.ref ≠ 0) ∧
      get_count s.d.log = put_count s.d.log))

/-- The number that a text of decimal digits denotes, the first digit being the
most significant one. -/
def decimal_value (l : List Char) : Nat :=
  l.foldl (fun acc c => 10 * acc + (c.toNat - '0'.toNat)) 0

/-! # Properties -/

/-! ## Auxiliary facts about traces -/

theorem calls_append (a b : List Ev) : calls (a ++ b) = calls a ++ calls b := by
  induction a with
  | nil => rfl
  | cons e t ih => cases e <;> simp [calls, ih]

theorem rets_append (a b : List Ev) : rets (a ++ b) = rets a ++ rets b := by
  induction a with
  | nil => rfl
  | cons e t ih => cases e <;> simp [rets, ih]

theorem shift9 (n : Nat) : n >>> 9 = n / 512 := by
  rw [Nat.shiftRight_eq_div_pow]

/-! ## The worker: one iteration with a request -/

theorem thread_body_invalid {σ : Type} (SECTOR_BITS : Nat)
    (tr : mtd_blktrans_ops σ)
    (capacity mtd_rw_buffer : Nat) (it : Iter) (s : Thread σ) (req : request)
    (hreq : s.req = none) (hfetch : it.fetch = some req)
    (hbad : req.cmd_type_fs = false ∨
      (blk_rq_pos req + blk_rq_sectors req) % 2 ^ SECTOR_BITS > capacity) :
    thread_body SECTOR_BITS tr capacity mtd_rw_buffer it s =
      some { fetched_state s req with
        ended := s.ended ++ [(req, - EIO_errno)], req := none, background_done := false } := by
  simp only [thread_body, hreq, hfetch, fetched_state]
  rw [if_pos hbad]

/-- A file-system request whose start sector plus sector count, as the check of
line 301 computes it in `sector_t`, does not exceed the capacity is processed. -/
theorem thread_body_admitted {σ : Type} (SECTOR_BITS : Nat)
    (tr : mtd_blktrans_ops σ)
    (capacity mtd_rw_buffer : Nat) (it : Iter) (s : Thread σ) (req : request)
    (hreq : s.req = none) (hfetch : it.fetch = some req)
    (hfs : req.cmd_type_fs = true)
    (hrange : (blk_rq_pos req + blk_rq_sectors req) % 2 ^ SECTOR_BITS ≤ capacity) :
    thread_body SECTOR_BITS tr capacity mtd_rw_buffer it s =
      match process_request tr mtd_rw_buffer s.w req with
      | none => none
      | some out =>
        some { fetched_state s req with
          w := out.w, trace := s.trace ++ out.trace, ended := s.ended ++ [(req, out.res)],
          req := none, background_done := false } := by
  simp only [thread_body, hreq, hfetch, fetched_state]
  rw [if_neg (by simp [hfs]; omega)]

theorem thread_body_valid {σ : Type} (SECTOR_BITS : Nat)
    (tr : mtd_blktrans_ops σ)
    (capacity mtd_rw_buffer : Nat) (it : Iter) (s : Thread σ) (req : request)
    (hreq : s.req = none) (hfetch : it.fetch = some req)
    (hfs : req.cmd_type_fs = true) (hrange : blk_rq_pos req + blk_rq_sectors req ≤ capacity) :
    thread_body SECTOR_BITS tr capacity mtd_rw_buffer it s =
      match process_request tr mtd_rw_buffer s.w req with
      | none => none
      | some out =>
        some { fetched_state s req with
          w := out.w, trace := s.trace ++ out.trace, ended := s.ended ++ [(req, out.res)],
          req := none, background_done := false } :=
  thread_body_admitted SECTOR_BITS tr capacity mtd_rw_buffer it s req hreq hfetch hfs
    (Nat.le_trans (Nat.mod_le _ _) hrange)

/-! ## The worker: validation -/

/-- Claim C1, counterexample.  With a `sector_t` of 64 bits, a write of one sector
at the start sector `2^64 - 1` to a disk of 1024 sectors: the start sector plus
the sector count is `2^64`, greater than the capacity, but the sum of line 301
wraps to 0, the request passes the check, `writesect` is called for it and it is
completed with status 0. -/
theorem C1_wrapped_sum_admitted :
    blk_rq_pos (ex_req true 18446744073709551615 512 [⟨4096, 512⟩]) +
      blk_rq_sectors (ex_req true 18446744073709551615 512 [⟨4096, 512⟩]) > 1024 ∧
    (thread_body 64 ex_tr 1024 1048576
        (ex_iter (ex_req true 18446744073709551615 512 [⟨4096, 512⟩]))
        (thread_init ex_world)).map (fun s => (s.trace, s.ended)) =
      some ([Ev.tl (Call.writesect 18446744073709551615 1 4096) 0],
        [(ex_req true 18446744073709551615 512 [⟨4096, 512⟩], 0)]) := by
  refine ⟨by decide, ?_⟩
  rw [thread_body_admitted 64 ex_tr 1024 1048576 _ _
    (ex_req true 18446744073709551615 512 [⟨4096, 512⟩]) rfl rfl rfl (by decide)]
  rfl

/-- Claim C1, as amended.  A request fetched by the worker whose start sector plus
sector count, reduced modulo `2 ^ SECTOR_BITS` as the addition in `sector_t` does
(`SECTOR_BITS` being the width of `sector_t`), exceeds the capacity of the disk is
completed with `-EIO`, and nothing else happens for it: the trace (hence the list
of translation-layer calls) and the world are unchanged, and the worker holds no
request afterwards.  The reduction changes nothing when the start sector plus the
sector count is below `2 ^ SECTOR_BITS`. -/
theorem C1_out_of_range_request {σ : Type} (SECTOR_BITS : Nat)
    (tr : mtd_blktrans_ops σ)
    (capacity mtd_rw_buffer : Nat) (it : Iter) (s : Thread σ) (req : request)
    (hreq : s.req = none) (hfetch : it.fetch = some req)
    (hrange : (blk_rq_pos req + blk_rq_sectors req) % 2 ^ SECTOR_BITS > capacity) :
    (blk_rq_pos req + blk_rq_sectors req < 2 ^ SECTOR_BITS →
      (blk_rq_pos req + blk_rq_sectors req) % 2 ^ SECTOR_BITS =
        blk_rq_pos req + blk_rq_sectors req) ∧
    ∃ s1, thread_body SECTOR_BITS tr capacity mtd_rw_buffer it s = some s1 ∧
      s1.ended = s.ended ++ [(req, - EIO_errno)] ∧
      s1.trace = s.trace ∧ calls s1.trace = calls s.trace ∧ s1.w = s.w ∧
      s1.fetched = s.fetched ++ [req] ∧ s1.req = none := by
  have h := thread_body_invalid SECTOR_BITS tr capacity mtd_rw_buffer it s req hreq hfetch
    (Or.inr hrange)
  exact ⟨fun hlt => Nat.mod_eq_of_lt hlt, _, h, by simp [fetched_state]⟩

/-- Claim C1 as amended, on a request for sectors 1000 to 1099 of a disk of 1024
sectors, with a `sector_t` of 64 bits. -/
theorem C1_out_of_range_request_witness :
    (blk_rq_pos (ex_req false 1000 51200 [⟨4096, 51200⟩]) +
        blk_rq_sectors (ex_req false 1000 51200 [⟨4096, 51200⟩])) % 2 ^ 64 > 1024 ∧
    ∃ s1, thread_body 64 ex_tr 1024 0 (ex_iter (ex_req false 1000 51200 [⟨4096, 51200⟩]))
        (thread_init ex_world) = some s1 ∧
      s1.ended = (thread_init ex_world).ended ++
        [(ex_req false 1000 51200 [⟨4096, 51200⟩], - EIO_errno)] ∧
      s1.trace = (thread_init ex_world).trace ∧
      calls s1.trace = calls (thread_init ex_world).trace ∧ s1.w = (thread_init ex_world).w ∧
      s1.fetched = (thread_init ex_world).fetched ++ [ex_req false 1000 51200 [⟨4096, 51200⟩]] ∧
      s1.req = none :=
  ⟨by decide, (C1_out_of_range_request 64 ex_tr 1024 0 _ _ _ rfl rfl (by decide)).2⟩

/-! ## The worker: the segment walk -/

theorem rw_segments_nil {σ : Type} (tr : mtd_blktrans_ops σ) (c : Nat) (s : Walk σ) :
    rw_segments tr c [] s = if s.data_len ≠ 0 then switch_cmd_flag tr c s else some s := by
  simp [rw_segments, walk_segments]

theorem rw_segments_cons {σ : Type} (tr : mtd_blktrans_ops σ) (c : Nat) (bv : bio_vec)
    (rest : List bio_vec) (s : Walk σ) :
    rw_segments tr c (bv :: rest) s =
      match walk_segment tr c s bv with
      | none => none
      | some s1 => rw_segments tr c rest s1 := by
  simp only [rw_segments, walk_segments]
  cases walk_segment tr c s bv <;> rfl

/-- With the hook of the data direction present, the `switch` makes one call for
the accumulated run and keeps the locals. -/
theorem switch_cmd_flag_ok {σ : Type} (tr : mtd_blktrans_ops σ) (c : Nat) (s : Walk σ)
    (hc : c = READ ∨ (c = WRITE ∧ tr.writesect.isSome = true)) :
    ∃ (w1 : World σ) (r : Int), switch_cmd_flag tr c s = some { s with
        w := w1
        res := if r ≠ 0 then - EIO_errno else s.res
        trace := s.trace ++ [Ev.tl (run_call c s.block (s.data_len >>> 9) s.buf) r] } := by
  rcases hc with hc | ⟨hc, hw⟩
  · subst hc
    exact ⟨(tr.readsect s.w s.block (s.data_len >>> 9) s.buf).1,
      (tr.readsect s.w s.block (s.data_len >>> 9) s.buf).2, by simp [switch_cmd_flag, run_call]⟩
  · subst hc
    obtain ⟨f, hf⟩ := Option.isSome_iff_exists.mp hw
    exact ⟨(f s.w s.block (s.data_len >>> 9) s.buf).1, (f s.w s.block (s.data_len >>> 9) s.buf).2,
      by simp [switch_cmd_flag, run_call, hf, READ, WRITE]⟩

/-- The segment walk from a state with a non-empty accumulated run refines the
Segment Coalescer: it makes one call per coalesced run, in order, whatever the
calls return, and `res` ends as `-EIO` as soon as one call returned non-zero. -/
theorem rw_segments_from {σ : Type} (tr : mtd_blktrans_ops σ) (c : Nat)
    (hc : c = READ ∨ (c = WRITE ∧ tr.writesect.isSome = true)) :
    ∀ (rest : List bio_vec) (s : Walk σ), s.data_len ≠ 0 → (∀ bv ∈ rest, bv.bv_len ≠ 0) →
      ∃ out t, rw_segments tr c rest s = some out ∧ out.trace = s.trace ++ t ∧
        calls t = (spec_coalesce_from ⟨s.block, s.data_len, s.buf⟩ rest).map
          (fun r => run_call c r.start_sector (r.length / 512) r.buffer) ∧
        out.res = (if ∀ r ∈ rets t, r = 0 then s.res else - EIO_errno) ∧
        (∀ e ∈ t, ∃ cl r, e = Ev.tl cl r) := by
  intro rest
  induction rest with
  | nil =>
    intro s hs _
    obtain ⟨w1, r, h⟩ := switch_cmd_flag_ok tr c s hc
    refine ⟨_, [Ev.tl (run_call c s.block (s.data_len >>> 9) s.buf) r],
      (by rw [rw_segments_nil, if_pos hs, h]), rfl, ?_, ?_, ?_⟩
    · simp [calls, spec_coalesce_from, shift9]
    · by_cases hr : r = 0 <;> simp [rets, hr]
    · intro e he
      simp at he
      exact ⟨_, _, he⟩
  | cons bv rest ih =>
    intro s hs hl
    have hbv : bv.bv_len ≠ 0 := hl bv (List.mem_cons_self _ _)
    have hrest : ∀ b ∈ rest, b.bv_len ≠ 0 := fun b hb => hl b (List.mem_cons_of_mem _ hb)
    by_cases hadj : bv.addr = s.buf + s.data_len
    · obtain ⟨out, t, h1, h2, h3, h4, h5⟩ :=
        ih { s with data_len := s.data_len + bv.bv_len } (by simp; omega) hrest
      refine ⟨out, t, ?_, h2, ?_, h4, h5⟩
      · rw [rw_segments_cons]
        simp only [walk_segment, if_pos hadj]
        exact h1
      · rw [h3]
        simp [spec_coalesce_from, hadj]
    · obtain ⟨w1, r, h⟩ := switch_cmd_flag_ok tr c s hc
      obtain ⟨out, t, h1, h2, h3, h4, h5⟩ :=
        ih { w := w1, block := s.block + (s.data_len >>> 9), data_len := bv.bv_len,
             buf := bv.addr, res := if r ≠ 0 then - EIO_errno else s.res,
             trace := s.trace ++ [Ev.tl (run_call c s.block (s.data_len >>> 9) s.buf) r] }
          hbv hrest
      refine ⟨out, Ev.tl (run_call c s.block (s.data_len >>> 9) s.buf) r :: t, ?_, ?_, ?_, ?_, ?_⟩
      · rw [rw_segments_cons]
        simp only [walk_segment, if_neg hadj, if_pos hs, h]
        exact h1
      · rw [h2]; simp
      · simp only [calls, h3]
        simp [spec_coalesce_from, hadj, shift9]
      · rw [h4]
        by_cases hr : r = 0
        · simp [rets, hr]
        · simp [rets, hr]
      · intro e he
        rcases List.mem_cons.mp he with he | he
        · exact ⟨_, _, he⟩
        · exact h5 e he

/-- The first segment of a request opens the first run without any call. -/
theorem walk_segment_first {σ : Type} (tr : mtd_blktrans_ops σ) (c : Nat) (s : Walk σ)
    (f : bio_vec) (hd : s.data_len = 0) (hb : s.buf = 0) :
    walk_segment tr c s f = some { s with buf := f.addr, data_len := f.bv_len } := by
  by_cases h : f.addr = s.buf + s.data_len
  · have hf : f.addr = 0 := by omega
    simp only [walk_segment, if_pos h]
    cases s
    simp_all
  · simp only [walk_segment, if_neg h, hd]
    cases s
    simp_all

/-- The segment-walking path on a request with at least one segment, all segments of
non-zero length: the calls are those of the coalesced runs, every event is a
translation-layer call, and `res` is `0` when every call returned `0` and `-EIO`
otherwise. -/
theorem process_request_walk {σ : Type} (tr : mtd_blktrans_ops σ) (mtd_rw_buffer : Nat)
    (w : World σ) (req : request)
    (hpath : req.cmd_write = true ∨ mtd_rw_buffer = 0)
    (hhook : req.cmd_write = true → tr.writesect.isSome = true)
    (hne : req.segs ≠ []) (hlen : ∀ bv ∈ req.segs, bv.bv_len ≠ 0) :
    ∃ out, process_request tr mtd_rw_buffer w req = some out ∧
      calls out.trace = (spec_coalesce (blk_rq_pos req) req.segs).map
        (fun r => run_call (rq_data_dir req) r.start_sector (r.length / 512) r.buffer) ∧
      out.res = (if ∀ r ∈ rets out.trace, r = 0 then 0 else - EIO_errno) ∧
      (∀ e ∈ out.trace, ∃ cl r, e = Ev.tl cl r) := by
  have hc : rq_data_dir req = READ ∨ (rq_data_dir req = WRITE ∧ tr.writesect.isSome = true) := by
    cases hw : req.cmd_write
    · left; simp [rq_data_dir, hw, READ]
    · right; exact ⟨by simp [rq_data_dir, hw, WRITE], hhook hw⟩
  have hp : ¬ (rq_data_dir req = READ ∧ mtd_rw_buffer ≠ 0) := by
    rcases hpath with h | h
    · simp [rq_data_dir, h, READ]
    · simp [h]
  obtain ⟨f, rest, hsegs⟩ := List.exists_cons_of_ne_nil hne
  rw [hsegs] at hlen
  obtain ⟨out, t, h1, h2, h3, h4, h5⟩ := rw_segments_from tr (rq_data_dir req) hc rest
    { w := w, block := blk_rq_pos req, data_len := f.bv_len, buf := f.addr, res := 0, trace := [] }
    (hlen f (List.mem_cons_self _ _)) (fun b hb => hlen b (List.mem_cons_of_mem _ hb))
  simp only [List.nil_append] at h2
  refine ⟨out, ?_, ?_, ?_, ?_⟩
  · simp only [process_request, if_neg hp, hsegs]
    rw [rw_segments_cons, walk_segment_first tr _ _ f rfl rfl]
    exact h1
  · rw [h2, h3, hsegs]; rfl
  · rw [h4, h2]
  · rw [h2]; exact h5

/-! ## The Segment Coalescer on adjacent fragments -/

theorem seg_bytes_cons (bv : bio_vec) (l : List bio_vec) :
    seg_bytes (bv :: l) = bv.bv_len + seg_bytes l := by
  simp [seg_bytes]

theorem seg_bytes_nil : seg_bytes [] = 0 := rfl

/-- A chain of adjacent fragments that continues the run `cur` is absorbed by it. -/
theorem spec_coalesce_from_chain : ∀ (l : List bio_vec) (p : bio_vec) (cur : CoalescedRun),
    p.addr + p.bv_len = cur.buffer + cur.length → List.Chain follows p l →
    spec_coalesce_from cur l = [{ cur with length := cur.length + seg_bytes l }] := by
  intro l
  induction l with
  | nil => intro p cur _ _; simp [spec_coalesce_from, seg_bytes_nil]
  | cons bv rest ih =>
    intro p cur hp hch
    rw [List.chain_cons] at hch
    have hadj : bv.addr = cur.buffer + cur.length := by
      have := hch.1; unfold follows at this; omega
    simp only [spec_coalesce_from, if_pos hadj]
    rw [ih bv { cur with length := cur.length + bv.bv_len } (by simp; omega) hch.2]
    simp [seg_bytes_cons, Nat.add_assoc]

/-- A chain of adjacent fragments ends where its first fragment starts plus the
bytes of the chain. -/
theorem chain_getLast_end : ∀ (l : List bio_vec) (f : bio_vec), List.Chain follows f l →
    ((f :: l).getLast (List.cons_ne_nil f l)).addr + ((f :: l).getLast (List.cons_ne_nil f l)).bv_len
      = f.addr + seg_bytes (f :: l) := by
  intro l
  induction l with
  | nil => intro f _; simp [seg_bytes_cons, seg_bytes_nil]
  | cons bv rest ih =>
    intro f hch
    rw [List.chain_cons] at hch
    rw [List.getLast_cons (List.cons_ne_nil bv rest), ih bv hch.2]
    have := hch.1; unfold follows at this
    simp only [seg_bytes_cons] at *
    omega

/-- Two chains of adjacent fragments separated by one gap give two runs. -/
theorem spec_coalesce_from_gap : ∀ (l1 : List bio_vec) (p : bio_vec) (cur : CoalescedRun)
    (g : bio_vec) (l2 : List bio_vec),
    p.addr + p.bv_len = cur.buffer + cur.length → List.Chain follows p l1 →
    g.addr ≠ cur.buffer + cur.length + seg_bytes l1 → List.Chain follows g l2 →
    spec_coalesce_from cur (l1 ++ g :: l2) =
      [{ cur with length := cur.length + seg_bytes l1 },
       { start_sector := cur.start_sector + (cur.length + seg_bytes l1) / 512,
         length := seg_bytes (g :: l2), buffer := g.addr }] := by
  intro l1
  induction l1 with
  | nil =>
    intro p cur g l2 _ _ hg hch
    simp only [seg_bytes_nil, Nat.add_zero] at hg
    simp only [List.nil_append, spec_coalesce_from, if_neg hg]
    rw [spec_coalesce_from_chain l2 g _ rfl hch]
    simp [seg_bytes_cons, seg_bytes_nil]
  | cons bv rest ih =>
    intro p cur g l2 hp hch hg hch2
    rw [List.chain_cons] at hch
    have hadj : bv.addr = cur.buffer + cur.length := by
      have := hch.1; unfold follows at this; omega
    have e : spec_coalesce_from cur (bv :: (rest ++ g :: l2)) =
        spec_coalesce_from { cur with length := cur.length + bv.bv_len } (rest ++ g :: l2) := by
      simp only [spec_coalesce_from, if_pos hadj]
    rw [List.cons_append, e,
      ih bv { cur with length := cur.length + bv.bv_len } g l2 (by simp; omega) hch.2
      (by simp only [seg_bytes_cons] at hg; simp; omega) hch2]
    simp [seg_bytes_cons, Nat.add_assoc]

/-- Claim C2.  In the segment-walking path (a write, or a read while there is no
scratch buffer; for a write the layer has a `writesect` hook), on a request whose
segments all have non-zero length: when every segment starts where the previous
one ends, exactly one call is made, at the start sector of the request, from the
address of the first segment, for the sum of all segment lengths (passed as a
sector count, bytes / 512); when the only non-adjacency is between the last
segment of `f :: l1` and `g`, exactly two calls are made, the first for the
segments `f :: l1` and the second, at the following sector, for `g :: l2`. -/
theorem C2_segment_walk_runs {σ : Type} (tr : mtd_blktrans_ops σ) (mtd_rw_buffer : Nat)
    (w : World σ) (req : request)
    (hpath : req.cmd_write = true ∨ mtd_rw_buffer = 0)
    (hhook : req.cmd_write = true → tr.writesect.isSome = true)
    (hlen : ∀ bv ∈ req.segs, bv.bv_len ≠ 0) :
    (∀ f rest, req.segs = f :: rest → List.Chain' follows req.segs →
      ∃ out, process_request tr mtd_rw_buffer w req = some out ∧
        calls out.trace =
          [run_call (rq_data_dir req) (blk_rq_pos req) (seg_bytes req.segs / 512) f.addr]) ∧
    (∀ f l1 g l2, req.segs = (f :: l1) ++ g :: l2 →
      List.Chain' follows (f :: l1) → List.Chain' follows (g :: l2) →
      ¬ follows ((f :: l1).getLast (List.cons_ne_nil f l1)) g →
      ∃ out, process_request tr mtd_rw_buffer w req = some out ∧
        calls out.trace =
          [run_call (rq_data_dir req) (blk_rq_pos req) (seg_bytes (f :: l1) / 512) f.addr,
           run_call (rq_data_dir req) (blk_rq_pos req + seg_bytes (f :: l1) / 512)
             (seg_bytes (g :: l2) / 512) g.addr]) := by
  constructor
  · intro f rest hsegs hch
    obtain ⟨out, h1, h2, _, _⟩ := process_request_walk tr mtd_rw_buffer w req hpath hhook
      (by rw [hsegs]; exact List.cons_ne_nil _ _) hlen
    refine ⟨out, h1, ?_⟩
    rw [h2, hsegs]
    rw [hsegs] at hch
    simp only [spec_coalesce]
    rw [spec_coalesce_from_chain rest f _ rfl hch]
    simp [seg_bytes_cons]
  · intro f l1 g l2 hsegs hch1 hch2 hgap
    obtain ⟨out, h1, h2, _, _⟩ := process_request_walk tr mtd_rw_buffer w req hpath hhook
      (by rw [hsegs]; simp) hlen
    refine ⟨out, h1, ?_⟩
    have hend := chain_getLast_end l1 f hch1
    have hg : g.addr ≠ f.addr + f.bv_len + seg_bytes l1 := by
      intro h
      apply hgap
      unfold follows
      rw [hend, seg_bytes_cons]; omega
    rw [h2, hsegs]
    simp only [List.cons_append, spec_coalesce]
    rw [spec_coalesce_from_gap l1 f _ g l2 rfl hch1 hg hch2]
    simp [seg_bytes_cons]

/-- Claim C2 on a write of three segments: all adjacent (one call for 3 sectors),
and with a gap after the second segment (a call for 2 sectors, then one for 1). -/
theorem C2_segment_walk_runs_witness :
    (∃ out, process_request ex_tr 0 ex_world
        (ex_req true 100 1536 [⟨4096, 512⟩, ⟨4608, 512⟩, ⟨5120, 512⟩]) = some out ∧
      calls out.trace = [Call.writesect 100 3 4096]) ∧
    (∃ out, process_request ex_tr 0 ex_world
        (ex_req true 100 1536 [⟨4096, 512⟩, ⟨4608, 512⟩, ⟨8192, 512⟩]) = some out ∧
      calls out.trace = [Call.writesect 100 2 4096, Call.writesect 102 1 8192]) :=
  ⟨(C2_segment_walk_runs ex_tr 0 ex_world
      (ex_req true 100 1536 [⟨4096, 512⟩, ⟨4608, 512⟩, ⟨5120, 512⟩])
      (Or.inl rfl) (fun _ => rfl) (by decide)).1 ⟨4096, 512⟩ [⟨4608, 512⟩, ⟨5120, 512⟩] rfl
      (by simp [ex_req, follows]),
   (C2_segment_walk_runs ex_tr 0 ex_world
      (ex_req true 100 1536 [⟨4096, 512⟩, ⟨4608, 512⟩, ⟨8192, 512⟩])
      (Or.inl rfl) (fun _ => rfl) (by decide)).2 ⟨4096, 512⟩ [⟨4608, 512⟩] ⟨8192, 512⟩ [] rfl
      (by simp [follows]) (by simp) (by decide)⟩

/-! ## The worker: reads through the scratch buffer -/

/-- On segments with non-null addresses, `req_check_buffer_align` leaves its loop
early as soon as the segments after `p` are not a chain of adjacent segments. -/
theorem req_check_buffer_align_loop_gap : ∀ (l : List bio_vec) (p : bio_vec) (firstbuf : Nat),
    p.addr + p.bv_len ≠ 0 → (∀ bv ∈ l, bv.addr ≠ 0) → ¬ List.Chain follows p l →
    req_check_buffer_align_loop l firstbuf (p.addr + p.bv_len) = none := by
  intro l
  induction l with
  | nil => intro p fb _ _ h; exact absurd List.Chain.nil h
  | cons bv rest ih =>
    intro p fb hp haddr hch
    by_cases hadj : p.addr + p.bv_len = bv.addr
    · have hbv : bv.addr ≠ 0 := haddr bv (List.mem_cons_self _ _)
      have hrest : ¬ List.Chain follows bv rest := by
        intro h
        exact hch (List.Chain.cons (by unfold follows; omega) h)
      simp only [req_check_buffer_align_loop]
      rw [if_neg (by simp [hadj])]
      exact ih bv _ (by omega) (fun b hb => haddr b (List.mem_cons_of_mem _ hb)) hrest
    · simp only [req_check_buffer_align_loop]
      rw [if_pos ⟨hp, hadj⟩]

/-- When the segments of a request (all at non-null addresses) are not all
adjacent, `req_check_buffer_align` returns 0 and leaves `*pbuf` as it was. -/
theorem req_check_buffer_align_gap (req : request) (pbuf : Nat)
    (haddr : ∀ bv ∈ req.segs, bv.addr ≠ 0) (hgap : ¬ List.Chain' follows req.segs) :
    req_check_buffer_align req pbuf = (0, pbuf) := by
  unfold req_check_buffer_align
  cases hsegs : req.segs with
  | nil => rw [hsegs] at hgap; exact absurd List.chain'_nil hgap
  | cons f rest =>
    rw [hsegs] at hgap haddr
    have hf : f.addr ≠ 0 := haddr f (List.mem_cons_self _ _)
    have h := req_check_buffer_align_loop_gap rest f f.addr (by omega)
      (fun b hb => haddr b (List.mem_cons_of_mem _ hb)) hgap
    simp only [req_check_buffer_align_loop]
    rw [if_neg (by simp), if_pos trivial, h]

/-- The copy loop leaves alone every address outside of the segments. -/
theorem copy_out_outside : ∀ (l : List bio_vec) (p : Nat) (m : Mem) (a : Nat),
    (∀ bv ∈ l, ¬ (bv.addr ≤ a ∧ a < bv.addr + bv.bv_len)) → (copy_out l p m).1 a = m a := by
  intro l
  induction l with
  | nil => intro p m a _; rfl
  | cons b rest ih =>
    intro p m a h
    simp only [copy_out]
    rw [ih _ _ a (fun bv hbv => h bv (List.mem_cons_of_mem _ hbv))]
    simp only [memcpy]
    rw [if_neg (h b (List.mem_cons_self _ _))]

/-- The copy loop makes no translation-layer call. -/
theorem calls_copy_out : ∀ (l : List bio_vec) (p : Nat) (m : Mem), calls (copy_out l p m).2 = [] := by
  intro l
  induction l with
  | nil => intro p m; rfl
  | cons b rest ih => intro p m; simp only [copy_out, calls]; exact ih _ _

theorem seg_bytes_append (a b : List bio_vec) : seg_bytes (a ++ b) = seg_bytes a + seg_bytes b := by
  simp [seg_bytes]

/-- After the copy loop over pairwise disjoint segments that do not overlap the
source area, each segment holds the bytes of the source at the offset given by
the lengths of the segments before it. -/
theorem copy_out_inside : ∀ (l : List bio_vec) (p : Nat) (m : Mem),
    l.Pairwise disjoint →
    (∀ bv ∈ l, bv.addr + bv.bv_len ≤ p ∨ p + seg_bytes l ≤ bv.addr) →
    ∀ pre bv post, l = pre ++ bv :: post → ∀ j, j < bv.bv_len →
      (copy_out l p m).1 (bv.addr + j) = m (p + seg_bytes pre + j) := by
  intro l
  induction l with
  | nil => intro p m _ _ pre bv post h; simp at h
  | cons b rest ih =>
    intro p m hd hs pre bv post hl j hj
    rw [List.pairwise_cons] at hd
    simp only [copy_out]
    cases pre with
    | nil =>
      simp only [List.nil_append, List.cons.injEq] at hl
      obtain ⟨hb, hrest⟩ := hl
      subst hb
      rw [copy_out_outside]
      · simp only [memcpy, seg_bytes_nil]
        rw [if_pos ⟨by omega, by omega⟩]
        congr 1; omega
      · intro c hc
        have := hd.1 c hc
        unfold disjoint at this
        omega
    | cons b1 pre1 =>
      simp only [List.cons_append, List.cons.injEq] at hl
      obtain ⟨hb, hrest⟩ := hl
      subst hb
      have hbv : bv ∈ rest := by rw [hrest]; simp
      have hsum : seg_bytes rest = seg_bytes pre1 + (bv.bv_len + seg_bytes post) := by
        rw [hrest, seg_bytes_append, seg_bytes_cons]
      rw [ih (p + b.bv_len) _ hd.2 ?_ pre1 bv post hrest j hj]
      · simp only [memcpy, seg_bytes_cons]
        have hb := hs b (List.mem_cons_self _ _)
        rw [seg_bytes_cons] at hb
        rw [if_neg (by omega)]
        congr 1; omega
      · intro c hc
        have := hs c (List.mem_cons_of_mem _ hc)
        rw [seg_bytes_cons] at this
        omega

/-- Claim C3.  A read request within the capacity of the disk, fetched while the
scratch buffer exists, of at most `MTD_RW_SECTORS` sectors (the queue limit),
whose segments (at non-null addresses) are not all adjacent: exactly one
translation-layer call is made, `readsect` at the start sector of the request for
`data_len / 512` sectors into the scratch buffer, and the request is completed.
When the segments are pairwise disjoint and do not overlap the part of the scratch
buffer that is copied, every segment afterwards holds the bytes that `readsect`
left in the scratch buffer at the offset equal to the lengths of the segments
before it. -/
theorem C3_read_through_scratch_buffer {σ : Type} (SECTOR_BITS : Nat)
    (tr : mtd_blktrans_ops σ)
    (capacity mtd_rw_buffer : Nat) (it : Iter) (s : Thread σ) (req : request)
    (hreq : s.req = none) (hfetch : it.fetch = some req)
    (hfs : req.cmd_type_fs = true)
    (hrange : blk_rq_pos req + blk_rq_sectors req ≤ capacity)
    (hread : req.cmd_write = false) (hbuf : mtd_rw_buffer ≠ 0)
    (hq : blk_rq_sectors req ≤ MTD_RW_SECTORS)
    (haddr : ∀ bv ∈ req.segs, bv.addr ≠ 0)
    (hgap : ¬ List.Chain' follows req.segs)
    (hdisj : req.segs.Pairwise disjoint)
    (hsrc : ∀ bv ∈ req.segs,
      bv.addr + bv.bv_len ≤ mtd_rw_buffer ∨ mtd_rw_buffer + seg_bytes req.segs ≤ bv.addr) :
    ∃ s1 t res, thread_body SECTOR_BITS tr capacity mtd_rw_buffer it s = some s1 ∧
      s1.trace = s.trace ++ t ∧
      calls t = [Call.readsect (blk_rq_pos req) (req.data_len / 512) mtd_rw_buffer] ∧
      s1.ended = s.ended ++ [(req, res)] ∧
      ∀ pre bv post, req.segs = pre ++ bv :: post → ∀ j, j < bv.bv_len →
        s1.w.mem (bv.addr + j) =
          (tr.readsect s.w (blk_rq_pos req) (req.data_len / 512) mtd_rw_buffer).1.mem
            (mtd_rw_buffer + seg_bytes pre + j) := by
  have hbody := thread_body_valid SECTOR_BITS tr capacity mtd_rw_buffer it s req hreq hfetch hfs hrange
  have hq2 : ¬ (req.data_len >>> 9 > MTD_RW_SECTORS) := by
    unfold blk_rq_sectors at hq; omega
  have hp : process_request tr mtd_rw_buffer s.w req =
      some
        { w := { (tr.readsect s.w (blk_rq_pos req) (req.data_len / 512) mtd_rw_buffer).1 with
            mem := (copy_out req.segs mtd_rw_buffer
              (tr.readsect s.w (blk_rq_pos req) (req.data_len / 512) mtd_rw_buffer).1.mem).1 }
          block := blk_rq_pos req
          data_len := 0
          buf := mtd_rw_buffer
          res := if (tr.readsect s.w (blk_rq_pos req) (req.data_len / 512) mtd_rw_buffer).2 ≠ 0
            then - EIO_errno else 0
          trace := [Ev.lock_rw_buffer] ++
            [Ev.tl (Call.readsect (blk_rq_pos req) (req.data_len / 512) mtd_rw_buffer)
              (tr.readsect s.w (blk_rq_pos req) (req.data_len / 512) mtd_rw_buffer).2] ++
            (copy_out req.segs mtd_rw_buffer
              (tr.readsect s.w (blk_rq_pos req) (req.data_len / 512) mtd_rw_buffer).1.mem).2 ++
            [Ev.unlock_rw_buffer] } := by
    simp only [process_request, rq_data_dir, hread, READ]
    rw [if_pos ⟨by simp, hbuf⟩]
    simp only [read_rw_buffer, req_check_buffer_align_gap req mtd_rw_buffer haddr hgap]
    rw [if_neg hq2]
    simp [shift9]
  rw [hp] at hbody
  refine ⟨_, _, _, hbody, rfl, ?_, rfl, ?_⟩
  · simp [calls_append, calls, calls_copy_out]
  · intro pre bv post hsegs j hj
    exact copy_out_inside req.segs mtd_rw_buffer _ hdisj hsrc pre bv post hsegs j hj

/-- Claim C3 on the read of sectors 100 to 199 (51200 bytes) of a disk of 1024
sectors, in three segments of which the second does not start where the first
ends, with the scratch buffer at address 1048576. -/
theorem C3_read_through_scratch_buffer_witness :
    ∃ s1 t res,
      thread_body 64 ex_tr 1024 1048576
        (ex_iter (ex_req false 100 51200 [⟨65536, 16384⟩, ⟨131072, 16384⟩, ⟨147456, 18432⟩]))
        (thread_init ex_world) = some s1 ∧
      s1.trace = (thread_init ex_world).trace ++ t ∧
      calls t = [Call.readsect 100 100 1048576] ∧
      s1.ended = (thread_init ex_world).ended ++
        [(ex_req false 100 51200 [⟨65536, 16384⟩, ⟨131072, 16384⟩, ⟨147456, 18432⟩], res)] ∧
      ∀ pre bv post,
        (ex_req false 100 51200 [⟨65536, 16384⟩, ⟨131072, 16384⟩, ⟨147456, 18432⟩]).segs
          = pre ++ bv :: post →
        ∀ j, j < bv.bv_len →
          s1.w.mem (bv.addr + j) =
            (ex_tr.readsect (thread_init ex_world).w 100 100 1048576).1.mem
              (1048576 + seg_bytes pre + j) :=
  C3_read_through_scratch_buffer 64 ex_tr 1024 1048576
    (ex_iter (ex_req false 100 51200 [⟨65536, 16384⟩, ⟨131072, 16384⟩, ⟨147456, 18432⟩]))
    (thread_init ex_world)
    (ex_req false 100 51200 [⟨65536, 16384⟩, ⟨131072, 16384⟩, ⟨147456, 18432⟩])
    rfl rfl rfl (by decide) rfl (by decide) (by decide) (by decide)
    (by simp [ex_req, follows]) (by simp [ex_req, disjoint]) (by simp [ex_req, seg_bytes])

/-! ## The worker: writes without a `writesect` hook -/

/-- Without a `writesect` hook, the segment walk of a write that has accumulated a
non-empty run ends in the call through the null pointer. -/
theorem rw_segments_null_writesect {σ : Type} (tr : mtd_blktrans_ops σ)
    (hw : tr.writesect = none) :
    ∀ (rest : List bio_vec) (s : Walk σ), s.data_len ≠ 0 → rw_segments tr WRITE rest s = none := by
  intro rest
  induction rest with
  | nil =>
    intro s hs
    rw [rw_segments_nil, if_pos hs]
    simp [switch_cmd_flag, hw, READ, WRITE]
  | cons bv rest ih =>
    intro s hs
    rw [rw_segments_cons]
    by_cases hadj : bv.addr = s.buf + s.data_len
    · simp only [walk_segment, if_pos hadj]
      exact ih _ (by simp; omega)
    · simp only [walk_segment, if_neg hadj, if_pos hs]
      simp [switch_cmd_flag, hw, READ, WRITE]

/-- The worker dies on every valid write request whose first segment is not empty
when the translation layer has no `writesect` hook: the request is not completed. -/
theorem thread_body_null_writesect {σ : Type} (SECTOR_BITS : Nat)
    (tr : mtd_blktrans_ops σ)
    (capacity mtd_rw_buffer : Nat) (it : Iter) (s : Thread σ) (req : request)
    (f : bio_vec) (rest : List bio_vec)
    (hreq : s.req = none) (hfetch : it.fetch = some req)
    (hfs : req.cmd_type_fs = true)
    (hrange : blk_rq_pos req + blk_rq_sectors req ≤ capacity)
    (hwrite : req.cmd_write = true) (hw : tr.writesect = none)
    (hsegs : req.segs = f :: rest) (hf : f.bv_len ≠ 0) :
    thread_body SECTOR_BITS tr capacity mtd_rw_buffer it s = none := by
  rw [thread_body_valid SECTOR_BITS tr capacity mtd_rw_buffer it s req hreq hfetch hfs hrange]
  have hp : process_request tr mtd_rw_buffer s.w req = none := by
    simp only [process_request, rq_data_dir, hwrite, hsegs]
    rw [if_neg (by simp [READ])]
    rw [rw_segments_cons, walk_segment_first tr _ _ f rfl rfl]
    exact rw_segments_null_writesect tr hw rest _ hf
  rw [hp]

/-- Claim C4 (the code departs from it).  A write of one sector at sector 100 of a
disk of 1024 sectors, to a translation layer without `writesect`: the worker does
not complete the request with an error, it calls through the null `writesect`
pointer and dies. -/
theorem C4_write_without_writesect_not_completed :
    ex_tr_readonly.writesect.isNone = true ∧
    blk_rq_pos (ex_req true 100 512 [⟨4096, 512⟩]) +
      blk_rq_sectors (ex_req true 100 512 [⟨4096, 512⟩]) ≤ 1024 ∧
    (thread_body 64 ex_tr_readonly 1024 1048576 (ex_iter (ex_req true 100 512 [⟨4096, 512⟩]))
      (thread_init ex_world)).isNone = true := by
  refine ⟨rfl, by decide, ?_⟩
  rw [thread_body_null_writesect 64 ex_tr_readonly 1024 1048576 _ _ (ex_req true 100 512 [⟨4096, 512⟩])
    ⟨4096, 512⟩ [] rfl rfl rfl (by decide) rfl rfl rfl (by decide)]
  rfl

/-! ## The worker: discard requests -/

/-- The worker never calls the hook `tr->discard`: the `switch` of the segment walk
only calls `readsect` and `writesect`. -/
theorem switch_cmd_flag_no_discard {σ : Type} (tr : mtd_blktrans_ops σ) (c : Nat)
    (s s1 : Walk σ) (h : switch_cmd_flag tr c s = some s1) (hs : no_discard s.trace) :
    no_discard s1.trace := by
  unfold switch_cmd_flag at h
  by_cases hr : c = READ
  · rw [if_pos hr] at h
    simp only [Option.some.injEq] at h
    subst h
    intro b n hmem
    simp only [calls_append, calls, List.mem_append, List.mem_singleton] at hmem
    rcases hmem with hmem | hmem
    · exact hs b n hmem
    · cases hmem
  · rw [if_neg hr] at h
    by_cases hw : c = WRITE
    · rw [if_pos hw] at h
      cases hf : tr.writesect with
      | none => simp [hf] at h
      | some f =>
        simp only [hf, Option.some.injEq] at h
        subst h
        intro b n hmem
        simp only [calls_append, calls, List.mem_append, List.mem_singleton] at hmem
        rcases hmem with hmem | hmem
        · exact hs b n hmem
        · cases hmem
    · rw [if_neg hw] at h
      simp only [Option.some.injEq] at h
      subst h
      exact hs

theorem walk_segment_no_discard {σ : Type} (tr : mtd_blktrans_ops σ) (c : Nat)
    (s s1 : Walk σ) (bv : bio_vec) (h : walk_segment tr c s bv = some s1)
    (hs : no_discard s.trace) : no_discard s1.trace := by
  unfold walk_segment at h
  by_cases hadj : bv.addr = s.buf + s.data_len
  · rw [if_pos hadj] at h
    simp only [Option.some.injEq] at h
    subst h
    exact hs
  · rw [if_neg hadj] at h
    by_cases hd : s.data_len ≠ 0
    · rw [if_pos hd] at h
      cases hsw : switch_cmd_flag tr c s with
      | none => simp [hsw] at h
      | some s2 =>
        simp only [hsw, Option.some.injEq] at h
        subst h
        exact switch_cmd_flag_no_discard tr c s s2 hsw hs
    · rw [if_neg hd] at h
      simp only [Option.some.injEq] at h
      subst h
      exact hs

theorem rw_segments_no_discard {σ : Type} (tr : mtd_blktrans_ops σ) (c : Nat) :
    ∀ (l : List bio_vec) (s s1 : Walk σ), rw_segments tr c l s = some s1 →
      no_discard s.trace → no_discard s1.trace := by
  intro l
  induction l with
  | nil =>
    intro s s1 h hs
    rw [rw_segments_nil] at h
    by_cases hd : s.data_len ≠ 0
    · rw [if_pos hd] at h
      exact switch_cmd_flag_no_discard tr c s s1 h hs
    · rw [if_neg hd] at h
      simp only [Option.some.injEq] at h
      subst h
      exact hs
  | cons bv rest ih =>
    intro s s1 h hs
    rw [rw_segments_cons] at h
    cases hw : walk_segment tr c s bv with
    | none => simp [hw] at h
    | some s2 =>
      simp only [hw] at h
      exact ih s2 s1 h (walk_segment_no_discard tr c s s2 bv hw hs)

theorem process_request_no_discard {σ : Type} (tr : mtd_blktrans_ops σ) (mtd_rw_buffer : Nat)
    (w : World σ) (req : request) (out : Walk σ)
    (h : process_request tr mtd_rw_buffer w req = some out) : no_discard out.trace := by
  unfold process_request at h
  have h0 : no_discard ([] : List Ev) := by intro b n hmem; simp [calls] at hmem
  by_cases hp : rq_data_dir req = READ ∧ mtd_rw_buffer ≠ 0
  · simp only [if_pos hp, read_rw_buffer] at h
    by_cases hq : req.data_len >>> 9 > MTD_RW_SECTORS
    · simp [hq] at h
    · rw [if_neg hq] at h
      by_cases hb : (req_check_buffer_align req mtd_rw_buffer).2 = mtd_rw_buffer
      · simp only [if_pos hb, Option.some.injEq] at h
        subst h
        intro b n hmem
        simp [calls_append, calls, calls_copy_out] at hmem
      · simp only [if_neg hb, Option.some.injEq] at h
        subst h
        intro b n hmem
        simp [calls_append, calls] at hmem
  · simp only [if_neg hp] at h
    exact rw_segments_no_discard tr _ req.segs _ out h h0

/-- Whatever request the worker fetches, whatever its flags and segments, one
iteration of the worker adds no call of `tr->discard` to the trace. -/
theorem thread_body_no_discard {σ : Type} (SECTOR_BITS : Nat)
    (tr : mtd_blktrans_ops σ)
    (capacity mtd_rw_buffer : Nat) (it : Iter) (s s1 : Thread σ) (req : request)
    (hreq : s.req = none) (hfetch : it.fetch = some req)
    (h : thread_body SECTOR_BITS tr capacity mtd_rw_buffer it s = some s1)
    (hs : no_discard s.trace) :
    no_discard s1.trace := by
  by_cases hbad : req.cmd_type_fs = false ∨
      (blk_rq_pos req + blk_rq_sectors req) % 2 ^ SECTOR_BITS > capacity
  · rw [thread_body_invalid SECTOR_BITS tr capacity mtd_rw_buffer it s req hreq hfetch hbad] at h
    simp only [Option.some.injEq] at h
    subst h
    exact hs
  · have hfs : req.cmd_type_fs = true := by
      cases hc : req.cmd_type_fs
      · exact absurd (Or.inl hc) hbad
      · rfl
    have hrange : (blk_rq_pos req + blk_rq_sectors req) % 2 ^ SECTOR_BITS ≤ capacity := by
      by_contra hc
      exact hbad (Or.inr (by omega))
    rw [thread_body_admitted SECTOR_BITS tr capacity mtd_rw_buffer it s req hreq hfetch hfs
      hrange] at h
    cases hp : process_request tr mtd_rw_buffer s.w req with
    | none => simp [hp] at h
    | some out =>
      simp only [hp, Option.some.injEq] at h
      subst h
      intro b n hmem
      simp only [calls_append, List.mem_append] at hmem
      rcases hmem with hmem | hmem
      · exact hs b n hmem
      · exact process_request_no_discard tr mtd_rw_buffer s.w req out hp b n hmem

/-- Claim C5 (the code departs from it).  A discard request of 8 sectors at sector 16
of a disk of 1024 sectors, to a translation layer that has a `discard` hook: the
worker makes no translation-layer call at all and completes the request with
status 0.  To a layer without `discard` hook the same request is completed with
status 0 as well, not with an error. -/
theorem C5_discard_not_forwarded :
    ex_tr.discard.isSome = true ∧ ex_tr_no_discard.discard.isNone = true ∧
    ex_discard.cmd_discard = true ∧
    blk_rq_pos ex_discard + blk_rq_sectors ex_discard ≤ 1024 ∧
    (thread_body 64 ex_tr 1024 1048576 (ex_iter ex_discard) (thread_init ex_world)).map
      (fun s => (s.trace, s.ended)) = some ([], [(ex_discard, 0)]) ∧
    (thread_body 64 ex_tr_no_discard 1024 1048576 (ex_iter ex_discard) (thread_init ex_world)).map
      (fun s => (s.trace, s.ended)) = some ([], [(ex_discard, 0)]) := by
  refine ⟨rfl, rfl, rfl, by decide, ?_, ?_⟩
  · rw [thread_body_valid 64 ex_tr 1024 1048576 _ _ ex_discard rfl rfl rfl (by decide)]
    rfl
  · rw [thread_body_valid 64 ex_tr_no_discard 1024 1048576 _ _ ex_discard rfl rfl rfl (by decide)]
    rfl

/-! ## The worker: write errors -/

/-- Claim C6, counterexample.  A write of two non-adjacent segments to a layer
whose `writesect` fails: the first call returns `-5`, and the call for the second
run is made all the same; the request is completed with `-EIO`. -/
theorem C6_write_continues_after_failure :
    (thread_body 64 ex_tr_write_fails 1024 1048576
        (ex_iter (ex_req true 100 1024 [⟨4096, 512⟩, ⟨8192, 512⟩])) (thread_init ex_world)).map
      (fun s => (s.trace, s.ended)) =
    some ([Ev.tl (Call.writesect 100 1 4096) (-5), Ev.tl (Call.writesect 101 1 8192) (-5)],
      [(ex_req true 100 1024 [⟨4096, 512⟩, ⟨8192, 512⟩], - EIO_errno)]) := by
  rw [thread_body_valid 64 ex_tr_write_fails 1024 1048576 _ _
    (ex_req true 100 1024 [⟨4096, 512⟩, ⟨8192, 512⟩]) rfl rfl rfl (by decide)]
  rfl

/-- Claim C6, as amended.  For a valid write request with at least one segment, all
segments of non-zero length, to a layer with a `writesect` hook: a `writesect`
call is made for every coalesced run of the request, in order, whatever the
earlier calls returned; the request is completed with `-EIO` when some call
returned non-zero, and with 0 when all returned 0. -/
theorem C6_write_runs_all_issued {σ : Type} (SECTOR_BITS : Nat)
    (tr : mtd_blktrans_ops σ)
    (capacity mtd_rw_buffer : Nat) (it : Iter) (s : Thread σ) (req : request)
    (hreq : s.req = none) (hfetch : it.fetch = some req)
    (hfs : req.cmd_type_fs = true)
    (hrange : blk_rq_pos req + blk_rq_sectors req ≤ capacity)
    (hwrite : req.cmd_write = true) (hhook : tr.writesect.isSome = true)
    (hne : req.segs ≠ []) (hlen : ∀ bv ∈ req.segs, bv.bv_len ≠ 0) :
    ∃ s1 t res, thread_body SECTOR_BITS tr capacity mtd_rw_buffer it s = some s1 ∧
      s1.trace = s.trace ++ t ∧
      calls t = (spec_coalesce (blk_rq_pos req) req.segs).map
        (fun r => Call.writesect r.start_sector (r.length / 512) r.buffer) ∧
      s1.ended = s.ended ++ [(req, res)] ∧
      ((∃ r ∈ rets t, r ≠ 0) → res = - EIO_errno) ∧
      ((∀ r ∈ rets t, r = 0) → res = 0) := by
  obtain ⟨out, h1, h2, h3, _⟩ := process_request_walk tr mtd_rw_buffer s.w req (Or.inl hwrite)
    (fun _ => hhook) hne hlen
  have hbody := thread_body_valid SECTOR_BITS tr capacity mtd_rw_buffer it s req hreq hfetch hfs hrange
  rw [h1] at hbody
  refine ⟨_, out.trace, out.res, hbody, rfl, ?_, rfl, ?_, ?_⟩
  · rw [h2]
    simp [run_call, rq_data_dir, hwrite, READ]
  · rintro ⟨r, hr, hr0⟩
    rw [h3, if_neg]
    intro h
    exact hr0 (h r hr)
  · intro h
    rw [h3, if_pos h]

/-- Claim C6 as amended, on a write of two non-adjacent segments. -/
theorem C6_write_runs_all_issued_witness :
    ∃ s1 t res,
      thread_body 64 ex_tr_write_fails 1024 1048576
        (ex_iter (ex_req true 100 1024 [⟨4096, 512⟩, ⟨8192, 512⟩])) (thread_init ex_world)
        = some s1 ∧
      s1.trace = (thread_init ex_world).trace ++ t ∧
      calls t = (spec_coalesce (blk_rq_pos (ex_req true 100 1024 [⟨4096, 512⟩, ⟨8192, 512⟩]))
          (ex_req true 100 1024 [⟨4096, 512⟩, ⟨8192, 512⟩]).segs).map
        (fun r => Call.writesect r.start_sector (r.length / 512) r.buffer) ∧
      s1.ended = (thread_init ex_world).ended ++
        [(ex_req true 100 1024 [⟨4096, 512⟩, ⟨8192, 512⟩], res)] ∧
      ((∃ r ∈ rets t, r ≠ 0) → res = - EIO_errno) ∧
      ((∀ r ∈ rets t, r = 0) → res = 0) :=
  C6_write_runs_all_issued 64 ex_tr_write_fails 1024 1048576
    (ex_iter (ex_req true 100 1024 [⟨4096, 512⟩, ⟨8192, 512⟩])) (thread_init ex_world)
    (ex_req true 100 1024 [⟨4096, 512⟩, ⟨8192, 512⟩])
    rfl rfl rfl (by decide) rfl rfl (by decide) (by decide)

/-! ## The worker: every request is completed once -/

/-- With the hook of the data direction present the segment walk always returns. -/
theorem rw_segments_total {σ : Type} (tr : mtd_blktrans_ops σ) (c : Nat)
    (hc : c = READ ∨ (c = WRITE ∧ tr.writesect.isSome = true)) :
    ∀ (l : List bio_vec) (s : Walk σ), ∃ out, rw_segments tr c l s = some out := by
  intro l
  induction l with
  | nil =>
    intro s
    rw [rw_segments_nil]
    by_cases hs : s.data_len ≠ 0
    · rw [if_pos hs]
      obtain ⟨w1, r, h⟩ := switch_cmd_flag_ok tr c s hc
      exact ⟨_, h⟩
    · rw [if_neg hs]; exact ⟨_, rfl⟩
  | cons bv rest ih =>
    intro s
    rw [rw_segments_cons]
    by_cases hadj : bv.addr = s.buf + s.data_len
    · simp only [walk_segment, if_pos hadj]
      exact ih _
    · by_cases hs : s.data_len ≠ 0
      · obtain ⟨w1, r, h⟩ := switch_cmd_flag_ok tr c s hc
        simp only [walk_segment, if_neg hadj, if_pos hs, h]
        exact ih _
      · simp only [walk_segment, if_neg hadj, if_neg hs]
        exact ih _

/-- A serviceable request is processed to the end. -/
theorem process_request_total {σ : Type} (tr : mtd_blktrans_ops σ) (mtd_rw_buffer : Nat)
    (w : World σ) (req : request) (hs : serviceable tr mtd_rw_buffer req) :
    ∃ out, process_request tr mtd_rw_buffer w req = some out := by
  unfold process_request
  by_cases hp : rq_data_dir req = READ ∧ mtd_rw_buffer ≠ 0
  · have hread : req.cmd_write = false := by
      cases h : req.cmd_write
      · rfl
      · simp [rq_data_dir, h, READ] at hp
    have hq := hs.2 hread hp.2
    simp only [if_pos hp, read_rw_buffer]
    rw [if_neg (by unfold blk_rq_sectors at hq; omega)]
    by_cases hb : (req_check_buffer_align req mtd_rw_buffer).2 = mtd_rw_buffer
    · rw [if_pos hb]; exact ⟨_, rfl⟩
    · rw [if_neg hb]; exact ⟨_, rfl⟩
  · simp only [if_neg hp]
    apply rw_segments_total
    cases h : req.cmd_write
    · left; simp [rq_data_dir, h, READ]
    · right; exact ⟨by simp [rq_data_dir, h, WRITE], hs.1 h⟩

theorem kref_put_of_two_le {σ : Type} (d : Disk σ) (h : 2 ≤ d.dev.ref) :
    kref_put d = { d with dev := { d.dev with ref := d.dev.ref - 1 } } := by
  unfold kref_put
  simp only
  rw [if_neg (by show ¬ (d.dev.ref - 1 = 0); omega)]

/-- A successful first open of a present device with a live medium: the hook
`tr->open`, if there is one, and `__get_mtd_device` are called once each and
return 0, the open count becomes 1 and one reference is kept. -/
theorem blktrans_open_first {σ : Type} (tr : mtd_blktrans_ops σ) (d : Disk σ) (m : mtd_info σ)
    (hp : d.private_data = true) (hmtd : d.dev.mtd = some m)
    (hopen : d.dev.open_count = 0) (hret : (blktrans_open tr d).2 = 0) :
    (blktrans_open tr d).1.private_data = true ∧
    (blktrans_open tr d).1.dev.open_count = 1 ∧
    (blktrans_open tr d).1.dev.mtd = some m ∧
    (blktrans_open tr d).1.dev.ref = d.dev.ref + 1 ∧
    (blktrans_open tr d).1.log = d.log ++ first_open_events tr := by
  unfold blktrans_open at hret ⊢
  simp only [hp, kref_get, module_ref, hopen, hmtd] at hret ⊢
  cases ho : tr.open_hook with
  | none =>
    simp only [ho] at hret ⊢
    by_cases hg : (m.get_mtd_device d.w).2 = 0
    · simp [hg, blktrans_open_unlock, blktrans_dev_put, kref_put, first_open_events, ho, hp, hmtd]
    · simp [hg, blktrans_open_error_release, blktrans_open_error_put] at hret
      cases hr : tr.release <;> simp [hr] at hret <;> exact absurd hret hg
  | some f =>
    simp only [ho] at hret ⊢
    by_cases hf : (f d.w).2 = 0
    · by_cases hg : (m.get_mtd_device (f d.w).1).2 = 0
      · simp [hf, hg, blktrans_open_unlock, blktrans_dev_put, kref_put, first_open_events, ho, hp,
          hmtd]
      · simp [hf, hg, blktrans_open_error_release, blktrans_open_error_put] at hret
        cases hr : tr.release <;> simp [hr] at hret <;> exact absurd hret hg
    · simp [hf, blktrans_open_error_put] at hret

/-- An open of a device that is already open only counts. -/
theorem blktrans_open_again {σ : Type} (tr : mtd_blktrans_ops σ) (d : Disk σ)
    (hp : d.private_data = true) (href : 1 ≤ d.dev.ref) (hopen : d.dev.open_count ≠ 0) :
    (blktrans_open tr d).2 = 0 ∧
    (blktrans_open tr d).1.private_data = true ∧
    (blktrans_open tr d).1.dev.open_count = d.dev.open_count + 1 ∧
    (blktrans_open tr d).1.dev.mtd = d.dev.mtd ∧
    (blktrans_open tr d).1.dev.ref = d.dev.ref ∧
    (blktrans_open tr d).1.log = d.log := by
  unfold blktrans_open
  simp only [hp, kref_get]
  rw [if_neg (by simp), if_pos hopen]
  have h0 : d.dev.ref ≠ 0 := by omega
  simp [blktrans_open_unlock, blktrans_dev_put, kref_put, hp, h0]

/-- A release that is not the last one only counts. -/
theorem blktrans_release_not_last {σ : Type} (tr : mtd_blktrans_ops σ) (d : Disk σ)
    (hp : d.private_data = true) (href : 1 ≤ d.dev.ref) (hopen : d.dev.open_count - 1 ≠ 0) :
    (blktrans_release tr d).1.private_data = true ∧
    (blktrans_release tr d).1.dev.open_count = d.dev.open_count - 1 ∧
    (blktrans_release tr d).1.dev.mtd = d.dev.mtd ∧
    (blktrans_release tr d).1.dev.ref = d.dev.ref ∧
    (blktrans_release tr d).1.log = d.log := by
  unfold blktrans_release
  simp only [hp, kref_get]
  rw [if_neg (by simp), if_pos hopen]
  have h0 : d.dev.ref ≠ 0 := by omega
  simp [blktrans_dev_put, kref_put, hp, h0]

/-- The last release of a device with a live medium calls the hook `tr->release`,
if there is one, and `__put_mtd_device`, once each, and leaves the device closed. -/
theorem blktrans_release_last {σ : Type} (tr : mtd_blktrans_ops σ) (d : Disk σ) (m : mtd_info σ)
    (hp : d.private_data = true) (href : 2 ≤ d.dev.ref) (hmtd : d.dev.mtd = some m)
    (hopen : d.dev.open_count = 1) :
    (blktrans_release tr d).1.private_data = true ∧
    (blktrans_release tr d).1.dev.open_count = 0 ∧
    (blktrans_release tr d).1.log = d.log ++ last_release_events tr d.w := by
  unfold blktrans_release
  simp only [hp, kref_get, hopen]
  rw [if_neg (by simp), if_neg (by simp)]
  have h1 : d.dev.ref - 1 ≠ 0 := by omega
  have h2 : d.dev.ref ≠ 0 := by omega
  cases hr : tr.release <;>
    simp [blktrans_dev_put, kref_put, module_ref, hp, hmtd, h1, h2, last_release_events, hr]

theorem open_hook_count_append (a b : List LifeEv) :
    open_hook_count (a ++ b) = open_hook_count a + open_hook_count b := by
  simp [open_hook_count]

theorem release_hook_count_append (a b : List LifeEv) :
    release_hook_count (a ++ b) = release_hook_count a + release_hook_count b := by
  simp [release_hook_count]

theorem open_hook_count_first_open {σ : Type} (tr : mtd_blktrans_ops σ) :
    open_hook_count (first_open_events tr) = if tr.open_hook.isSome then 1 else 0 := by
  cases h : tr.open_hook <;> simp [first_open_events, open_hook_count, h]

theorem release_hook_count_last_release {σ : Type} (tr : mtd_blktrans_ops σ) (w : World σ) :
    release_hook_count (last_release_events tr w) = if tr.release.isSome then 1 else 0 := by
  cases h : tr.release <;> simp [last_release_events, release_hook_count, h]

theorem open_hook_count_last_release {σ : Type} (tr : mtd_blktrans_ops σ) (w : World σ) :
    open_hook_count (last_release_events tr w) = 0 := by
  cases h : tr.release <;> simp [last_release_events, open_hook_count, h]

/-- After a successful first open, any number of further opens leaves the device
open that many times, with the log of the first open. -/
theorem open_times_opened {σ : Type} (tr : mtd_blktrans_ops σ) (d : Disk σ) (m : mtd_info σ)
    (hp : d.private_data = true) (hmtd : d.dev.mtd = some m)
    (hopen : d.dev.open_count = 0) (hret : (blktrans_open tr d).2 = 0) :
    ∀ k : Nat, 1 ≤ k →
      (open_times tr k d).private_data = true ∧
      (open_times tr k d).dev.open_count = (k : Int) ∧
      (open_times tr k d).dev.mtd = some m ∧
      (open_times tr k d).dev.ref = d.dev.ref + 1 ∧
      (open_times tr k d).log = d.log ++ first_open_events tr := by
  intro k
  induction k with
  | zero => intro h; omega
  | succ n ih =>
    intro _
    by_cases hn : n = 0
    · subst hn
      obtain ⟨h1, h2, h3, h4, h5⟩ := blktrans_open_first tr d m hp hmtd hopen hret
      exact ⟨h1, by simpa [open_times] using h2, h3, h4, h5⟩
    · obtain ⟨i1, i2, i3, i4, i5⟩ := ih (by omega)
      obtain ⟨_, h1, h2, h3, h4, h5⟩ := blktrans_open_again tr (open_times tr n d) i1
        (by omega) (by rw [i2]; exact_mod_cast hn)
      refine ⟨h1, ?_, ?_, ?_, ?_⟩
      · show (blktrans_open tr (open_times tr n d)).1.dev.open_count = _
        rw [h2, i2]; push_cast; ring
      · show (blktrans_open tr (open_times tr n d)).1.dev.mtd = _
        rw [h3, i3]
      · show (blktrans_open tr (open_times tr n d)).1.dev.ref = _
        rw [h4, i4]
      · show (blktrans_open tr (open_times tr n d)).1.log = _
        rw [h5, i5]

/-- Releases of a device that is open `n` times, short of the last one, only
count down. -/
theorem release_times_open {σ : Type} (tr : mtd_blktrans_ops σ) (x : Disk σ) (m : mtd_info σ)
    (n : Nat) (hp : x.private_data = true) (href : 2 ≤ x.dev.ref) (hmtd : x.dev.mtd = some m)
    (hopen : x.dev.open_count = (n : Int)) :
    ∀ j : Nat, j < n →
      (release_times tr j x).private_data = true ∧
      (release_times tr j x).dev.open_count = (n : Int) - (j : Int) ∧
      (release_times tr j x).dev.mtd = some m ∧
      (release_times tr j x).dev.ref = x.dev.ref ∧
      (release_times tr j x).log = x.log := by
  intro j
  induction j with
  | zero => intro _; exact ⟨hp, by simpa using hopen, hmtd, rfl, rfl⟩
  | succ i ih =>
    intro hlt
    obtain ⟨i1, i2, i3, i4, i5⟩ := ih (by omega)
    obtain ⟨h1, h2, h3, h4, h5⟩ := blktrans_release_not_last tr (release_times tr i x) i1
      (by omega) (by rw [i2]; omega)
    refine ⟨h1, ?_, ?_, ?_, ?_⟩
    · show (blktrans_release tr (release_times tr i x)).1.dev.open_count = _
      rw [h2, i2]; push_cast; ring
    · show (blktrans_release tr (release_times tr i x)).1.dev.mtd = _
      rw [h3, i3]
    · show (blktrans_release tr (release_times tr i x)).1.dev.ref = _
      rw [h4, i4]
    · show (blktrans_release tr (release_times tr i x)).1.log = _
      rw [h5, i5]

/-- Claim C8.  On a present device with a live medium and open count 0, let `N ≥ 1`
calls of `blktrans_open` succeed, and let `N` calls of `blktrans_release` follow.
The hook `tr->open` (when the layer has one) is called once, by the first open:
the later opens log nothing.  The first `N - 1` releases log nothing and count
the opens down; the `N`-th release calls the hook `tr->release` (when the layer has
one) once, calls no open hook, and leaves the open count at 0. -/
theorem C8_open_release_counting {σ : Type} (tr : mtd_blktrans_ops σ) (d : Disk σ)
    (m : mtd_info σ) (N : Nat) (hN : 1 ≤ N)
    (hp : d.private_data = true) (href : 1 ≤ d.dev.ref) (hmtd : d.dev.mtd = some m)
    (hopen : d.dev.open_count = 0)
    (hok : ∀ k, k < N → (blktrans_open tr (open_times tr k d)).2 = 0) :
    open_hook_count (open_times tr 1 d).log =
      open_hook_count d.log + (if tr.open_hook.isSome then 1 else 0) ∧
    release_hook_count (open_times tr 1 d).log = release_hook_count d.log ∧
    (∀ k, 1 ≤ k → k ≤ N → (open_times tr k d).log = (open_times tr 1 d).log) ∧
    (open_times tr N d).dev.open_count = (N : Int) ∧
    (∀ j, j < N →
      (release_times tr j (open_times tr N d)).log = (open_times tr N d).log ∧
      (release_times tr j (open_times tr N d)).dev.open_count = (N : Int) - (j : Int)) ∧
    release_hook_count (release_times tr N (open_times tr N d)).log =
      release_hook_count (open_times tr N d).log + (if tr.release.isSome then 1 else 0) ∧
    open_hook_count (release_times tr N (open_times tr N d)).log =
      open_hook_count (open_times tr N d).log ∧
    (release_times tr N (open_times tr N d)).dev.open_count = 0 := by
  have hret : (blktrans_open tr d).2 = 0 := hok 0 (by omega)
  have hO := open_times_opened tr d m hp hmtd hopen hret
  obtain ⟨a1, a2, a3, a4, a5⟩ := hO 1 (le_refl 1)
  obtain ⟨n1, n2, n3, n4, n5⟩ := hO N hN
  have hR := release_times_open tr (open_times tr N d) m N n1 (by omega) n3 n2
  obtain ⟨r1, r2, r3, r4, r5⟩ := hR (N - 1) (by omega)
  have hlast := blktrans_release_last tr (release_times tr (N - 1) (open_times tr N d)) m r1
    (by omega) r3 (by rw [r2]; push_cast [hN]; ring)
  have hfin : release_times tr N (open_times tr N d) =
      (blktrans_release tr (release_times tr (N - 1) (open_times tr N d))).1 := by
    obtain ⟨n, rfl⟩ : ∃ n, N = n + 1 := ⟨N - 1, by omega⟩
    rfl
  refine ⟨?_, ?_, ?_, n2, ?_, ?_, ?_, ?_⟩
  · rw [a5, open_hook_count_append, open_hook_count_first_open]
  · rw [a5, release_hook_count_append]
    cases h : tr.open_hook <;> simp [first_open_events, release_hook_count, h]
  · intro k hk _
    rw [(hO k hk).2.2.2.2, a5]
  · intro j hj
    exact ⟨(hR j hj).2.2.2.2, (hR j hj).2.1⟩
  · rw [hfin, hlast.2.2, r5, release_hook_count_append, release_hook_count_last_release]
  · rw [hfin, hlast.2.2, r5, open_hook_count_append, open_hook_count_last_release]
    rfl
  · rw [hfin]; exact hlast.2.1

/-- Claim C8 with three opens and three releases of the example disk. -/
theorem C8_open_release_counting_witness :
    open_hook_count (open_times ex_tr 1 ex_disk).log =
      open_hook_count ex_disk.log + (if ex_tr.open_hook.isSome then 1 else 0) ∧
    release_hook_count (open_times ex_tr 1 ex_disk).log = release_hook_count ex_disk.log ∧
    (∀ k, 1 ≤ k → k ≤ 3 → (open_times ex_tr k ex_disk).log = (open_times ex_tr 1 ex_disk).log) ∧
    (open_times ex_tr 3 ex_disk).dev.open_count = ((3 : Nat) : Int) ∧
    (∀ j, j < 3 →
      (release_times ex_tr j (open_times ex_tr 3 ex_disk)).log = (open_times ex_tr 3 ex_disk).log ∧
      (release_times ex_tr j (open_times ex_tr 3 ex_disk)).dev.open_count =
        ((3 : Nat) : Int) - (j : Int)) ∧
    release_hook_count (release_times ex_tr 3 (open_times ex_tr 3 ex_disk)).log =
      release_hook_count (open_times ex_tr 3 ex_disk).log +
        (if ex_tr.release.isSome then 1 else 0) ∧
    open_hook_count (release_times ex_tr 3 (open_times ex_tr 3 ex_disk)).log =
      open_hook_count (open_times ex_tr 3 ex_disk).log ∧
    (release_times ex_tr 3 (open_times ex_tr 3 ex_disk)).dev.open_count = 0 :=
  C8_open_release_counting ex_tr ex_disk ex_mtd 3 (by decide) rfl (by decide) rfl rfl (by
    intro k hk
    have : k = 0 ∨ k = 1 ∨ k = 2 := by omega
    rcases this with h | h | h <;> subst h <;> rfl)

/-! ## Device numbering -/

theorem devnums_append {σ : Type} (a b : List (mtd_blktrans_dev σ)) :
    devnums (a ++ b) = devnums a ++ devnums b := by
  simp [devnums]

theorem devnums_cons {σ : Type} (d : mtd_blktrans_dev σ) (l : List (mtd_blktrans_dev σ)) :
    devnums (d :: l) = d.devnum :: devnums l := rfl

theorem devnums_nil {σ : Type} : devnums ([] : List (mtd_blktrans_dev σ)) = [] := rfl

/-- The scan for "any number" over a strictly increasing list, when the devices
passed hold exactly the numbers `0 .. last_devnum`: it stops at the first gap and
chooses the number of the gap, or reaches the end with every number up to the last
one taken. -/
theorem scan_devs_any {σ : Type} : ∀ (rest before : List (mtd_blktrans_dev σ)) (last : Int),
    -1 ≤ last →
    (∀ k : Int, 0 ≤ k → k ≤ last → k ∈ devnums before) →
    (∀ x ∈ devnums before, x ≤ last) →
    (∀ x ∈ devnums rest, last < x) →
    (devnums rest).Pairwise (· < ·) →
    (∃ n b a, scan_devs (-1) rest before last = Scan.added n b a ∧ b ++ a = before ++ rest ∧
        a ≠ [] ∧ 0 ≤ n ∧ (∀ k : Int, 0 ≤ k → k < n → k ∈ devnums b) ∧
        (∀ x ∈ devnums b, x < n) ∧ (∀ x ∈ devnums a, n < x)) ∨
    (∃ l1, scan_devs (-1) rest before last = Scan.fell_through l1 ∧ -1 ≤ l1 ∧
        (∀ k : Int, 0 ≤ k → k ≤ l1 → k ∈ devnums (before ++ rest)) ∧
        (∀ x ∈ devnums (before ++ rest), x ≤ l1)) := by
  intro rest
  induction rest with
  | nil =>
    intro before last h1 h2 h3 _ _
    right
    exact ⟨last, rfl, h1, by simpa using h2, by simpa using h3⟩
  | cons d rest ih =>
    intro before last h1 h2 h3 h4 h5
    rw [devnums_cons, List.pairwise_cons] at h5
    have hd : last < d.devnum := h4 d.devnum (by simp [devnums_cons])
    by_cases hgap : d.devnum ≠ last + 1
    · left
      refine ⟨last + 1, before, d :: rest, ?_, rfl, List.cons_ne_nil _ _, by omega, ?_, ?_, ?_⟩
      · simp only [scan_devs]
        rw [if_pos trivial, if_pos hgap]
      · intro k hk0 hk; exact h2 k hk0 (by omega)
      · intro x hx; have := h3 x hx; omega
      · intro x hx
        rw [devnums_cons, List.mem_cons] at hx
        rcases hx with hx | hx
        · omega
        · have := h5.1 x hx; omega
    · have hdeq : d.devnum = last + 1 := by
        by_contra h; exact hgap h
      have hstep : scan_devs (-1) (d :: rest) before last =
          scan_devs (-1) rest (before ++ [d]) d.devnum := by
        simp only [scan_devs]
        rw [if_pos trivial, if_neg hgap]
      rw [hstep]
      have := ih (before ++ [d]) d.devnum (by omega)
        (by
          intro k hk0 hk
          rw [devnums_append, List.mem_append]
          by_cases hkl : k ≤ last
          · exact Or.inl (h2 k hk0 hkl)
          · right; simp [devnums_cons, devnums_nil]; omega)
        (by
          intro x hx
          rw [devnums_append, List.mem_append] at hx
          rcases hx with hx | hx
          · have := h3 x hx; omega
          · simp [devnums_cons, devnums_nil] at hx; omega)
        (fun x hx => h5.1 x hx) h5.2
      simpa [List.append_assoc] using this

/-- The scan for an explicit number over a strictly increasing list, when the
devices passed hold smaller numbers: it finds the number taken, or the place
before the first larger number, or the end with only smaller numbers. -/
theorem scan_devs_explicit {σ : Type} (nd : Int) (hnd : nd ≠ -1) :
    ∀ (rest before : List (mtd_blktrans_dev σ)) (last : Int),
    (∀ x ∈ devnums before, x < nd) → (devnums rest).Pairwise (· < ·) →
    (scan_devs nd rest before last = Scan.busy ∧ nd ∈ devnums rest) ∨
    (∃ b a, scan_devs nd rest before last = Scan.added nd b a ∧ b ++ a = before ++ rest ∧
        a ≠ [] ∧ (∀ x ∈ devnums b, x < nd) ∧ (∀ x ∈ devnums a, nd < x)) ∨
    (∃ l1, scan_devs nd rest before last = Scan.fell_through l1 ∧
        ∀ x ∈ devnums (before ++ rest), x < nd) := by
  intro rest
  induction rest with
  | nil =>
    intro before last h1 _
    right; right
    exact ⟨last, rfl, by simpa using h1⟩
  | cons d rest ih =>
    intro before last h1 h2
    rw [devnums_cons, List.pairwise_cons] at h2
    by_cases heq : d.devnum = nd
    · left
      refine ⟨?_, by simp [devnums_cons, heq]⟩
      simp only [scan_devs]
      rw [if_neg hnd, if_pos heq]
    · by_cases hgt : d.devnum > nd
      · right; left
        refine ⟨before, d :: rest, ?_, rfl, List.cons_ne_nil _ _, h1, ?_⟩
        · simp only [scan_devs]
          rw [if_neg hnd, if_neg heq, if_pos hgt]
        · intro x hx
          rw [devnums_cons, List.mem_cons] at hx
          rcases hx with hx | hx
          · omega
          · have := h2.1 x hx; omega
      · have hstep : scan_devs nd (d :: rest) before last =
            scan_devs nd rest (before ++ [d]) d.devnum := by
          simp only [scan_devs]
          rw [if_neg hnd, if_neg heq, if_neg hgt]
        rw [hstep]
        have := ih (before ++ [d]) d.devnum
          (by
            intro x hx
            rw [devnums_append, List.mem_append] at hx
            rcases hx with hx | hx
            · exact h1 x hx
            · simp [devnums_cons, devnums_nil] at hx; omega)
          h2.2
        rcases this with ⟨hb, hm⟩ | ⟨b, a, hs, hba, hne, hb, ha⟩ | ⟨l1, hs, hall⟩
        · left; exact ⟨hb, by simp [devnums_cons, hm]⟩
        · right; left; exact ⟨b, a, hs, by simpa [List.append_assoc] using hba, hne, hb, ha⟩
        · right; right; exact ⟨l1, hs, by simpa [List.append_assoc] using hall⟩

/-- What the part after `added:` leaves: the device linked in at its place when
every allocation succeeds, the list as it was otherwise. -/
theorem add_mtd_blktrans_dev_added_cases {σ : Type} (env : AddEnv) (tr : mtd_blktrans_ops σ)
    (devs b a : List (mtd_blktrans_dev σ)) (new : mtd_blktrans_dev σ) :
    (add_mtd_blktrans_dev_added env tr devs b a new).new.devnum = new.devnum ∧
    ((¬ env_ok env ∧ (add_mtd_blktrans_dev_added env tr devs b a new).devs = devs) ∨
     (env_ok env ∧ (add_mtd_blktrans_dev_added env tr devs b a new).ret = 0 ∧
      (add_mtd_blktrans_dev_added env tr devs b a new).devs =
        b ++ (add_mtd_blktrans_dev_added env tr devs b a new).new :: a)) := by
  unfold add_mtd_blktrans_dev_added env_ok
  cases h1 : env.alloc_disk_ok <;> cases h2 : env.blk_init_queue_ok <;>
    cases h3 : env.kthread_run_err <;> simp

/-- The conversion to `unsigned int` keeps a number that is not negative. -/
theorem to_unsigned_of_nonneg (x : Int) (h : 0 ≤ x) : to_unsigned x = x := by
  unfold to_unsigned
  rw [if_neg (by omega)]

/-- The conversion to `unsigned int` is the value modulo `2^32` on every value of
an `int`. -/
theorem to_unsigned_eq_emod (x : Int) (h1 : -2147483648 ≤ x) (h2 : x < 2147483648) :
    to_unsigned x = x % 4294967296 := by
  unfold to_unsigned
  by_cases h : x < 0
  · rw [if_pos h]; omega
  · rw [if_neg h]; omega

theorem within_limit_iff {σ : Type} (MINORMASK : Nat) (tr : mtd_blktrans_ops σ) (n : Int) :
    ¬ (n > ((MINORMASK >>> tr.part_bits : Nat) : Int) ∨ (tr.part_bits ≠ 0 ∧ n ≥ 27 * 26)) ↔
      within_limit MINORMASK tr n := by
  unfold within_limit
  constructor
  · intro h
    refine ⟨?_, ?_⟩
    · by_contra h1; exact h (Or.inl (by omega))
    · intro hp; by_contra h1; exact h (Or.inr ⟨hp, by omega⟩)
  · rintro ⟨h1, h2⟩ (h | ⟨hp, h⟩)
    · omega
    · have := h2 hp; omega

/-- Linking a device between the smaller and the larger numbers of a strictly
increasing list keeps the list strictly increasing. -/
theorem pairwise_insert {σ : Type} (b a : List (mtd_blktrans_dev σ)) (x : mtd_blktrans_dev σ)
    (hs : (devnums (b ++ a)).Pairwise (· < ·))
    (hb : ∀ y ∈ devnums b, y < x.devnum) (ha : ∀ y ∈ devnums a, x.devnum < y) :
    (devnums (b ++ x :: a)).Pairwise (· < ·) := by
  rw [devnums_append, List.pairwise_append] at hs
  rw [devnums_append, devnums_cons, List.pairwise_append, List.pairwise_cons]
  refine ⟨hs.1, ⟨ha, hs.2.1⟩, ?_⟩
  intro y hy z hz
  rcases List.mem_cons.mp hz with hz | hz
  · rw [hz]; exact hb y hy
  · exact hs.2.2 y hy z hz

/-- The outcome of `add_mtd_blktrans_dev` on a strictly increasing list of
non-negative numbers, for a request of "any number" or of a non-negative number:
the list is unchanged, or the device is linked in between the smaller and the
larger numbers, with a non-negative number. -/
theorem add_mtd_blktrans_dev_cases {σ : Type} (MINORMASK : Nat) (env : AddEnv)
    (tr : mtd_blktrans_ops σ) (devs : List (mtd_blktrans_dev σ)) (new : mtd_blktrans_dev σ)
    (hs : (devnums devs).Pairwise (· < ·)) (hn : ∀ x ∈ devnums devs, 0 ≤ x)
    (hreq : new.devnum = -1 ∨ 0 ≤ new.devnum) :
    (add_mtd_blktrans_dev MINORMASK env tr devs new).devs = devs ∨
    (∃ b a, devs = b ++ a ∧
      (add_mtd_blktrans_dev MINORMASK env tr devs new).devs =
        b ++ (add_mtd_blktrans_dev MINORMASK env tr devs new).new :: a ∧
      (∀ y ∈ devnums b, y < (add_mtd_blktrans_dev MINORMASK env tr devs new).new.devnum) ∧
      (∀ y ∈ devnums a, (add_mtd_blktrans_dev MINORMASK env tr devs new).new.devnum < y) ∧
      0 ≤ (add_mtd_blktrans_dev MINORMASK env tr devs new).new.devnum) := by
  by_cases hany : new.devnum = -1
  · have hscan := scan_devs_any devs [] (-1) (le_refl _) (by intro k h0 h1; omega)
      (by intro x hx; simp [devnums_nil] at hx) (by intro x hx; have := hn x hx; omega) hs
    rcases hscan with ⟨n, b, a, hsc, hba, _, hn0, _, hb, ha⟩ | ⟨l1, hsc, hl1, _, hall⟩
    · simp only [List.nil_append] at hba
      unfold add_mtd_blktrans_dev
      simp only [hany, hsc]
      obtain ⟨hnum, hcase⟩ := add_mtd_blktrans_dev_added_cases env tr devs b a
        { new with devnum := n }
      rcases hcase with ⟨_, hd⟩ | ⟨_, _, hd⟩
      · exact Or.inl hd
      · right
        refine ⟨b, a, hba.symm, hd, ?_, ?_, ?_⟩ <;> rw [hnum] <;> assumption
    · simp only [List.nil_append] at hall
      unfold add_mtd_blktrans_dev
      simp only [hany, hsc, if_true, to_unsigned_of_nonneg (l1 + 1) (by omega)]
      by_cases hlim : (l1 + 1) > ((MINORMASK >>> tr.part_bits : Nat) : Int) ∨
          (tr.part_bits ≠ 0 ∧ (l1 + 1) ≥ 27 * 26)
      · left
        simp only [if_pos hlim]
      · obtain ⟨hnum, hcase⟩ := add_mtd_blktrans_dev_added_cases env tr devs devs []
          { new with devnum := l1 + 1 }
        simp only [if_neg hlim]
        rcases hcase with ⟨_, hd⟩ | ⟨_, _, hd⟩
        · exact Or.inl hd
        · right
          refine ⟨devs, [], by simp, hd, ?_, ?_, ?_⟩
          · rw [hnum]; intro y hy; have := hall y hy; simp; omega
          · intro y hy; simp [devnums_nil] at hy
          · rw [hnum]; simp; omega
  · have h0 : 0 ≤ new.devnum := by
      rcases hreq with h | h
      · exact absurd h hany
      · exact h
    have hscan := scan_devs_explicit new.devnum hany devs [] (-1)
      (by intro x hx; simp [devnums_nil] at hx) hs
    rcases hscan with ⟨hsc, _⟩ | ⟨b, a, hsc, hba, _, hb, ha⟩ | ⟨l1, hsc, hall⟩
    · left
      unfold add_mtd_blktrans_dev
      simp only [hsc]
    · simp only [List.nil_append] at hba
      unfold add_mtd_blktrans_dev
      simp only [hsc]
      obtain ⟨hnum, hcase⟩ := add_mtd_blktrans_dev_added_cases env tr devs b a
        { new with devnum := new.devnum }
      rcases hcase with ⟨_, hd⟩ | ⟨_, _, hd⟩
      · exact Or.inl hd
      · right
        refine ⟨b, a, hba.symm, hd, ?_, ?_, ?_⟩ <;> rw [hnum] <;> assumption
    · simp only [List.nil_append] at hall
      unfold add_mtd_blktrans_dev
      simp only [hsc, if_neg hany, to_unsigned_of_nonneg new.devnum h0]
      by_cases hlim : new.devnum > ((MINORMASK >>> tr.part_bits : Nat) : Int) ∨
          (tr.part_bits ≠ 0 ∧ new.devnum ≥ 27 * 26)
      · left
        simp only [if_pos hlim]
      · obtain ⟨hnum, hcase⟩ := add_mtd_blktrans_dev_added_cases env tr devs devs [] new
        simp only [if_neg hlim]
        rcases hcase with ⟨_, hd⟩ | ⟨_, _, hd⟩
        · exact Or.inl hd
        · right
          refine ⟨devs, [], by simp, hd, ?_, ?_, ?_⟩
          · rw [hnum]; exact hall
          · intro y hy; simp [devnums_nil] at hy
          · rw [hnum]; exact h0

/-- The list `tr->devs` stays strictly increasing with non-negative numbers across
a call of `add_mtd_blktrans_dev`. -/
theorem add_mtd_blktrans_dev_increasing {σ : Type} (MINORMASK : Nat) (env : AddEnv)
    (tr : mtd_blktrans_ops σ) (devs : List (mtd_blktrans_dev σ)) (new : mtd_blktrans_dev σ)
    (hs : (devnums devs).Pairwise (· < ·)) (hn : ∀ x ∈ devnums devs, 0 ≤ x)
    (hreq : new.devnum = -1 ∨ 0 ≤ new.devnum) :
    (devnums (add_mtd_blktrans_dev MINORMASK env tr devs new).devs).Pairwise (· < ·) ∧
    ∀ x ∈ devnums (add_mtd_blktrans_dev MINORMASK env tr devs new).devs, 0 ≤ x := by
  rcases add_mtd_blktrans_dev_cases MINORMASK env tr devs new hs hn hreq with
    h | ⟨b, a, hd, hr, hb, ha, h0⟩
  · rw [h]; exact ⟨hs, hn⟩
  · rw [hr]
    refine ⟨pairwise_insert b a _ (by rw [← hd]; exact hs) hb ha, ?_⟩
    intro x hx
    rw [devnums_append, devnums_cons] at hx
    rw [hd, devnums_append] at hn
    simp only [List.mem_append, List.mem_cons] at hx hn
    rcases hx with hx | hx | hx
    · exact hn x (Or.inl hx)
    · rw [hx]; exact h0
    · exact hn x (Or.inr hx)

/-- Claim C9.  On a list `tr->devs` that is strictly increasing with non-negative
numbers, a call of `add_mtd_blktrans_dev` with `devnum == -1`, when `n` is the
smallest non-negative integer that no device of the list holds and `n` passes the
minor and naming limits, and the allocations of the call succeed: the call
returns 0, the device receives the number `n`, it is linked into the list between
the devices before and after it, and the list is strictly increasing again. -/
theorem C9_any_number_takes_first_free {σ : Type} (MINORMASK : Nat) (env : AddEnv)
    (tr : mtd_blktrans_ops σ) (devs : List (mtd_blktrans_dev σ)) (new : mtd_blktrans_dev σ)
    (n : Nat)
    (hs : (devnums devs).Pairwise (· < ·)) (hn : ∀ x ∈ devnums devs, 0 ≤ x)
    (hany : new.devnum = -1)
    (hfree : (n : Int) ∉ devnums devs) (hmin : ∀ k : Nat, k < n → (k : Int) ∈ devnums devs)
    (hlimit : within_limit MINORMASK tr (n : Int)) (henv : env_ok env) :
    (add_mtd_blktrans_dev MINORMASK env tr devs new).ret = 0 ∧
    (add_mtd_blktrans_dev MINORMASK env tr devs new).new.devnum = (n : Int) ∧
    (∃ b a, devs = b ++ a ∧
      (add_mtd_blktrans_dev MINORMASK env tr devs new).devs =
        b ++ (add_mtd_blktrans_dev MINORMASK env tr devs new).new :: a) ∧
    (devnums (add_mtd_blktrans_dev MINORMASK env tr devs new).devs).Pairwise (· < ·) := by
  have huniq : ∀ n1 : Int, 0 ≤ n1 → (∀ k : Int, 0 ≤ k → k < n1 → k ∈ devnums devs) →
      n1 ∉ devnums devs → n1 = (n : Int) := by
    intro n1 h0 hall hnot
    rcases lt_trichotomy n1 (n : Int) with h | h | h
    · exfalso
      apply hnot
      have := hmin n1.toNat (by omega)
      rwa [Int.toNat_of_nonneg h0] at this
    · exact h
    · exact absurd (hall n (by omega) h) hfree
  have hscan := scan_devs_any devs [] (-1) (le_refl _) (by intro k h0 h1; omega)
    (by intro x hx; simp [devnums_nil] at hx) (by intro x hx; have := hn x hx; omega) hs
  rcases hscan with ⟨n1, b, a, hsc, hba, _, hn0, hsm, hb, ha⟩ | ⟨l1, hsc, hl1, hsm, hall⟩
  · simp only [List.nil_append] at hba
    have hn1 : n1 = (n : Int) := by
      apply huniq n1 hn0
      · intro k hk0 hk
        rw [← hba, devnums_append, List.mem_append]
        exact Or.inl (hsm k hk0 hk)
      · rw [← hba, devnums_append, List.mem_append]
        rintro (h | h)
        · have := hb n1 h; omega
        · have := ha n1 h; omega
    obtain ⟨hnum, hcase⟩ := add_mtd_blktrans_dev_added_cases env tr devs b a
      { new with devnum := n1 }
    have hadd : add_mtd_blktrans_dev MINORMASK env tr devs new =
        add_mtd_blktrans_dev_added env tr devs b a { new with devnum := n1 } := by
      unfold add_mtd_blktrans_dev
      simp only [hany, hsc]
    rw [hadd]
    rcases hcase with ⟨hne, _⟩ | ⟨_, hret, hd⟩
    · exact absurd henv hne
    · refine ⟨hret, by rw [hnum, ← hn1], ⟨b, a, hba.symm, hd⟩, ?_⟩
      rw [hd]
      exact pairwise_insert b a _ (by rw [hba]; exact hs) (by rw [hnum]; exact hb)
        (by rw [hnum]; exact ha)
  · simp only [List.nil_append] at hall hsm
    have hn1 : l1 + 1 = (n : Int) := by
      apply huniq (l1 + 1) (by omega)
      · intro k hk0 hk; exact hsm k hk0 (by omega)
      · intro h; have := hall _ h; omega
    obtain ⟨hnum, hcase⟩ := add_mtd_blktrans_dev_added_cases env tr devs devs []
      { new with devnum := l1 + 1 }
    have hlim : ¬ ((l1 + 1) > ((MINORMASK >>> tr.part_bits : Nat) : Int) ∨
        (tr.part_bits ≠ 0 ∧ (l1 + 1) ≥ 27 * 26)) := by
      rw [within_limit_iff, hn1]; exact hlimit
    have hadd : add_mtd_blktrans_dev MINORMASK env tr devs new =
        add_mtd_blktrans_dev_added env tr devs devs [] { new with devnum := l1 + 1 } := by
      unfold add_mtd_blktrans_dev
      simp only [hany, hsc, if_true, to_unsigned_of_nonneg (l1 + 1) (by omega), if_neg hlim]
    rw [hadd]
    rcases hcase with ⟨hne, _⟩ | ⟨_, hret, hd⟩
    · exact absurd henv hne
    · refine ⟨hret, by rw [hnum, ← hn1], ⟨devs, [], by simp, hd⟩, ?_⟩
      rw [hd]
      exact pairwise_insert devs [] _ (by simpa using hs)
        (by rw [hnum]; intro y hy; have := hall y hy; show y < l1 + 1; omega)
        (by intro y hy; simp [devnums_nil] at hy)

/-- Claim C9 on the numbers 0 and 2: the next "any number" device receives 1. -/
theorem C9_any_number_takes_first_free_witness :
    (add_mtd_blktrans_dev 1048575 ex_env ex_tr [ex_dev 0, ex_dev 2] (ex_dev (-1))).ret = 0 ∧
    (add_mtd_blktrans_dev 1048575 ex_env ex_tr [ex_dev 0, ex_dev 2] (ex_dev (-1))).new.devnum
      = ((1 : Nat) : Int) ∧
    (∃ b a, [ex_dev 0, ex_dev 2] = b ++ a ∧
      (add_mtd_blktrans_dev 1048575 ex_env ex_tr [ex_dev 0, ex_dev 2] (ex_dev (-1))).devs =
        b ++ (add_mtd_blktrans_dev 1048575 ex_env ex_tr [ex_dev 0, ex_dev 2] (ex_dev (-1))).new
          :: a) ∧
    (devnums (add_mtd_blktrans_dev 1048575 ex_env ex_tr [ex_dev 0, ex_dev 2]
      (ex_dev (-1))).devs).Pairwise (· < ·) :=
  C9_any_number_takes_first_free 1048575 ex_env ex_tr [ex_dev 0, ex_dev 2] (ex_dev (-1)) 1
    (by simp [devnums, ex_dev]) (by simp [devnums, ex_dev]) rfl (by simp [devnums, ex_dev])
    (by intro k hk; have : k = 0 := by omega
        subst this; simp [devnums, ex_dev])
    (by decide) (by decide)

/-- A sequence of calls of `add_mtd_blktrans_dev`, each for "any number" or for a
non-negative number, keeps a strictly increasing list of non-negative numbers
strictly increasing and non-negative. -/
theorem add_all_increasing {σ : Type} (MINORMASK : Nat) (tr : mtd_blktrans_ops σ) :
    ∀ (cs : List (AddCall σ)) (devs : List (mtd_blktrans_dev σ)),
    (devnums devs).Pairwise (· < ·) → (∀ x ∈ devnums devs, 0 ≤ x) →
    (∀ c ∈ cs, c.new.devnum = -1 ∨ 0 ≤ c.new.devnum) →
    (devnums (add_all MINORMASK tr cs devs)).Pairwise (· < ·) ∧
    ∀ x ∈ devnums (add_all MINORMASK tr cs devs), 0 ≤ x := by
  intro cs
  induction cs with
  | nil => intro devs hs hn _; exact ⟨hs, hn⟩
  | cons c cs ih =>
    intro devs hs hn hreq
    obtain ⟨h1, h2⟩ := add_mtd_blktrans_dev_increasing MINORMASK c.env tr devs c.new hs hn
      (hreq c (List.mem_cons_self _ _))
    exact ih _ h1 h2 (fun c1 hc1 => hreq c1 (List.mem_cons_of_mem _ hc1))

/-- An explicit non-negative number on a strictly increasing list: a number that
is held is refused with `-EBUSY`; a free number is linked in at its place when a
larger number is held or the number passes the limits, and the allocations
succeed; a free number larger than every number held that does not pass the
limits is refused with `-EBUSY`.  The list is unchanged by a refusal. -/
theorem add_mtd_blktrans_dev_explicit {σ : Type} (MINORMASK : Nat) (env : AddEnv)
    (tr : mtd_blktrans_ops σ) (devs : List (mtd_blktrans_dev σ)) (new : mtd_blktrans_dev σ)
    (hs : (devnums devs).Pairwise (· < ·)) (h0 : 0 ≤ new.devnum) :
    (new.devnum ∈ devnums devs →
      (add_mtd_blktrans_dev MINORMASK env tr devs new).ret = - EBUSY ∧
      (add_mtd_blktrans_dev MINORMASK env tr devs new).devs = devs) ∧
    (new.devnum ∉ devnums devs → env_ok env →
      (within_limit MINORMASK tr new.devnum ∨ ∃ x ∈ devnums devs, new.devnum < x) →
      (add_mtd_blktrans_dev MINORMASK env tr devs new).ret = 0 ∧
      (add_mtd_blktrans_dev MINORMASK env tr devs new).new.devnum = new.devnum ∧
      (∃ b a, devs = b ++ a ∧
        (add_mtd_blktrans_dev MINORMASK env tr devs new).devs =
          b ++ (add_mtd_blktrans_dev MINORMASK env tr devs new).new :: a) ∧
      (devnums (add_mtd_blktrans_dev MINORMASK env tr devs new).devs).Pairwise (· < ·)) ∧
    (new.devnum ∉ devnums devs → ¬ within_limit MINORMASK tr new.devnum →
      (∀ x ∈ devnums devs, x < new.devnum) →
      (add_mtd_blktrans_dev MINORMASK env tr devs new).ret = - EBUSY ∧
      (add_mtd_blktrans_dev MINORMASK env tr devs new).devs = devs) := by
  have hany : new.devnum ≠ -1 := by omega
  have hscan := scan_devs_explicit new.devnum hany devs [] (-1)
    (by intro x hx; simp [devnums_nil] at hx) hs
  rcases hscan with ⟨hsc, hmem⟩ | ⟨b, a, hsc, hba, hne, hb, ha⟩ | ⟨l1, hsc, hall⟩
  · have hadd : add_mtd_blktrans_dev MINORMASK env tr devs new =
        { ret := - EBUSY, devs := devs, new := new } := by
      unfold add_mtd_blktrans_dev
      simp only [hsc]
    rw [hadd]
    exact ⟨fun _ => ⟨rfl, rfl⟩, fun h => absurd hmem h, fun h => absurd hmem h⟩
  · simp only [List.nil_append] at hba
    have hnot : new.devnum ∉ devnums devs := by
      rw [← hba, devnums_append, List.mem_append]
      rintro (h | h)
      · have := hb _ h; omega
      · have := ha _ h; omega
    have hadd : add_mtd_blktrans_dev MINORMASK env tr devs new =
        add_mtd_blktrans_dev_added env tr devs b a { new with devnum := new.devnum } := by
      unfold add_mtd_blktrans_dev
      simp only [hsc]
    obtain ⟨hnum, hcase⟩ := add_mtd_blktrans_dev_added_cases env tr devs b a
      { new with devnum := new.devnum }
    rw [hadd]
    refine ⟨fun h => absurd h hnot, ?_, ?_⟩
    · intro _ henv _
      rcases hcase with ⟨hne1, _⟩ | ⟨_, hret, hd⟩
      · exact absurd henv hne1
      · refine ⟨hret, hnum, ⟨b, a, hba.symm, hd⟩, ?_⟩
        rw [hd]
        exact pairwise_insert b a _ (by rw [hba]; exact hs) (by rw [hnum]; exact hb)
          (by rw [hnum]; exact ha)
    · intro _ _ hsmall
      exfalso
      obtain ⟨d, rest, hda⟩ := List.exists_cons_of_ne_nil hne
      have h1 : d.devnum ∈ devnums a := by rw [hda]; simp [devnums_cons]
      have h2 := ha _ h1
      have h3 := hsmall d.devnum (by rw [← hba, devnums_append]; exact List.mem_append_right _ h1)
      omega
  · simp only [List.nil_append] at hall
    have hnot : new.devnum ∉ devnums devs := by
      intro h; have := hall _ h; omega
    refine ⟨fun h => absurd h hnot, ?_, ?_⟩
    · intro _ henv hor
      have hlimit : within_limit MINORMASK tr new.devnum := by
        rcases hor with h | ⟨x, hx, hlt⟩
        · exact h
        · have := hall x hx; omega
      have hlim := (within_limit_iff MINORMASK tr new.devnum).mpr hlimit
      have hadd : add_mtd_blktrans_dev MINORMASK env tr devs new =
          add_mtd_blktrans_dev_added env tr devs devs [] new := by
        unfold add_mtd_blktrans_dev
        simp only [hsc, if_neg hany, to_unsigned_of_nonneg new.devnum h0, if_neg hlim]
      obtain ⟨hnum, hcase⟩ := add_mtd_blktrans_dev_added_cases env tr devs devs [] new
      rw [hadd]
      rcases hcase with ⟨hne1, _⟩ | ⟨_, hret, hd⟩
      · exact absurd henv hne1
      · refine ⟨hret, hnum, ⟨devs, [], by simp, hd⟩, ?_⟩
        rw [hd]
        exact pairwise_insert devs [] _ (by simpa using hs) (by rw [hnum]; exact hall)
          (by intro y hy; simp [devnums_nil] at hy)
    · intro _ hnl _
      have hlim : new.devnum > ((MINORMASK >>> tr.part_bits : Nat) : Int) ∨
          (tr.part_bits ≠ 0 ∧ new.devnum ≥ 27 * 26) := by
        by_contra h
        exact hnl ((within_limit_iff MINORMASK tr new.devnum).mp h)
      have hadd : add_mtd_blktrans_dev MINORMASK env tr devs new =
          { ret := - EBUSY, devs := devs, new := new } := by
        unfold add_mtd_blktrans_dev
        simp only [hsc, if_neg hany, to_unsigned_of_nonneg new.devnum h0, if_pos hlim]
      rw [hadd]
      exact ⟨rfl, rfl⟩

/-- Claim C10, counterexample.  On the empty family without partition bits, with
`MINORMASK = 1048575`, the explicit request for the free number 1048576 is refused
with `-EBUSY` and the device is not inserted, although every allocation would
succeed. -/
theorem C10_free_number_beyond_limit_refused :
    (0 : Int) ≤ (ex_dev 1048576).devnum ∧
    (ex_dev 1048576).devnum ∉ devnums ([] : List (mtd_blktrans_dev Unit)) ∧
    env_ok ex_env ∧
    (add_mtd_blktrans_dev 1048575 ex_env ex_tr [] (ex_dev 1048576)).ret = - EBUSY ∧
    devnums (add_mtd_blktrans_dev 1048575 ex_env ex_tr [] (ex_dev 1048576)).devs = [] := by
  refine ⟨by decide, by simp [devnums], by decide, ?_, ?_⟩ <;> rfl

/-- Claim C10, as amended.  Along every sequence of calls of `add_mtd_blktrans_dev`
on an initially empty family, each for "any number" or for an explicit
non-negative number, the list `tr->devs` is strictly increasing by device number
after every call.  On the list so reached, an explicit request for a number that
is held returns `-EBUSY` and leaves the list unchanged; an explicit request for a
free number inserts the device at its sorted position when a larger number is
held or the number passes the minor and naming limits, and the allocations of
the call succeed; an explicit request for a free number larger than every number
held that does not pass the limits returns `-EBUSY` and leaves the list
unchanged. -/
theorem C10_numbers_stay_increasing {σ : Type} (MINORMASK : Nat) (tr : mtd_blktrans_ops σ)
    (cs : List (AddCall σ))
    (hreq : ∀ c ∈ cs, c.new.devnum = -1 ∨ 0 ≤ c.new.devnum) :
    (∀ k, (devnums (add_all MINORMASK tr (cs.take k) [])).Pairwise (· < ·)) ∧
    (∀ (env : AddEnv) (new : mtd_blktrans_dev σ), 0 ≤ new.devnum →
      (new.devnum ∈ devnums (add_all MINORMASK tr cs []) →
        (add_mtd_blktrans_dev MINORMASK env tr (add_all MINORMASK tr cs []) new).ret = - EBUSY ∧
        (add_mtd_blktrans_dev MINORMASK env tr (add_all MINORMASK tr cs []) new).devs =
          add_all MINORMASK tr cs []) ∧
      (new.devnum ∉ devnums (add_all MINORMASK tr cs []) → env_ok env →
        (within_limit MINORMASK tr new.devnum ∨
          ∃ x ∈ devnums (add_all MINORMASK tr cs []), new.devnum < x) →
        (add_mtd_blktrans_dev MINORMASK env tr (add_all MINORMASK tr cs []) new).ret = 0 ∧
        (add_mtd_blktrans_dev MINORMASK env tr (add_all MINORMASK tr cs []) new).new.devnum =
          new.devnum ∧
        (∃ b a, add_all MINORMASK tr cs [] = b ++ a ∧
          (add_mtd_blktrans_dev MINORMASK env tr (add_all MINORMASK tr cs []) new).devs =
            b ++ (add_mtd_blktrans_dev MINORMASK env tr (add_all MINORMASK tr cs []) new).new
              :: a) ∧
        (devnums (add_mtd_blktrans_dev MINORMASK env tr (add_all MINORMASK tr cs [])
          new).devs).Pairwise (· < ·)) ∧
      (new.devnum ∉ devnums (add_all MINORMASK tr cs []) →
        ¬ within_limit MINORMASK tr new.devnum →
        (∀ x ∈ devnums (add_all MINORMASK tr cs []), x < new.devnum) →
        (add_mtd_blktrans_dev MINORMASK env tr (add_all MINORMASK tr cs []) new).ret = - EBUSY ∧
        (add_mtd_blktrans_dev MINORMASK env tr (add_all MINORMASK tr cs []) new).devs =
          add_all MINORMASK tr cs [])) := by
  have hinv : ∀ l : List (AddCall σ), (∀ c ∈ l, c.new.devnum = -1 ∨ 0 ≤ c.new.devnum) →
      (devnums (add_all MINORMASK tr l [])).Pairwise (· < ·) :=
    fun l hl => (add_all_increasing MINORMASK tr l [] (by simp [devnums_nil])
      (by intro x hx; simp [devnums_nil] at hx) hl).1
  refine ⟨?_, ?_⟩
  · intro k
    exact hinv _ (fun c hc => hreq c (List.mem_of_mem_take hc))
  · intro env new h0
    exact add_mtd_blktrans_dev_explicit MINORMASK env tr _ new (hinv cs hreq) h0

/-- Claim C10 as amended, after registering the numbers 0 and 2 and then "any
number". -/
theorem C10_numbers_stay_increasing_witness :
    (devnums (add_all 1048575 ex_tr
        [⟨ex_env, ex_dev 0⟩, ⟨ex_env, ex_dev 2⟩, ⟨ex_env, ex_dev (-1)⟩] [])).Pairwise (· < ·) ∧
    ((ex_dev 2).devnum ∈ devnums (add_all 1048575 ex_tr
        [⟨ex_env, ex_dev 0⟩, ⟨ex_env, ex_dev 2⟩, ⟨ex_env, ex_dev (-1)⟩] []) →
      (add_mtd_blktrans_dev 1048575 ex_env ex_tr (add_all 1048575 ex_tr
        [⟨ex_env, ex_dev 0⟩, ⟨ex_env, ex_dev 2⟩, ⟨ex_env, ex_dev (-1)⟩] []) (ex_dev 2)).ret
          = - EBUSY ∧
      (add_mtd_blktrans_dev 1048575 ex_env ex_tr (add_all 1048575 ex_tr
        [⟨ex_env, ex_dev 0⟩, ⟨ex_env, ex_dev 2⟩, ⟨ex_env, ex_dev (-1)⟩] []) (ex_dev 2)).devs
          = add_all 1048575 ex_tr
        [⟨ex_env, ex_dev 0⟩, ⟨ex_env, ex_dev 2⟩, ⟨ex_env, ex_dev (-1)⟩] []) :=
  ⟨by
    simpa using (C10_numbers_stay_increasing 1048575 ex_tr
      [⟨ex_env, ex_dev 0⟩, ⟨ex_env, ex_dev 2⟩, ⟨ex_env, ex_dev (-1)⟩]
      (by intro c hc; simp at hc; rcases hc with h | h | h <;> subst h <;> decide)).1 3,
   ((C10_numbers_stay_increasing 1048575 ex_tr
      [⟨ex_env, ex_dev 0⟩, ⟨ex_env, ex_dev 2⟩, ⟨ex_env, ex_dev (-1)⟩]
      (by intro c hc; simp at hc; rcases hc with h | h | h <;> subst h <;> decide)).2
      ex_env (ex_dev 2) (by decide)).1⟩

/-! ## Device numbering: the limits -/

theorem within_limit_mono {σ : Type} (MINORMASK : Nat) (tr : mtd_blktrans_ops σ) (x y : Int)
    (hxy : x ≤ y) (hy : within_limit MINORMASK tr y) : within_limit MINORMASK tr x := by
  unfold within_limit at *
  exact ⟨by omega, fun hp => by have := hy.2 hp; omega⟩

/-- The number a call of `add_mtd_blktrans_dev` ends with, on a strictly increasing
list of non-negative numbers: either the call went through the check of lines
613-614 and was refused there, or the number is non-negative and passes the check
or is at most a number held in the list (the paths that leave the loop early). -/
theorem add_mtd_blktrans_dev_number {σ : Type} (MINORMASK : Nat) (env : AddEnv)
    (tr : mtd_blktrans_ops σ) (devs : List (mtd_blktrans_dev σ)) (new : mtd_blktrans_dev σ)
    (hs : (devnums devs).Pairwise (· < ·)) (hn : ∀ x ∈ devnums devs, 0 ≤ x)
    (hreq : new.devnum = -1 ∨ 0 ≤ new.devnum) :
    ((add_mtd_blktrans_dev MINORMASK env tr devs new).ret = - EBUSY ∧
      (add_mtd_blktrans_dev MINORMASK env tr devs new).devs = devs ∧
      ¬ within_limit MINORMASK tr (add_mtd_blktrans_dev MINORMASK env tr devs new).new.devnum) ∨
    (0 ≤ (add_mtd_blktrans_dev MINORMASK env tr devs new).new.devnum ∧
      (within_limit MINORMASK tr (add_mtd_blktrans_dev MINORMASK env tr devs new).new.devnum ∨
        ∃ y ∈ devnums devs, (add_mtd_blktrans_dev MINORMASK env tr devs new).new.devnum ≤ y)) := by
  by_cases hany : new.devnum = -1
  · have hscan := scan_devs_any devs [] (-1) (le_refl _) (by intro k h0 h1; omega)
      (by intro x hx; simp [devnums_nil] at hx) (by intro x hx; have := hn x hx; omega) hs
    rcases hscan with ⟨n, b, a, hsc, hba, hne, hn0, _, hb, ha⟩ | ⟨l1, hsc, hl1, _, hall⟩
    · simp only [List.nil_append] at hba
      have hadd : add_mtd_blktrans_dev MINORMASK env tr devs new =
          add_mtd_blktrans_dev_added env tr devs b a { new with devnum := n } := by
        unfold add_mtd_blktrans_dev
        simp only [hany, hsc]
      obtain ⟨hnum, _⟩ := add_mtd_blktrans_dev_added_cases env tr devs b a
        { new with devnum := n }
      rw [hadd, hnum]
      right
      obtain ⟨d, rest, hda⟩ := List.exists_cons_of_ne_nil hne
      have h1 : d.devnum ∈ devnums a := by rw [hda]; simp [devnums_cons]
      refine ⟨hn0, Or.inr ⟨d.devnum, ?_, le_of_lt (ha _ h1)⟩⟩
      rw [← hba, devnums_append]; exact List.mem_append_right _ h1
    · by_cases hlim : (l1 + 1) > ((MINORMASK >>> tr.part_bits : Nat) : Int) ∨
          (tr.part_bits ≠ 0 ∧ (l1 + 1) ≥ 27 * 26)
      · have hadd : add_mtd_blktrans_dev MINORMASK env tr devs new =
            { ret := - EBUSY, devs := devs, new := { new with devnum := l1 + 1 } } := by
          unfold add_mtd_blktrans_dev
          simp only [hany, hsc, if_true, to_unsigned_of_nonneg (l1 + 1) (by omega), if_pos hlim]
        rw [hadd]
        left
        refine ⟨rfl, rfl, ?_⟩
        intro hw
        exact (within_limit_iff MINORMASK tr (l1 + 1)).mpr hw hlim
      · have hadd : add_mtd_blktrans_dev MINORMASK env tr devs new =
            add_mtd_blktrans_dev_added env tr devs devs [] { new with devnum := l1 + 1 } := by
          unfold add_mtd_blktrans_dev
          simp only [hany, hsc, if_true, to_unsigned_of_nonneg (l1 + 1) (by omega), if_neg hlim]
        obtain ⟨hnum, _⟩ := add_mtd_blktrans_dev_added_cases env tr devs devs []
          { new with devnum := l1 + 1 }
        rw [hadd, hnum]
        right
        exact ⟨by show 0 ≤ l1 + 1; omega,
          Or.inl ((within_limit_iff MINORMASK tr (l1 + 1)).mp hlim)⟩
  · have h0 : 0 ≤ new.devnum := by
      rcases hreq with h | h
      · exact absurd h hany
      · exact h
    have hscan := scan_devs_explicit new.devnum hany devs [] (-1)
      (by intro x hx; simp [devnums_nil] at hx) hs
    rcases hscan with ⟨hsc, hmem⟩ | ⟨b, a, hsc, hba, hne, hb, ha⟩ | ⟨l1, hsc, hall⟩
    · have hadd : add_mtd_blktrans_dev MINORMASK env tr devs new =
          { ret := - EBUSY, devs := devs, new := new } := by
        unfold add_mtd_blktrans_dev
        simp only [hsc]
      rw [hadd]
      right
      exact ⟨h0, Or.inr ⟨new.devnum, hmem, le_refl _⟩⟩
    · simp only [List.nil_append] at hba
      have hadd : add_mtd_blktrans_dev MINORMASK env tr devs new =
          add_mtd_blktrans_dev_added env tr devs b a { new with devnum := new.devnum } := by
        unfold add_mtd_blktrans_dev
        simp only [hsc]
      obtain ⟨hnum, _⟩ := add_mtd_blktrans_dev_added_cases env tr devs b a
        { new with devnum := new.devnum }
      rw [hadd, hnum]
      right
      obtain ⟨d, rest, hda⟩ := List.exists_cons_of_ne_nil hne
      have h1 : d.devnum ∈ devnums a := by rw [hda]; simp [devnums_cons]
      refine ⟨h0, Or.inr ⟨d.devnum, ?_, le_of_lt (ha _ h1)⟩⟩
      rw [← hba, devnums_append]; exact List.mem_append_right _ h1
    · by_cases hlim : new.devnum > ((MINORMASK >>> tr.part_bits : Nat) : Int) ∨
          (tr.part_bits ≠ 0 ∧ new.devnum ≥ 27 * 26)
      · have hadd : add_mtd_blktrans_dev MINORMASK env tr devs new =
            { ret := - EBUSY, devs := devs, new := new } := by
          unfold add_mtd_blktrans_dev
          simp only [hsc, if_neg hany, to_unsigned_of_nonneg new.devnum h0, if_pos hlim]
        rw [hadd]
        left
        refine ⟨rfl, rfl, ?_⟩
        intro hw
        exact (within_limit_iff MINORMASK tr new.devnum).mpr hw hlim
      · have hadd : add_mtd_blktrans_dev MINORMASK env tr devs new =
            add_mtd_blktrans_dev_added env tr devs devs [] new := by
          unfold add_mtd_blktrans_dev
          simp only [hsc, if_neg hany, to_unsigned_of_nonneg new.devnum h0, if_neg hlim]
        obtain ⟨hnum, _⟩ := add_mtd_blktrans_dev_added_cases env tr devs devs [] new
        rw [hadd, hnum]
        right
        exact ⟨h0, Or.inl ((within_limit_iff MINORMASK tr new.devnum).mp hlim)⟩

/-- A call of `add_mtd_blktrans_dev` on a strictly increasing list of non-negative
numbers that all pass the limits: a call that ends with a number beyond the
limits returns `-EBUSY` and leaves the list unchanged, and the numbers of the list
pass the limits after the call. -/
theorem add_mtd_blktrans_dev_within_limit {σ : Type} (MINORMASK : Nat) (env : AddEnv)
    (tr : mtd_blktrans_ops σ) (devs : List (mtd_blktrans_dev σ)) (new : mtd_blktrans_dev σ)
    (hs : (devnums devs).Pairwise (· < ·)) (hn : ∀ x ∈ devnums devs, 0 ≤ x)
    (hl : ∀ x ∈ devnums devs, within_limit MINORMASK tr x)
    (hreq : new.devnum = -1 ∨ 0 ≤ new.devnum) :
    (¬ within_limit MINORMASK tr (add_mtd_blktrans_dev MINORMASK env tr devs new).new.devnum →
      (add_mtd_blktrans_dev MINORMASK env tr devs new).ret = - EBUSY ∧
      (add_mtd_blktrans_dev MINORMASK env tr devs new).devs = devs) ∧
    ∀ x ∈ devnums (add_mtd_blktrans_dev MINORMASK env tr devs new).devs,
      within_limit MINORMASK tr x := by
  have hnum := add_mtd_blktrans_dev_number MINORMASK env tr devs new hs hn hreq
  have hw : (add_mtd_blktrans_dev MINORMASK env tr devs new).devs = devs ∨
      within_limit MINORMASK tr (add_mtd_blktrans_dev MINORMASK env tr devs new).new.devnum := by
    rcases hnum with ⟨_, hd, _⟩ | ⟨_, h | ⟨y, hy, hle⟩⟩
    · exact Or.inl hd
    · exact Or.inr h
    · exact Or.inr (within_limit_mono MINORMASK tr _ y hle (hl y hy))
  refine ⟨?_, ?_⟩
  · intro hnot
    rcases hnum with ⟨hr, hd, _⟩ | ⟨_, h | ⟨y, hy, hle⟩⟩
    · exact ⟨hr, hd⟩
    · exact absurd h hnot
    · exact absurd (within_limit_mono MINORMASK tr _ y hle (hl y hy)) hnot
  · rcases add_mtd_blktrans_dev_cases MINORMASK env tr devs new hs hn hreq with
      h | ⟨b, a, hd, hr, _, _, _⟩
    · rw [h]; exact hl
    · rcases hw with h | h
      · rw [h]; exact hl
      · rw [hr]
        intro x hx
        rw [devnums_append, devnums_cons] at hx
        rw [hd, devnums_append] at hl
        simp only [List.mem_append, List.mem_cons] at hx hl
        rcases hx with hx | hx | hx
        · exact hl x (Or.inl hx)
        · rw [hx]; exact h
        · exact hl x (Or.inr hx)

/-- Along a sequence of calls of `add_mtd_blktrans_dev`, each for "any number" or
for a non-negative number, a strictly increasing list of non-negative numbers
within the limits stays so. -/
theorem add_all_within_limit {σ : Type} (MINORMASK : Nat) (tr : mtd_blktrans_ops σ) :
    ∀ (cs : List (AddCall σ)) (devs : List (mtd_blktrans_dev σ)),
    (devnums devs).Pairwise (· < ·) → (∀ x ∈ devnums devs, 0 ≤ x) →
    (∀ x ∈ devnums devs, within_limit MINORMASK tr x) →
    (∀ c ∈ cs, c.new.devnum = -1 ∨ 0 ≤ c.new.devnum) →
    (devnums (add_all MINORMASK tr cs devs)).Pairwise (· < ·) ∧
    (∀ x ∈ devnums (add_all MINORMASK tr cs devs), 0 ≤ x) ∧
    ∀ x ∈ devnums (add_all MINORMASK tr cs devs), within_limit MINORMASK tr x := by
  intro cs
  induction cs with
  | nil => intro devs hs hn hl _; exact ⟨hs, hn, hl⟩
  | cons c cs ih =>
    intro devs hs hn hl hreq
    have hc := hreq c (List.mem_cons_self _ _)
    obtain ⟨h1, h2⟩ := add_mtd_blktrans_dev_increasing MINORMASK c.env tr devs c.new hs hn hc
    have h3 := (add_mtd_blktrans_dev_within_limit MINORMASK c.env tr devs c.new hs hn hl hc).2
    exact ih _ h1 h2 h3 (fun c1 hc1 => hreq c1 (List.mem_cons_of_mem _ hc1))

/-- An explicit negative number on an empty family reaches the check of line 613,
where it is converted to `unsigned int` and refused, `MINORMASK >> tr->part_bits`
being below `2^31`. -/
theorem add_mtd_blktrans_dev_negative_refused {σ : Type} (MINORMASK : Nat) (env : AddEnv)
    (tr : mtd_blktrans_ops σ) (new : mtd_blktrans_dev σ)
    (hneg : new.devnum < -1) (hint : -2147483648 ≤ new.devnum)
    (hmask : MINORMASK >>> tr.part_bits < 2147483648) :
    (add_mtd_blktrans_dev MINORMASK env tr [] new).ret = - EBUSY ∧
    (add_mtd_blktrans_dev MINORMASK env tr [] new).devs = [] := by
  have hany : new.devnum ≠ -1 := by omega
  have hconv : to_unsigned new.devnum > ((MINORMASK >>> tr.part_bits : Nat) : Int) := by
    unfold to_unsigned
    rw [if_pos (by omega)]
    omega
  have hadd : add_mtd_blktrans_dev MINORMASK env tr [] new =
      { ret := - EBUSY, devs := [], new := new } := by
    unfold add_mtd_blktrans_dev
    simp only [scan_devs, if_neg hany, if_pos (Or.inl hconv)]
  rw [hadd]
  exact ⟨rfl, rfl⟩

/-- Claim C11, counterexample.  On a family with one partition bit and with
`MINORMASK` 7, so that a number may be at most `7 >> 1 = 3`: after the calls for
the number 0, for the explicit number -2 (linked in before 0 by `goto added`) and
four calls for "any number", a fifth call for "any number" finds the device -2
where it expects 4, takes the number 4 and links the device in by `goto added`,
past the check of lines 613-614: the call returns 0 and the list holds the
number 4, which is greater than 3. -/
theorem C11_negative_request_passes_limit :
    ({ ex_tr with part_bits := 1 } : mtd_blktrans_ops Unit).part_bits > 0 ∧
    (add_mtd_blktrans_dev 7 ex_env { ex_tr with part_bits := 1 }
      (add_all 7 { ex_tr with part_bits := 1 }
        [⟨ex_env, ex_dev 0⟩, ⟨ex_env, ex_dev (-2)⟩, ⟨ex_env, ex_dev (-1)⟩, ⟨ex_env, ex_dev (-1)⟩,
          ⟨ex_env, ex_dev (-1)⟩, ⟨ex_env, ex_dev (-1)⟩] []) (ex_dev (-1))).ret = 0 ∧
    (add_mtd_blktrans_dev 7 ex_env { ex_tr with part_bits := 1 }
      (add_all 7 { ex_tr with part_bits := 1 }
        [⟨ex_env, ex_dev 0⟩, ⟨ex_env, ex_dev (-2)⟩, ⟨ex_env, ex_dev (-1)⟩, ⟨ex_env, ex_dev (-1)⟩,
          ⟨ex_env, ex_dev (-1)⟩, ⟨ex_env, ex_dev (-1)⟩] []) (ex_dev (-1))).new.devnum = 4 ∧
    (4 : Int) > ((7 >>> ({ ex_tr with part_bits := 1 } : mtd_blktrans_ops Unit).part_bits : Nat)
      : Int) ∧
    devnums (add_mtd_blktrans_dev 7 ex_env { ex_tr with part_bits := 1 }
      (add_all 7 { ex_tr with part_bits := 1 }
        [⟨ex_env, ex_dev 0⟩, ⟨ex_env, ex_dev (-2)⟩, ⟨ex_env, ex_dev (-1)⟩, ⟨ex_env, ex_dev (-1)⟩,
          ⟨ex_env, ex_dev (-1)⟩, ⟨ex_env, ex_dev (-1)⟩] []) (ex_dev (-1))).devs =
      [0, 1, 2, 3, 4, -2, 0] := by
  refine ⟨by decide, by decide, by decide, by decide, by decide⟩

/-- Claim C11, as amended.  For a family with partition bits, along every sequence
of calls of `add_mtd_blktrans_dev` on an initially empty family, each for "any
number" or for a non-negative number: a further such call that ends with a device
number of 702 or more, or greater than `MINORMASK >> part_bits`, returns `-EBUSY`
and leaves the list unchanged; and after every call of the sequence every device of the list
has a number below 702 and at most `MINORMASK >> part_bits`, although the paths
that leave the loop early (`goto added`) skip the check. -/
theorem C11_numbers_within_limits {σ : Type} (MINORMASK : Nat) (tr : mtd_blktrans_ops σ)
    (cs : List (AddCall σ)) (hpb : 0 < tr.part_bits)
    (hreq : ∀ c ∈ cs, c.new.devnum = -1 ∨ 0 ≤ c.new.devnum) :
    (∀ (env : AddEnv) (new : mtd_blktrans_dev σ), (new.devnum = -1 ∨ 0 ≤ new.devnum) →
      ((add_mtd_blktrans_dev MINORMASK env tr (add_all MINORMASK tr cs []) new).new.devnum ≥ 702 ∨
       (add_mtd_blktrans_dev MINORMASK env tr (add_all MINORMASK tr cs []) new).new.devnum >
          ((MINORMASK >>> tr.part_bits : Nat) : Int)) →
      (add_mtd_blktrans_dev MINORMASK env tr (add_all MINORMASK tr cs []) new).ret = - EBUSY ∧
      (add_mtd_blktrans_dev MINORMASK env tr (add_all MINORMASK tr cs []) new).devs =
        add_all MINORMASK tr cs []) ∧
    (∀ k, ∀ x ∈ devnums (add_all MINORMASK tr (cs.take k) []),
      x < 702 ∧ x ≤ ((MINORMASK >>> tr.part_bits : Nat) : Int)) := by
  have hinv : ∀ l : List (AddCall σ), (∀ c ∈ l, c.new.devnum = -1 ∨ 0 ≤ c.new.devnum) →
      (devnums (add_all MINORMASK tr l [])).Pairwise (· < ·) ∧
      (∀ x ∈ devnums (add_all MINORMASK tr l []), 0 ≤ x) ∧
      ∀ x ∈ devnums (add_all MINORMASK tr l []), within_limit MINORMASK tr x :=
    fun l hl => add_all_within_limit MINORMASK tr l [] (by simp [devnums_nil])
      (by intro x hx; simp [devnums_nil] at hx) (by intro x hx; simp [devnums_nil] at hx) hl
  refine ⟨?_, ?_⟩
  · intro env new hnew hbad
    obtain ⟨hs, hn, hl⟩ := hinv cs hreq
    apply (add_mtd_blktrans_dev_within_limit MINORMASK env tr _ new hs hn hl hnew).1
    intro hw
    unfold within_limit at hw
    have := hw.2 (by omega)
    omega
  · intro k x hx
    obtain ⟨_, _, hl⟩ := hinv (cs.take k) (fun c hc => hreq c (List.mem_of_mem_take hc))
    have hw := hl x hx
    unfold within_limit at hw
    exact ⟨by have := hw.2 (by omega); omega, hw.1⟩

/-- Claim C11 as amended, on the family with one partition bit after the calls for
the numbers 0 and 700 and for "any number" (which receives 1): a further call for
the number 702 returns `-EBUSY` and leaves the list as it is. -/
theorem C11_numbers_within_limits_witness :
    (add_mtd_blktrans_dev 1048575 ex_env { ex_tr with part_bits := 1 }
      (add_all 1048575 { ex_tr with part_bits := 1 }
        [⟨ex_env, ex_dev 0⟩, ⟨ex_env, ex_dev 700⟩, ⟨ex_env, ex_dev (-1)⟩] []) (ex_dev 702)).ret
      = - EBUSY ∧
    (add_mtd_blktrans_dev 1048575 ex_env { ex_tr with part_bits := 1 }
      (add_all 1048575 { ex_tr with part_bits := 1 }
        [⟨ex_env, ex_dev 0⟩, ⟨ex_env, ex_dev 700⟩, ⟨ex_env, ex_dev (-1)⟩] []) (ex_dev 702)).devs
      = add_all 1048575 { ex_tr with part_bits := 1 }
        [⟨ex_env, ex_dev 0⟩, ⟨ex_env, ex_dev 700⟩, ⟨ex_env, ex_dev (-1)⟩] [] :=
  (C11_numbers_within_limits 1048575 { ex_tr with part_bits := 1 }
    [⟨ex_env, ex_dev 0⟩, ⟨ex_env, ex_dev 700⟩, ⟨ex_env, ex_dev (-1)⟩] (by decide)
    (by intro c hc; simp at hc; rcases hc with h | h | h <;> subst h <;> decide)).1
    ex_env (ex_dev 702) (Or.inr (by decide)) (Or.inl (by decide))

/-! ## The disk name -/

theorem char_toNat_ofNat (k : Nat) (h : k < 256) : (Char.ofNat k).toNat = k := by
  have hv : k.isValidChar := Or.inl (by omega)
  simp [Char.ofNat, hv, Char.ofNatAux, Char.toNat, UInt32.toNat]

theorem snprintf_fits (size : Nat) (text : List Char) (h : text.length < size) :
    snprintf size text = text := by
  unfold snprintf
  exact List.take_of_length_le (by omega)

/-- With partition bits, a number below 26 is printed as one letter. -/
theorem disk_name_suffix_one (part_bits k : Nat) (hp : part_bits ≠ 0) (hk : k < 26) :
    disk_name_suffix part_bits (k : Int) = [Char.ofNat (97 + k)] := by
  unfold disk_name_suffix fmt_c
  rw [if_pos hp, if_pos (by omega)]
  have h : ((('a'.toNat : Int) + (k : Int)) % 256).toNat = 97 + k := by
    have ha : ('a'.toNat : Int) = 97 := by decide
    rw [ha]; omega
  rw [h]

/-- With partition bits, a number from 26 on is printed as two letters. -/
theorem disk_name_suffix_two (part_bits k : Nat) (hp : part_bits ≠ 0) (h26 : 26 ≤ k)
    (hk : k ≤ 701) :
    disk_name_suffix part_bits (k : Int) = [Char.ofNat (96 + k / 26), Char.ofNat (97 + k % 26)] := by
  unfold disk_name_suffix fmt_c
  rw [if_pos hp, if_neg (by omega)]
  have ha : ('a'.toNat : Int) = 97 := by decide
  have h1 : (((('a'.toNat : Int) - 1 + (k : Int) / 26)) % 256).toNat = 96 + k / 26 := by
    rw [ha]; omega
  have h2 : ((('a'.toNat : Int) + (k : Int) % 26) % 256).toNat = 97 + k % 26 := by
    rw [ha]; omega
  rw [h1, h2]

/-- With partition bits, different numbers up to 701 are printed differently. -/
theorem disk_name_suffix_injective (part_bits n m : Nat) (hp : part_bits ≠ 0)
    (hn : n ≤ 701) (hm : m ≤ 701)
    (h : disk_name_suffix part_bits (n : Int) = disk_name_suffix part_bits (m : Int)) : n = m := by
  have key : ∀ a b : Nat, a < 256 → b < 256 → Char.ofNat a = Char.ofNat b → a = b := by
    intro a b ha hb hab
    have := congrArg Char.toNat hab
    rwa [char_toNat_ofNat a ha, char_toNat_ofNat b hb] at this
  by_cases h1 : n < 26
  · by_cases h2 : m < 26
    · rw [disk_name_suffix_one _ _ hp h1, disk_name_suffix_one _ _ hp h2] at h
      simp only [List.cons.injEq, and_true] at h
      have := key _ _ (by omega) (by omega) h
      omega
    · rw [disk_name_suffix_one _ _ hp h1, disk_name_suffix_two _ _ hp (by omega) hm] at h
      simp at h
  · by_cases h2 : m < 26
    · rw [disk_name_suffix_two _ _ hp (by omega) hn, disk_name_suffix_one _ _ hp h2] at h
      simp at h
    · rw [disk_name_suffix_two _ _ hp (by omega) hn,
        disk_name_suffix_two _ _ hp (by omega) hm] at h
      simp only [List.cons.injEq, and_true] at h
      have e1 := key _ _ (by omega) (by omega) h.1
      have e2 := key _ _ (by omega) (by omega) h.2
      omega

/-! ## The decimal number printed by `%d` -/

theorem decimal_value_snoc (l : List Char) (c : Char) :
    decimal_value (l ++ [c]) = 10 * decimal_value l + (c.toNat - '0'.toNat) := by
  simp [decimal_value, List.foldl_append]

theorem digitChar_value : ∀ k : Nat, k < 10 →
    (Nat.digitChar k).toNat - '0'.toNat = k ∧ (Nat.digitChar k).isDigit = true ∧
    (k ≠ 0 → Nat.digitChar k ≠ '0') := by
  decide

theorem toDigitsCore_acc : ∀ (fuel n : Nat) (acc : List Char),
    Nat.toDigitsCore 10 fuel n acc = Nat.toDigitsCore 10 fuel n [] ++ acc := by
  intro fuel
  induction fuel with
  | zero => intro n acc; simp [Nat.toDigitsCore]
  | succ f ih =>
    intro n acc
    simp only [Nat.toDigitsCore]
    by_cases h : n / 10 = 0
    · simp [h]
    · simp only [h, if_false]
      rw [ih (n / 10) (Nat.digitChar (n % 10) :: acc), ih (n / 10) [Nat.digitChar (n % 10)]]
      simp

/-- The digits that `Nat.toDigitsCore` gives for `n`, with enough fuel: a text of
decimal digits that is not empty, denotes `n` and does not start with `0` unless
`n` is 0. -/
theorem toDigitsCore_decimal : ∀ (fuel n : Nat), n < fuel →
    Nat.toDigitsCore 10 fuel n [] ≠ [] ∧
    (∀ c ∈ Nat.toDigitsCore 10 fuel n [], c.isDigit = true) ∧
    decimal_value (Nat.toDigitsCore 10 fuel n []) = n ∧
    (n ≠ 0 → (Nat.toDigitsCore 10 fuel n []).head? ≠ some '0') := by
  intro fuel
  induction fuel with
  | zero => intro n h; omega
  | succ f ih =>
    intro n hn
    have hd := digitChar_value (n % 10) (Nat.mod_lt _ (by decide))
    simp only [Nat.toDigitsCore]
    by_cases h : n / 10 = 0
    · have hlt : n < 10 := by omega
      have hmod : n % 10 = n := Nat.mod_eq_of_lt hlt
      rw [hmod] at hd
      simp only [h, if_true, hmod]
      refine ⟨by simp, ?_, ?_, ?_⟩
      · intro c hc
        simp only [List.mem_singleton] at hc
        rw [hc]; exact hd.2.1
      · simp [decimal_value]
        exact hd.1
      · intro h0
        simp only [List.head?_cons, ne_eq, Option.some.injEq]
        exact hd.2.2 h0
    · simp only [h, if_false]
      rw [toDigitsCore_acc f (n / 10) [Nat.digitChar (n % 10)]]
      have hlt : n / 10 < f := by omega
      obtain ⟨i1, i2, i3, i4⟩ := ih (n / 10) hlt
      refine ⟨by simp, ?_, ?_, ?_⟩
      · intro c hc
        rcases List.mem_append.mp hc with hc | hc
        · exact i2 c hc
        · simp only [List.mem_singleton] at hc
          rw [hc]; exact hd.2.1
      · rw [decimal_value_snoc, i3, hd.1]
        omega
      · intro _
        cases hl : Nat.toDigitsCore 10 f (n / 10) [] with
        | nil => exact absurd hl i1
        | cons a rest =>
          have := i4 h
          rw [hl] at this
          simpa using this

/-- The conversion `%d` of a number that is not negative: a text of decimal digits
that is not empty, denotes the number and does not start with `0` unless the
number is 0. -/
theorem fmt_d_decimal (k : Nat) :
    fmt_d (k : Int) ≠ [] ∧ (∀ c ∈ fmt_d (k : Int), c.isDigit = true) ∧
    decimal_value (fmt_d (k : Int)) = k ∧
    (k ≠ 0 → (fmt_d (k : Int)).head? ≠ some '0') := by
  have e : fmt_d (k : Int) = Nat.toDigitsCore 10 (k + 1) k [] := by
    unfold fmt_d
    rw [if_neg (by omega)]
    simp [Nat.toDigits]
  rw [e]
  exact toDigitsCore_decimal (k + 1) k (by omega)


/-- Claim C12.  When the text fits into `disk_name`, the disk name that
`add_mtd_blktrans_dev` computes is the family name followed by a suffix.  Without
partition bits the suffix is the decimal device number: for a number `k` that is
not negative, a text of decimal digits that is not empty, denotes `k` and does
not start with `0` unless `k` is 0, so 0 gives "0", 12 gives "12" and 701 gives
"701".  With partition bits it is, for a number `k` below 26, the single letter
`'a' + k`, and for `26 ≤ k ≤ 701` two lowercase letters, the first one
`'a' - 1 + k / 26` and the second one `'a' + k % 26`, so 26 gives "aa", 27 gives
"ab" and 701 gives "zz"; different numbers up to 701 give different suffixes. -/
theorem C12_disk_name {σ : Type} (DISK_NAME_LEN : Nat) (tr : mtd_blktrans_ops σ)
    (new : mtd_blktrans_dev σ)
    (hfit : tr.name.length + (disk_name_suffix tr.part_bits new.devnum).length < DISK_NAME_LEN) :
    (add_mtd_blktrans_dev_disk DISK_NAME_LEN tr new).disk_name =
      tr.name ++ disk_name_suffix tr.part_bits new.devnum ∧
    (∀ k : Nat, tr.part_bits = 0 →
      disk_name_suffix tr.part_bits (k : Int) ≠ [] ∧
      (∀ c ∈ disk_name_suffix tr.part_bits (k : Int), c.isDigit = true) ∧
      decimal_value (disk_name_suffix tr.part_bits (k : Int)) = k ∧
      (k ≠ 0 → (disk_name_suffix tr.part_bits (k : Int)).head? ≠ some '0')) ∧
    (tr.part_bits = 0 → disk_name_suffix tr.part_bits 0 = ['0'] ∧
      disk_name_suffix tr.part_bits 12 = ['1', '2'] ∧
      disk_name_suffix tr.part_bits 701 = ['7', '0', '1']) ∧
    (∀ k : Nat, tr.part_bits ≠ 0 → k < 26 →
      disk_name_suffix tr.part_bits (k : Int) = [Char.ofNat ('a'.toNat + k)] ∧
      (Char.ofNat ('a'.toNat + k)).isLower = true) ∧
    (∀ k : Nat, tr.part_bits ≠ 0 → 26 ≤ k → k ≤ 701 →
      disk_name_suffix tr.part_bits (k : Int) =
        [Char.ofNat ('a'.toNat - 1 + k / 26), Char.ofNat ('a'.toNat + k % 26)] ∧
      (Char.ofNat ('a'.toNat - 1 + k / 26)).isLower = true ∧
      (Char.ofNat ('a'.toNat + k % 26)).isLower = true) ∧
    (tr.part_bits ≠ 0 → disk_name_suffix tr.part_bits 26 = ['a', 'a'] ∧
      disk_name_suffix tr.part_bits 27 = ['a', 'b'] ∧
      disk_name_suffix tr.part_bits 701 = ['z', 'z']) ∧
    (∀ n m : Nat, tr.part_bits ≠ 0 → n ≤ 701 → m ≤ 701 → n ≠ m →
      disk_name_suffix tr.part_bits (n : Int) ≠ disk_name_suffix tr.part_bits (m : Int)) := by
  have hlow : ∀ j : Nat, j < 26 → (Char.ofNat (97 + j)).isLower = true := by decide
  have ha : 'a'.toNat = 97 := by decide
  have hdec : ∀ x : Int, tr.part_bits = 0 → disk_name_suffix tr.part_bits x = fmt_d x := by
    intro x hp
    unfold disk_name_suffix
    rw [if_neg (by simp [hp])]
  refine ⟨?_, ?_, ?_, ?_, ?_, ?_, ?_⟩
  · unfold add_mtd_blktrans_dev_disk
    exact snprintf_fits _ _ (by rw [List.length_append]; exact hfit)
  · intro k hp
    rw [hdec _ hp]
    exact fmt_d_decimal k
  · intro hp
    rw [hdec _ hp, hdec _ hp, hdec _ hp]
    exact ⟨by decide, by decide, by decide⟩
  · intro k hp hk
    rw [ha]
    exact ⟨disk_name_suffix_one _ _ hp hk, hlow k hk⟩
  · intro k hp h26 hk
    rw [ha]
    refine ⟨disk_name_suffix_two _ _ hp h26 hk, ?_, hlow _ (Nat.mod_lt _ (by omega))⟩
    have h := hlow (k / 26 - 1) (by omega)
    have e : 97 + (k / 26 - 1) = 97 - 1 + k / 26 := by omega
    rwa [e] at h
  · intro hp
    refine ⟨?_, ?_, ?_⟩
    · exact disk_name_suffix_two _ 26 hp (by omega) (by omega)
    · exact disk_name_suffix_two _ 27 hp (by omega) (by omega)
    · exact disk_name_suffix_two _ 701 hp (by omega) (by omega)
  · intro n m hp hn hm hne h
    exact hne (disk_name_suffix_injective _ n m hp hn hm h)

/-- Claim C12 on the family "mtdblock" and a disk name of 32 bytes: with one
partition bit the device number 27 gives the disk name "mtdblockab", and without
partition bits the device number 12 gives the disk name "mtdblock12". -/
theorem C12_disk_name_witness :
    (add_mtd_blktrans_dev_disk 32 { ex_tr with part_bits := 1 } (ex_dev 27)).disk_name =
      ['m', 't', 'd', 'b', 'l', 'o', 'c', 'k'] ++ ['a', 'b'] ∧
    (add_mtd_blktrans_dev_disk 32 ex_tr (ex_dev 12)).disk_name =
      ['m', 't', 'd', 'b', 'l', 'o', 'c', 'k'] ++ ['1', '2'] :=
  ⟨(C12_disk_name 32 { ex_tr with part_bits := 1 } (ex_dev 27) (by decide)).1,
   (C12_disk_name 32 ex_tr (ex_dev 12) (by decide)).1⟩

/-! ## The worker: background processing -/

theorem thread_body_background {σ : Type} (SECTOR_BITS : Nat)
    (tr : mtd_blktrans_ops σ)
    (capacity mtd_rw_buffer : Nat) (bg : World σ → World σ) (s : Thread σ)
    (hb : tr.background = some bg) (hreq : s.req = none) (hd : s.background_done = false) :
    thread_body SECTOR_BITS tr capacity mtd_rw_buffer idle_iter s =
      some { s with
        w := bg s.w
        trace := s.trace ++ [Ev.background]
        bg_stop := false
        background_done := true } := by
  simp [thread_body, idle_iter, hreq, hb, hd]

theorem thread_body_park {σ : Type} (SECTOR_BITS : Nat)
    (tr : mtd_blktrans_ops σ)
    (capacity mtd_rw_buffer : Nat) (s : Thread σ)
    (hreq : s.req = none) (hd : s.background_done = true) :
    thread_body SECTOR_BITS tr capacity mtd_rw_buffer idle_iter s =
      some { s with bg_stop := false, trace := s.trace ++ [Ev.schedule] } := by
  cases hb : tr.background <;> simp [thread_body, idle_iter, hreq, hb, hd]

/-- Once the background hook has run, idle iterations only park the worker. -/
theorem mtd_blktrans_thread_parked {σ : Type} (SECTOR_BITS : Nat)
    (tr : mtd_blktrans_ops σ)
    (capacity mtd_rw_buffer : Nat) :
    ∀ (n : Nat) (s : Thread σ), s.req = none → s.background_done = true →
      ∃ s1, mtd_blktrans_thread SECTOR_BITS tr capacity mtd_rw_buffer (List.replicate n idle_iter) s =
          Run.running s1 ∧
        s1.trace = s.trace ++ List.replicate n Ev.schedule ∧
        s1.background_done = true ∧ s1.req = none ∧ s1.w = s.w ∧
        s1.fetched = s.fetched ∧ s1.ended = s.ended := by
  intro n
  induction n with
  | zero => intro s hreq hd; exact ⟨s, rfl, by simp, hd, hreq, rfl, rfl, rfl⟩
  | succ n ih =>
    intro s hreq hd
    obtain ⟨s1, h1, h2, h3, h4, h5, h6, h7⟩ :=
      ih { s with bg_stop := false, trace := s.trace ++ [Ev.schedule] } hreq hd
    refine ⟨s1, ?_, ?_, h3, h4, h5, h6, h7⟩
    · rw [List.replicate_succ]
      simp only [mtd_blktrans_thread]
      rw [if_neg (by simp [idle_iter]), thread_body_park SECTOR_BITS tr capacity mtd_rw_buffer s hreq hd]
      exact h1
    · rw [h2, List.replicate_succ]; simp

/-- Claim C13.  With a background hook, from a loop head at which the worker holds
no request and `background_done` is 0 (as at the start of the thread), along
`n + 1` iterations in which the queue stays empty and `bg_stop` is not set, the
hook is called exactly once, in the first iteration, and the worker parks in each
of the `n` later ones.  Every iteration that fetches a request ends with
`background_done` reset to 0 and without a request held, so the same holds again for the
idle iterations after it. -/
theorem C13_background_once_per_idle_period {σ : Type} (SECTOR_BITS : Nat)
    (tr : mtd_blktrans_ops σ)
    (capacity mtd_rw_buffer : Nat) (bg : World σ → World σ) (hb : tr.background = some bg) :
    (∀ (n : Nat) (s : Thread σ), s.req = none → s.background_done = false →
      ∃ s1, mtd_blktrans_thread SECTOR_BITS tr capacity mtd_rw_buffer (List.replicate (n + 1) idle_iter) s =
          Run.running s1 ∧
        s1.trace = s.trace ++ Ev.background :: List.replicate n Ev.schedule ∧
        s1.background_done = true ∧ s1.req = none ∧ s1.ended = s.ended) ∧
    (∀ (w : World σ), (thread_init w).req = none ∧ (thread_init w).background_done = false) ∧
    (∀ (it : Iter) (s s1 : Thread σ) (req : request), s.req = none → it.fetch = some req →
      thread_body SECTOR_BITS tr capacity mtd_rw_buffer it s = some s1 →
      s1.req = none ∧ s1.background_done = false) := by
  refine ⟨?_, fun w => ⟨rfl, rfl⟩, ?_⟩
  · intro n s hreq hd
    obtain ⟨s1, h1, h2, h3, h4, _, _, h7⟩ :=
      mtd_blktrans_thread_parked SECTOR_BITS tr capacity mtd_rw_buffer n
      { s with
        w := bg s.w
        trace := s.trace ++ [Ev.background]
        bg_stop := false
        background_done := true } hreq rfl
    refine ⟨s1, ?_, ?_, h3, h4, h7⟩
    · rw [List.replicate_succ]
      simp only [mtd_blktrans_thread]
      rw [if_neg (by simp [idle_iter]),
        thread_body_background SECTOR_BITS tr capacity mtd_rw_buffer bg s hb hreq hd]
      exact h1
    · rw [h2]; simp
  · intro it s s1 req hreq hfetch hbody
    by_cases hbad : req.cmd_type_fs = false ∨
        (blk_rq_pos req + blk_rq_sectors req) % 2 ^ SECTOR_BITS > capacity
    · rw [thread_body_invalid SECTOR_BITS tr capacity mtd_rw_buffer it s req hreq hfetch
        hbad] at hbody
      simp only [Option.some.injEq] at hbody
      subst hbody
      exact ⟨rfl, rfl⟩
    · have hfs : req.cmd_type_fs = true := by
        cases hc : req.cmd_type_fs
        · exact absurd (Or.inl hc) hbad
        · rfl
      have hrange : (blk_rq_pos req + blk_rq_sectors req) % 2 ^ SECTOR_BITS ≤ capacity := by
        by_contra hc
        exact hbad (Or.inr (by omega))
      rw [thread_body_admitted SECTOR_BITS tr capacity mtd_rw_buffer it s req hreq hfetch hfs
        hrange] at hbody
      cases hp : process_request tr mtd_rw_buffer s.w req with
      | none => simp [hp] at hbody
      | some out =>
        simp only [hp, Option.some.injEq] at hbody
        subst hbody
        exact ⟨rfl, rfl⟩

/-- Claim C13 on the example layer: three idle iterations after the start of the
thread call the background hook once and park twice. -/
theorem C13_background_once_per_idle_period_witness :
    ∃ s1, mtd_blktrans_thread 64 ex_tr 1024 1048576 (List.replicate (2 + 1) idle_iter)
        (thread_init ex_world) = Run.running s1 ∧
      s1.trace = (thread_init ex_world).trace ++ Ev.background :: List.replicate 2 Ev.schedule ∧
      s1.background_done = true ∧ s1.req = none ∧ s1.ended = (thread_init ex_world).ended :=
  (C13_background_once_per_idle_period 64 ex_tr 1024 1048576 (fun w => w) rfl).1 2
    (thread_init ex_world) rfl rfl

/-! ## The worker: the status reported -/

/-- The copy loop makes no translation-layer call, so it adds no return value. -/
theorem rets_copy_out : ∀ (l : List bio_vec) (p : Nat) (m : Mem), rets (copy_out l p m).2 = [] := by
  intro l
  induction l with
  | nil => intro p m; rfl
  | cons b rest ih => intro p m; simp only [copy_out, rets]; exact ih _ _

theorem status_of_rets_snoc (res : Int) (t : List Ev) (c : Call) (r : Int)
    (h : status_of_rets res t) :
    status_of_rets (if r ≠ 0 then - EIO_errno else res) (t ++ [Ev.tl c r]) := by
  unfold status_of_rets at *
  have e : rets (t ++ [Ev.tl c r]) = rets t ++ [r] := by rw [rets_append]; rfl
  rw [e]
  by_cases hr : r = 0
  · rw [if_neg (by simpa using hr), h]
    by_cases hall : ∀ x ∈ rets t, x = 0
    · rw [if_pos hall, if_pos]
      intro x hx
      rcases List.mem_append.mp hx with hx | hx
      · exact hall x hx
      · simp at hx; rw [hx, hr]
    · rw [if_neg hall, if_neg]
      intro h1
      exact hall (fun x hx => h1 x (List.mem_append_left _ hx))
  · rw [if_pos hr, if_neg]
    intro h1
    exact hr (h1 r (by simp))

theorem switch_cmd_flag_status {σ : Type} (tr : mtd_blktrans_ops σ) (c : Nat)
    (hc : c = READ ∨ c = WRITE) (s s1 : Walk σ) (h : switch_cmd_flag tr c s = some s1)
    (hs : status_of_rets s.res s.trace) : status_of_rets s1.res s1.trace := by
  unfold switch_cmd_flag at h
  by_cases hr : c = READ
  · rw [if_pos hr] at h
    simp only [Option.some.injEq] at h
    subst h
    exact status_of_rets_snoc _ _ _ _ hs
  · rw [if_neg hr] at h
    have hw : c = WRITE := by
      rcases hc with h1 | h1
      · exact absurd h1 hr
      · exact h1
    rw [if_pos hw] at h
    cases hf : tr.writesect with
    | none => simp [hf] at h
    | some f =>
      simp only [hf, Option.some.injEq] at h
      subst h
      exact status_of_rets_snoc _ _ _ _ hs

theorem walk_segment_status {σ : Type} (tr : mtd_blktrans_ops σ) (c : Nat)
    (hc : c = READ ∨ c = WRITE) (s s1 : Walk σ) (bv : bio_vec)
    (h : walk_segment tr c s bv = some s1) (hs : status_of_rets s.res s.trace) :
    status_of_rets s1.res s1.trace := by
  unfold walk_segment at h
  by_cases hadj : bv.addr = s.buf + s.data_len
  · rw [if_pos hadj] at h
    simp only [Option.some.injEq] at h
    subst h
    exact hs
  · rw [if_neg hadj] at h
    by_cases hd : s.data_len ≠ 0
    · rw [if_pos hd] at h
      cases hsw : switch_cmd_flag tr c s with
      | none => simp [hsw] at h
      | some s2 =>
        simp only [hsw, Option.some.injEq] at h
        subst h
        exact switch_cmd_flag_status tr c hc s s2 hsw hs
    · rw [if_neg hd] at h
      simp only [Option.some.injEq] at h
      subst h
      exact hs

theorem rw_segments_status {σ : Type} (tr : mtd_blktrans_ops σ) (c : Nat)
    (hc : c = READ ∨ c = WRITE) :
    ∀ (l : List bio_vec) (s s1 : Walk σ), rw_segments tr c l s = some s1 →
      status_of_rets s.res s.trace → status_of_rets s1.res s1.trace := by
  intro l
  induction l with
  | nil =>
    intro s s1 h hs
    rw [rw_segments_nil] at h
    by_cases hd : s.data_len ≠ 0
    · rw [if_pos hd] at h
      exact switch_cmd_flag_status tr c hc s s1 h hs
    · rw [if_neg hd] at h
      simp only [Option.some.injEq] at h
      subst h
      exact hs
  | cons bv rest ih =>
    intro s s1 h hs
    rw [rw_segments_cons] at h
    cases hw : walk_segment tr c s bv with
    | none => simp [hw] at h
    | some s2 =>
      simp only [hw] at h
      exact ih s2 s1 h (walk_segment_status tr c hc s s2 bv hw hs)

/-- Whatever the segments of the request, the processing ends with `res` equal to 0
when every translation-layer call returned 0 and to `-EIO` otherwise. -/
theorem process_request_status {σ : Type} (tr : mtd_blktrans_ops σ) (mtd_rw_buffer : Nat)
    (w : World σ) (req : request) (out : Walk σ)
    (h : process_request tr mtd_rw_buffer w req = some out) :
    status_of_rets out.res out.trace := by
  unfold process_request at h
  have h0 : status_of_rets 0 ([] : List Ev) := by simp [status_of_rets, rets]
  by_cases hp : rq_data_dir req = READ ∧ mtd_rw_buffer ≠ 0
  · simp only [if_pos hp, read_rw_buffer] at h
    by_cases hq : req.data_len >>> 9 > MTD_RW_SECTORS
    · simp [hq] at h
    · rw [if_neg hq] at h
      by_cases hb : (req_check_buffer_align req mtd_rw_buffer).2 = mtd_rw_buffer
      · simp only [if_pos hb, Option.some.injEq] at h
        subst h
        unfold status_of_rets
        by_cases hr : (tr.readsect w (blk_rq_pos req) (req.data_len >>> 9)
            (req_check_buffer_align req mtd_rw_buffer).2).2 = 0
        · simp [rets_append, rets, hr, rets_copy_out]
        · simp [rets_append, rets, hr, rets_copy_out]
      · simp only [if_neg hb, Option.some.injEq] at h
        subst h
        unfold status_of_rets
        by_cases hr : (tr.readsect w (blk_rq_pos req) (req.data_len >>> 9)
            (req_check_buffer_align req mtd_rw_buffer).2).2 = 0
        · simp [rets_append, rets, hr]
        · simp [rets_append, rets, hr]
  · simp only [if_neg hp] at h
    refine rw_segments_status tr _ ?_ req.segs _ out h h0
    cases hw : req.cmd_write <;> simp [rq_data_dir, hw, READ, WRITE]

/-- Claim C15, counterexample.  A write of one sector within the capacity of the
disk, to a layer whose `writesect` returns `-12` (`-ENOMEM`): the only call made
fails with `-12`, and the status the worker reports is `-5` (`-EIO`), not the value
the call returned. -/
theorem C15_status_not_the_value_returned :
    (thread_body 64 ex_tr_write_nomem 1024 1048576 (ex_iter (ex_req true 100 512 [⟨4096, 512⟩]))
        (thread_init ex_world)).map (fun s => (s.trace, s.ended)) =
    some ([Ev.tl (Call.writesect 100 1 4096) (-12)],
      [(ex_req true 100 512 [⟨4096, 512⟩], -5)]) := by
  rw [thread_body_valid 64 ex_tr_write_nomem 1024 1048576 _ _ (ex_req true 100 512 [⟨4096, 512⟩])
    rfl rfl rfl (by decide)]
  rfl

/-- Claim C15, as amended.  For every request within the capacity of the disk:
when it is a file-system request that the worker can serve (a write finds the
hook `writesect`, a read through the scratch buffer has at most 2048 sectors),
the status the worker reports is 0 exactly when every translation-layer call
made for the request returned 0, and otherwise it is `-EIO`, whatever value the
failing calls returned; when it is not a file-system request, it is completed
with `-EIO` without any call. -/
theorem C15_status_from_call_results {σ : Type} (SECTOR_BITS : Nat)
    (tr : mtd_blktrans_ops σ)
    (capacity mtd_rw_buffer : Nat) (it : Iter) (s : Thread σ) (req : request)
    (hreq : s.req = none) (hfetch : it.fetch = some req)
    (hrange : blk_rq_pos req + blk_rq_sectors req ≤ capacity)
    (hserv : req.cmd_type_fs = true → serviceable tr mtd_rw_buffer req) :
    (req.cmd_type_fs = true →
      ∃ s1 t res, thread_body SECTOR_BITS tr capacity mtd_rw_buffer it s = some s1 ∧
        s1.trace = s.trace ++ t ∧ s1.ended = s.ended ++ [(req, res)] ∧
        (res = 0 ↔ ∀ r ∈ rets t, r = 0) ∧ (res ≠ 0 → res = - EIO_errno)) ∧
    (req.cmd_type_fs = false →
      ∃ s1, thread_body SECTOR_BITS tr capacity mtd_rw_buffer it s = some s1 ∧
        s1.trace = s.trace ∧ calls s1.trace = calls s.trace ∧ s1.w = s.w ∧
        s1.ended = s.ended ++ [(req, - EIO_errno)]) := by
  constructor
  · intro hfs
    obtain ⟨out, hout⟩ := process_request_total tr mtd_rw_buffer s.w req (hserv hfs)
    have hst := process_request_status tr mtd_rw_buffer s.w req out hout
    have hbody :=
      thread_body_valid SECTOR_BITS tr capacity mtd_rw_buffer it s req hreq hfetch hfs hrange
    rw [hout] at hbody
    refine ⟨_, out.trace, out.res, hbody, rfl, rfl, ?_, ?_⟩
    · unfold status_of_rets at hst
      by_cases hall : ∀ r ∈ rets out.trace, r = 0
      · rw [if_pos hall] at hst
        exact ⟨fun _ => hall, fun _ => hst⟩
      · rw [if_neg hall] at hst
        constructor
        · intro h0
          rw [hst] at h0
          exact absurd h0 (by decide)
        · intro h; exact absurd h hall
    · intro hne
      unfold status_of_rets at hst
      by_cases hall : ∀ r ∈ rets out.trace, r = 0
      · rw [if_pos hall] at hst; exact absurd hst hne
      · rw [if_neg hall] at hst; exact hst
  · intro hfs
    have h := thread_body_invalid SECTOR_BITS tr capacity mtd_rw_buffer it s req hreq hfetch
      (Or.inl hfs)
    exact ⟨_, h, by simp [fetched_state]⟩

/-- Claim C15 as amended, on a write of one sector to a layer whose `writesect`
returns `-ENOMEM`. -/
theorem C15_status_from_call_results_witness :
    ∃ s1 t res,
      thread_body 64 ex_tr_write_nomem 1024 1048576
        (ex_iter (ex_req true 100 512 [⟨4096, 512⟩])) (thread_init ex_world) = some s1 ∧
      s1.trace = (thread_init ex_world).trace ++ t ∧
      s1.ended = (thread_init ex_world).ended ++ [(ex_req true 100 512 [⟨4096, 512⟩], res)] ∧
      (res = 0 ↔ ∀ r ∈ rets t, r = 0) ∧ (res ≠ 0 → res = - EIO_errno) :=
  (C15_status_from_call_results 64 ex_tr_write_nomem 1024 1048576
    (ex_iter (ex_req true 100 512 [⟨4096, 512⟩])) (thread_init ex_world)
    (ex_req true 100 512 [⟨4096, 512⟩]) rfl rfl (by decide)
    (fun _ => ⟨fun _ => rfl, fun h => absurd h (by decide)⟩)).1 rfl

/-! ## The worker: cancellation -/

/-- Claim C19, counterexample.  The worker fetches a write of one sector and the
stop is signalled while the request is processed, so that `kthread_should_stop()`
holds at the next loop head: the thread function returns, and the request has
been completed once, with status 0, not with `-EIO`. -/
theorem C19_in_flight_request_completed_with_success :
    (mtd_blktrans_thread 64 ex_tr 1024 1048576
        [ex_iter (ex_req true 100 512 [⟨4096, 512⟩]), stop_iter] (thread_init ex_world)).is_exited
      = true ∧
    (mtd_blktrans_thread 64 ex_tr 1024 1048576
        [ex_iter (ex_req true 100 512 [⟨4096, 512⟩]), stop_iter] (thread_init ex_world)).state.ended
      = [(ex_req true 100 512 [⟨4096, 512⟩], 0)] := by
  have h : thread_body 64 ex_tr 1024 1048576 (ex_iter (ex_req true 100 512 [⟨4096, 512⟩]))
      (thread_init ex_world) = _ :=
    thread_body_valid 64 ex_tr 1024 1048576 _ _ (ex_req true 100 512 [⟨4096, 512⟩])
      rfl rfl rfl (by decide)
  simp only [mtd_blktrans_thread, h]
  exact ⟨rfl, rfl⟩

/-- Claim C19, as amended.  When the worker has fetched a request that it can serve
if the request passes the validation (a write finds the hook `writesect`, a read
through the scratch buffer has at most 2048 sectors), and the stop is signalled
while the request is in flight, so that `kthread_should_stop()` holds at the next
loop head, the thread function returns after the request has been completed
exactly once: with `-EIO` when it is not a file-system request or its start
sector plus sector count (modulo `2 ^ SECTOR_BITS`, as `sector_t` adds) exceeds
the capacity, and otherwise with the result of its processing (0, or `-EIO` when
a call failed); the worker holds no request at the loop exit, where nothing more
is completed. -/
theorem C19_in_flight_request_gets_its_status {σ : Type} (SECTOR_BITS : Nat)
    (tr : mtd_blktrans_ops σ)
    (capacity mtd_rw_buffer : Nat) (it stop : Iter) (rest : List Iter) (s : Thread σ)
    (req : request)
    (hreq : s.req = none) (hrun : it.should_stop = false) (hfetch : it.fetch = some req)
    (hstop : stop.should_stop = true)
    (hserv : req.cmd_type_fs = true →
      (blk_rq_pos req + blk_rq_sectors req) % 2 ^ SECTOR_BITS ≤ capacity →
      serviceable tr mtd_rw_buffer req) :
    ∃ s1 res, thread_body SECTOR_BITS tr capacity mtd_rw_buffer it s = some s1 ∧
      mtd_blktrans_thread SECTOR_BITS tr capacity mtd_rw_buffer (it :: stop :: rest) s =
        Run.exited s1 ∧
      s1.req = none ∧ s1.fetched = s.fetched ++ [req] ∧ s1.ended = s.ended ++ [(req, res)] ∧
      ((req.cmd_type_fs = false ∨
          (blk_rq_pos req + blk_rq_sectors req) % 2 ^ SECTOR_BITS > capacity) →
        res = - EIO_errno) ∧
      ((req.cmd_type_fs = true ∧
          (blk_rq_pos req + blk_rq_sectors req) % 2 ^ SECTOR_BITS ≤ capacity) →
        ∃ out, process_request tr mtd_rw_buffer s.w req = some out ∧ res = out.res ∧
          status_of_rets res out.trace) := by
  have hexit : ∀ s1 : Thread σ,
      thread_body SECTOR_BITS tr capacity mtd_rw_buffer it s = some s1 →
      s1.req = none →
      mtd_blktrans_thread SECTOR_BITS tr capacity mtd_rw_buffer (it :: stop :: rest) s =
        Run.exited s1 := by
    intro s1 hb h1
    simp [mtd_blktrans_thread, hrun, hb, hstop, h1]
  by_cases hbad : req.cmd_type_fs = false ∨
      (blk_rq_pos req + blk_rq_sectors req) % 2 ^ SECTOR_BITS > capacity
  · have hb := thread_body_invalid SECTOR_BITS tr capacity mtd_rw_buffer it s req hreq hfetch
      hbad
    refine ⟨_, - EIO_errno, hb, hexit _ hb rfl, rfl, by simp [fetched_state], rfl,
      fun _ => rfl, ?_⟩
    rintro ⟨hfs, hrange⟩
    rcases hbad with h | h
    · rw [hfs] at h; exact absurd h (by decide)
    · omega
  · have hfs : req.cmd_type_fs = true := by
      cases hc : req.cmd_type_fs
      · exact absurd (Or.inl hc) hbad
      · rfl
    have hrange : (blk_rq_pos req + blk_rq_sectors req) % 2 ^ SECTOR_BITS ≤ capacity := by
      by_contra hc
      exact hbad (Or.inr (by omega))
    obtain ⟨out, hout⟩ := process_request_total tr mtd_rw_buffer s.w req (hserv hfs hrange)
    have hb := thread_body_admitted SECTOR_BITS tr capacity mtd_rw_buffer it s req hreq hfetch
      hfs hrange
    rw [hout] at hb
    exact ⟨_, out.res, hb, hexit _ hb rfl, rfl, by simp [fetched_state], rfl,
      fun h => absurd h hbad,
      fun _ => ⟨out, hout, rfl, process_request_status tr mtd_rw_buffer s.w req out hout⟩⟩

/-- Claim C19 as amended, on a write of one sector followed by the stop. -/
theorem C19_in_flight_request_gets_its_status_witness :
    ∃ s1 res,
      thread_body 64 ex_tr 1024 1048576 (ex_iter (ex_req true 100 512 [⟨4096, 512⟩]))
        (thread_init ex_world) = some s1 ∧
      mtd_blktrans_thread 64 ex_tr 1024 1048576
        (ex_iter (ex_req true 100 512 [⟨4096, 512⟩]) :: stop_iter :: [])
        (thread_init ex_world) = Run.exited s1 ∧
      s1.req = none ∧
      s1.fetched = (thread_init ex_world).fetched ++ [ex_req true 100 512 [⟨4096, 512⟩]] ∧
      s1.ended = (thread_init ex_world).ended ++ [(ex_req true 100 512 [⟨4096, 512⟩], res)] ∧
      (((ex_req true 100 512 [⟨4096, 512⟩]).cmd_type_fs = false ∨
          (blk_rq_pos (ex_req true 100 512 [⟨4096, 512⟩]) +
            blk_rq_sectors (ex_req true 100 512 [⟨4096, 512⟩])) % 2 ^ 64 > 1024) →
        res = - EIO_errno) ∧
      (((ex_req true 100 512 [⟨4096, 512⟩]).cmd_type_fs = true ∧
          (blk_rq_pos (ex_req true 100 512 [⟨4096, 512⟩]) +
            blk_rq_sectors (ex_req true 100 512 [⟨4096, 512⟩])) % 2 ^ 64 ≤ 1024) →
        ∃ out, process_request ex_tr 1048576 (thread_init ex_world).w
          (ex_req true 100 512 [⟨4096, 512⟩]) = some out ∧ res = out.res ∧
          status_of_rets res out.trace) :=
  C19_in_flight_request_gets_its_status 64 ex_tr 1024 1048576
    (ex_iter (ex_req true 100 512 [⟨4096, 512⟩])) stop_iter [] (thread_init ex_world)
    (ex_req true 100 512 [⟨4096, 512⟩]) rfl rfl rfl rfl
    (fun _ _ => ⟨fun _ => rfl, fun h => absurd h (by decide)⟩)

/-! ## Opening: failures -/

/-- A first open whose hook `tr->open` fails: the error is returned and the
references taken are dropped again. -/
theorem blktrans_open_hook_fails {σ : Type} (tr : mtd_blktrans_ops σ) (d : Disk σ)
    (m : mtd_info σ) (hp : d.private_data = true) (href : 1 ≤ d.dev.ref)
    (hmtd : d.dev.mtd = some m) (hopen : d.dev.open_count = 0)
    (hfail : (open_hook_outcome tr d.w).2 ≠ 0) :
    (blktrans_open tr d).2 = (open_hook_outcome tr d.w).2 ∧
    (blktrans_open tr d).1.private_data = true ∧
    (blktrans_open tr d).1.dev.open_count = 0 ∧
    (blktrans_open tr d).1.dev.ref = d.dev.ref ∧
    (blktrans_open tr d).1.module_refs = d.module_refs ∧
    (blktrans_open tr d).1.dev.mtd = some m ∧
    (blktrans_open tr d).1.log = d.log ++ open_hook_events tr d.w := by
  have h0 : d.dev.ref ≠ 0 := by omega
  unfold open_hook_outcome at hfail
  unfold blktrans_open open_hook_outcome open_hook_events
  simp only [hp, kref_get, module_ref, hopen, hmtd]
  cases ho : tr.open_hook with
  | none => simp [ho] at hfail
  | some f =>
    simp only [ho] at hfail
    simp [hfail, blktrans_open_error_put, blktrans_dev_put, kref_put, module_ref, hp, hmtd, h0,
      hopen]

/-- A first open whose medium claim fails after the hook `tr->open` went well: the
error is returned, the hook `tr->release` is called if there is one, and the
references taken are dropped again. -/
theorem blktrans_open_get_fails {σ : Type} (tr : mtd_blktrans_ops σ) (d : Disk σ)
    (m : mtd_info σ) (hp : d.private_data = true) (href : 1 ≤ d.dev.ref)
    (hmtd : d.dev.mtd = some m) (hopen : d.dev.open_count = 0)
    (hhook : (open_hook_outcome tr d.w).2 = 0)
    (hfail : (m.get_mtd_device (open_hook_outcome tr d.w).1).2 ≠ 0) :
    (blktrans_open tr d).2 = (m.get_mtd_device (open_hook_outcome tr d.w).1).2 ∧
    (blktrans_open tr d).1.private_data = true ∧
    (blktrans_open tr d).1.dev.open_count = 0 ∧
    (blktrans_open tr d).1.dev.ref = d.dev.ref ∧
    (blktrans_open tr d).1.module_refs = d.module_refs ∧
    (blktrans_open tr d).1.dev.mtd = some m ∧
    (blktrans_open tr d).1.log = d.log ++ open_hook_events tr d.w ++
      [LifeEv.get_mtd (m.get_mtd_device (open_hook_outcome tr d.w).1).2] ++
      release_hook_events tr (m.get_mtd_device (open_hook_outcome tr d.w).1).1 := by
  have h0 : d.dev.ref ≠ 0 := by omega
  unfold open_hook_outcome at hhook hfail
  unfold blktrans_open open_hook_outcome open_hook_events release_hook_events
  simp only [hp, kref_get, module_ref, hopen, hmtd]
  cases ho : tr.open_hook with
  | none =>
    simp only [ho] at hhook hfail
    cases hr : tr.release <;>
      simp [hfail, blktrans_open_error_release, blktrans_open_error_put, blktrans_dev_put,
        kref_put, module_ref, hp, hmtd, h0, hopen, hr]
  | some f =>
    simp only [ho] at hhook hfail
    cases hr : tr.release <;>
      simp [hhook, hfail, blktrans_open_error_release, blktrans_open_error_put,
        blktrans_dev_put, kref_put, module_ref, hp, hmtd, h0, hopen, hr]

theorem release_hook_count_events {σ : Type} (tr : mtd_blktrans_ops σ) (w : World σ) :
    release_hook_count (release_hook_events tr w) = if tr.release.isSome then 1 else 0 := by
  cases h : tr.release <;> simp [release_hook_events, release_hook_count, h]

theorem release_hook_count_open_events {σ : Type} (tr : mtd_blktrans_ops σ) (w : World σ) :
    release_hook_count (open_hook_events tr w) = 0 := by
  cases h : tr.open_hook <;> simp [open_hook_events, release_hook_count, h]

theorem get_count_append (a b : List LifeEv) : get_count (a ++ b) = get_count a + get_count b := by
  simp [get_count]

theorem put_count_append (a b : List LifeEv) : put_count (a ++ b) = put_count a + put_count b := by
  simp [put_count]

theorem get_count_open_events {σ : Type} (tr : mtd_blktrans_ops σ) (w : World σ) :
    get_count (open_hook_events tr w) = 0 := by
  cases h : tr.open_hook <;> simp [get_count, open_hook_events, h, List.count_cons]

theorem get_count_release_events {σ : Type} (tr : mtd_blktrans_ops σ) (w : World σ) :
    get_count (release_hook_events tr w) = 0 := by
  cases h : tr.release <;> simp [get_count, release_hook_events, h, List.count_cons]

theorem put_count_open_events {σ : Type} (tr : mtd_blktrans_ops σ) (w : World σ) :
    put_count (open_hook_events tr w) = 0 := by
  cases h : tr.open_hook <;> simp [put_count, open_hook_events, h, List.count_cons]

theorem put_count_release_events {σ : Type} (tr : mtd_blktrans_ops σ) (w : World σ) :
    put_count (release_hook_events tr w) = 0 := by
  cases h : tr.release <;> simp [put_count, release_hook_events, h, List.count_cons]

theorem get_count_failed_get (g : Int) (hg : g ≠ 0) : get_count [LifeEv.get_mtd g] = 0 := by
  simp [get_count, List.count_cons, hg]

theorem put_count_get (g : Int) : put_count [LifeEv.get_mtd g] = 0 := by
  simp [put_count, List.count_cons]

/-- Claim C14.  On a present device with open count 0 and a live medium: when the
hook `tr->open` fails, or when it goes well (or is absent) and `__get_mtd_device`
fails, `blktrans_open` returns that error, the open count is still 0, and the
reference count of the device and that of the module are what they were before
the call.  In the first case no release hook is called; in the second case the
hook `tr->release`, when the layer has one, is called exactly once. -/
theorem C14_failed_open_is_undone {σ : Type} (tr : mtd_blktrans_ops σ) (d : Disk σ)
    (m : mtd_info σ) (hp : d.private_data = true) (href : 1 ≤ d.dev.ref)
    (hmtd : d.dev.mtd = some m) (hopen : d.dev.open_count = 0) :
    ((open_hook_outcome tr d.w).2 ≠ 0 →
      (blktrans_open tr d).2 = (open_hook_outcome tr d.w).2 ∧
      (blktrans_open tr d).1.dev.open_count = 0 ∧
      (blktrans_open tr d).1.dev.ref = d.dev.ref ∧
      (blktrans_open tr d).1.module_refs = d.module_refs ∧
      release_hook_count (blktrans_open tr d).1.log = release_hook_count d.log ∧
      get_count (blktrans_open tr d).1.log = get_count d.log) ∧
    ((open_hook_outcome tr d.w).2 = 0 →
      (m.get_mtd_device (open_hook_outcome tr d.w).1).2 ≠ 0 →
      (blktrans_open tr d).2 = (m.get_mtd_device (open_hook_outcome tr d.w).1).2 ∧
      (blktrans_open tr d).1.dev.open_count = 0 ∧
      (blktrans_open tr d).1.dev.ref = d.dev.ref ∧
      (blktrans_open tr d).1.module_refs = d.module_refs ∧
      release_hook_count (blktrans_open tr d).1.log =
        release_hook_count d.log + (if tr.release.isSome then 1 else 0) ∧
      get_count (blktrans_open tr d).1.log = get_count d.log) := by
  constructor
  · intro hfail
    obtain ⟨h1, _, h3, h4, h5, _, h7⟩ := blktrans_open_hook_fails tr d m hp href hmtd hopen hfail
    refine ⟨h1, h3, h4, h5, ?_, ?_⟩
    · rw [h7, release_hook_count_append, release_hook_count_open_events]; rfl
    · rw [h7, get_count_append, get_count_open_events]; rfl
  · intro hhook hfail
    obtain ⟨h1, _, h3, h4, h5, _, h7⟩ :=
      blktrans_open_get_fails tr d m hp href hmtd hopen hhook hfail
    refine ⟨h1, h3, h4, h5, ?_, ?_⟩
    · rw [h7, release_hook_count_append, release_hook_count_append, release_hook_count_append,
        release_hook_count_open_events, release_hook_count_events]
      simp [release_hook_count]
    · rw [h7, get_count_append, get_count_append, get_count_append, get_count_open_events,
        get_count_release_events, get_count_failed_get _ hfail]; rfl

/-- Claim C14 on the example disk: with an open hook that fails with `-EIO`, and with
a medium whose claim fails with `-ENODEV`. -/
theorem C14_failed_open_is_undone_witness :
    ((blktrans_open ex_tr_open_fails ex_disk).2 = (open_hook_outcome ex_tr_open_fails ex_disk.w).2 ∧
      (blktrans_open ex_tr_open_fails ex_disk).1.dev.open_count = 0 ∧
      (blktrans_open ex_tr_open_fails ex_disk).1.dev.ref = ex_disk.dev.ref ∧
      (blktrans_open ex_tr_open_fails ex_disk).1.module_refs = ex_disk.module_refs ∧
      release_hook_count (blktrans_open ex_tr_open_fails ex_disk).1.log =
        release_hook_count ex_disk.log ∧
      get_count (blktrans_open ex_tr_open_fails ex_disk).1.log = get_count ex_disk.log) ∧
    ((blktrans_open ex_tr ex_disk_mtd_fails).2 =
        (ex_mtd_fails.get_mtd_device (open_hook_outcome ex_tr ex_disk_mtd_fails.w).1).2 ∧
      (blktrans_open ex_tr ex_disk_mtd_fails).1.dev.open_count = 0 ∧
      (blktrans_open ex_tr ex_disk_mtd_fails).1.dev.ref = ex_disk_mtd_fails.dev.ref ∧
      (blktrans_open ex_tr ex_disk_mtd_fails).1.module_refs = ex_disk_mtd_fails.module_refs ∧
      release_hook_count (blktrans_open ex_tr ex_disk_mtd_fails).1.log =
        release_hook_count ex_disk_mtd_fails.log + (if ex_tr.release.isSome then 1 else 0) ∧
      get_count (blktrans_open ex_tr ex_disk_mtd_fails).1.log =
        get_count ex_disk_mtd_fails.log) :=
  ⟨(C14_failed_open_is_undone ex_tr_open_fails ex_disk ex_mtd rfl (by decide) rfl rfl).1
      (by decide),
   (C14_failed_open_is_undone ex_tr ex_disk_mtd_fails ex_mtd_fails rfl (by decide) rfl rfl).2
      rfl (by decide)⟩

/-! ## The flush ioctl -/

/-- Claim C16.  On a present device, `blktrans_ioctl` with the command `BLKFLSBUF`:
with a live medium it returns what the hook `tr->flush` returns, 0 when the layer
has no such hook, and the hook is the only thing called; with a null medium it
returns `-ENXIO` and calls nothing; the open count is unchanged in both cases. -/
theorem C16_flush_ioctl {σ : Type} (BLKFLSBUF : Nat) (tr : mtd_blktrans_ops σ) (d : Disk σ)
    (hp : d.private_data = true) (href : 1 ≤ d.dev.ref) :
    (d.dev.mtd.isSome = true →
      (blktrans_ioctl BLKFLSBUF tr d BLKFLSBUF).2 = flush_result tr d.w ∧
      (blktrans_ioctl BLKFLSBUF tr d BLKFLSBUF).1.log = d.log ++ flush_hook_events tr d.w) ∧
    (d.dev.mtd = none →
      (blktrans_ioctl BLKFLSBUF tr d BLKFLSBUF).2 = - ENXIO_errno ∧
      (blktrans_ioctl BLKFLSBUF tr d BLKFLSBUF).1.log = d.log ∧
      (blktrans_ioctl BLKFLSBUF tr d BLKFLSBUF).1.w = d.w) ∧
    (blktrans_ioctl BLKFLSBUF tr d BLKFLSBUF).1.dev.open_count = d.dev.open_count ∧
    (blktrans_ioctl BLKFLSBUF tr d BLKFLSBUF).1.dev.ref = d.dev.ref ∧
    (blktrans_ioctl BLKFLSBUF tr d BLKFLSBUF).1.private_data = true := by
  have h0 : d.dev.ref ≠ 0 := by omega
  unfold blktrans_ioctl flush_result flush_hook_events
  cases hm : d.dev.mtd with
  | none =>
    simp [hp, kref_get, hm, blktrans_dev_put, kref_put, h0]
  | some m =>
    cases hf : tr.flush <;>
      simp [hp, kref_get, hm, blktrans_dev_put, kref_put, h0, hf]

/-- Claim C16 on the example disk with a live medium and with a null medium. -/
theorem C16_flush_ioctl_witness :
    ((blktrans_ioctl 4705 ex_tr ex_disk 4705).2 = flush_result ex_tr ex_disk.w ∧
      (blktrans_ioctl 4705 ex_tr ex_disk 4705).1.log =
        ex_disk.log ++ flush_hook_events ex_tr ex_disk.w) ∧
    ((blktrans_ioctl 4705 ex_tr ex_disk_no_mtd 4705).2 = - ENXIO_errno ∧
      (blktrans_ioctl 4705 ex_tr ex_disk_no_mtd 4705).1.log = ex_disk_no_mtd.log ∧
      (blktrans_ioctl 4705 ex_tr ex_disk_no_mtd 4705).1.w = ex_disk_no_mtd.w) :=
  ⟨(C16_flush_ioctl 4705 ex_tr ex_disk rfl (by decide)).1 rfl,
   (C16_flush_ioctl 4705 ex_tr ex_disk_no_mtd rfl (by decide)).2.1 rfl⟩

/-! ## The segment walk: sectors of the runs -/

theorem run_bytes_cons (r : CoalescedRun) (l : List CoalescedRun) :
    run_bytes (r :: l) = r.length + run_bytes l := by
  simp [run_bytes]

theorem run_bytes_nil : run_bytes [] = 0 := rfl

/-- On fragments whose lengths are multiples of 512, the runs of the Segment
Coalescer follow each other in sectors: each run starts at the sector of the
first run plus the bytes of the runs before it divided by 512; the runs have the
bytes of the current run and of the fragments together, each a multiple of 512. -/
theorem spec_coalesce_from_sectors : ∀ (l : List bio_vec) (cur : CoalescedRun),
    512 ∣ cur.length → (∀ bv ∈ l, 512 ∣ bv.bv_len) →
    (∀ (i : Nat) (r : CoalescedRun), (spec_coalesce_from cur l)[i]? = some r →
      r.start_sector = cur.start_sector + run_bytes ((spec_coalesce_from cur l).take i) / 512) ∧
    run_bytes (spec_coalesce_from cur l) = cur.length + seg_bytes l ∧
    (∀ r ∈ spec_coalesce_from cur l, 512 ∣ r.length) := by
  intro l
  induction l with
  | nil =>
    intro cur hc _
    refine ⟨?_, by simp [spec_coalesce_from, run_bytes, seg_bytes_nil], ?_⟩
    · intro i r hi
      cases i with
      | zero =>
        simp [spec_coalesce_from] at hi
        subst hi
        simp [run_bytes]
      | succ j => simp [spec_coalesce_from] at hi
    · intro r hr
      simp [spec_coalesce_from] at hr
      subst hr
      exact hc
  | cons bv rest ih =>
    intro cur hc hl
    have hbv : 512 ∣ bv.bv_len := hl bv (List.mem_cons_self _ _)
    have hrest : ∀ b ∈ rest, 512 ∣ b.bv_len := fun b hb => hl b (List.mem_cons_of_mem _ hb)
    by_cases hadj : bv.addr = cur.buffer + cur.length
    · have e : spec_coalesce_from cur (bv :: rest) =
          spec_coalesce_from { cur with length := cur.length + bv.bv_len } rest := by
        simp only [spec_coalesce_from, if_pos hadj]
      obtain ⟨h1, h2, h3⟩ := ih { cur with length := cur.length + bv.bv_len }
        (Nat.dvd_add hc hbv) hrest
      rw [e]
      refine ⟨h1, ?_, h3⟩
      rw [h2, seg_bytes_cons]
      simp [Nat.add_assoc]
    · have e : spec_coalesce_from cur (bv :: rest) =
          cur :: spec_coalesce_from
            { start_sector := cur.start_sector + cur.length / 512, length := bv.bv_len,
              buffer := bv.addr } rest := by
        simp only [spec_coalesce_from, if_neg hadj]
      obtain ⟨h1, h2, h3⟩ := ih
        { start_sector := cur.start_sector + cur.length / 512, length := bv.bv_len,
          buffer := bv.addr } hbv hrest
      rw [e]
      refine ⟨?_, ?_, ?_⟩
      · intro i r hi
        cases i with
        | zero =>
          simp at hi
          subst hi
          simp [run_bytes]
        | succ j =>
          simp only [List.getElem?_cons_succ] at hi
          rw [h1 j r hi, List.take_succ_cons, run_bytes_cons]
          obtain ⟨k, hk⟩ := hc
          simp only
          omega
      · rw [run_bytes_cons, h2, seg_bytes_cons]
      · intro r hr
        rcases List.mem_cons.mp hr with hr | hr
        · rw [hr]; exact hc
        · exact h3 r hr

/-- The sector counts of runs whose byte lengths are multiples of 512 add up to
the bytes of the runs divided by 512. -/
theorem run_sectors_sum : ∀ (l : List CoalescedRun), (∀ r ∈ l, 512 ∣ r.length) →
    (l.map (fun r => r.length / 512)).sum = run_bytes l / 512 := by
  intro l
  induction l with
  | nil => intro _; rfl
  | cons r rest ih =>
    intro h
    rw [List.map_cons, List.sum_cons, run_bytes_cons, ih (fun x hx => h x (List.mem_cons_of_mem _ hx))]
    obtain ⟨k, hk⟩ := h r (List.mem_cons_self _ _)
    omega

/-- Claim C17.  In the segment-walking path (a write to a layer with `writesect`, or
a read while there is no scratch buffer), on a request with at least one segment,
all segment lengths non-zero multiples of 512: the calls are those of the
coalesced runs, in order; the `i`-th call is issued at the start sector of the
request plus the bytes of the runs before it divided by 512, with the bytes of its
own run divided by 512 as sector count; the runs have the bytes of the segments
together, and the sector counts of the calls add up to the bytes of the segments
divided by 512. -/
theorem C17_runs_are_sector_contiguous {σ : Type} (tr : mtd_blktrans_ops σ)
    (mtd_rw_buffer : Nat) (w : World σ) (req : request)
    (hpath : req.cmd_write = true ∨ mtd_rw_buffer = 0)
    (hhook : req.cmd_write = true → tr.writesect.isSome = true)
    (hne : req.segs ≠ [])
    (hlen : ∀ bv ∈ req.segs, bv.bv_len ≠ 0 ∧ 512 ∣ bv.bv_len) :
    ∃ out, process_request tr mtd_rw_buffer w req = some out ∧
      (calls out.trace).length = (spec_coalesce (blk_rq_pos req) req.segs).length ∧
      (∀ (i : Nat) (r : CoalescedRun), (spec_coalesce (blk_rq_pos req) req.segs)[i]? = some r →
        (calls out.trace)[i]? = some (run_call (rq_data_dir req)
          (blk_rq_pos req + run_bytes ((spec_coalesce (blk_rq_pos req) req.segs).take i) / 512)
          (r.length / 512) r.buffer)) ∧
      run_bytes (spec_coalesce (blk_rq_pos req) req.segs) = seg_bytes req.segs ∧
      ((spec_coalesce (blk_rq_pos req) req.segs).map (fun r => r.length / 512)).sum =
        seg_bytes req.segs / 512 := by
  obtain ⟨out, h1, h2, _, _⟩ := process_request_walk tr mtd_rw_buffer w req hpath hhook hne
    (fun bv hbv => (hlen bv hbv).1)
  obtain ⟨f, rest, hsegs⟩ := List.exists_cons_of_ne_nil hne
  have hmul : ∀ bv ∈ f :: rest, 512 ∣ bv.bv_len := by
    intro bv hbv; rw [← hsegs] at hbv; exact (hlen bv hbv).2
  obtain ⟨s1, s2, s3⟩ := spec_coalesce_from_sectors rest
    { start_sector := blk_rq_pos req, length := f.bv_len, buffer := f.addr }
    (hmul f (List.mem_cons_self _ _)) (fun b hb => hmul b (List.mem_cons_of_mem _ hb))
  have hruns : spec_coalesce (blk_rq_pos req) req.segs =
      spec_coalesce_from { start_sector := blk_rq_pos req, length := f.bv_len, buffer := f.addr }
        rest := by
    rw [hsegs]; rfl
  refine ⟨out, h1, ?_, ?_, ?_, ?_⟩
  · rw [h2, List.length_map]
  · intro i r hi
    rw [h2, List.getElem?_map, hi]
    rw [hruns] at hi ⊢
    have hs := s1 i r hi
    simp only [Option.map_some']
    rw [hs]
  · rw [hruns, s2, hsegs, seg_bytes_cons]
  · rw [hruns, run_sectors_sum _ s3, s2, hsegs, seg_bytes_cons]

/-- Claim C17 on a write of three segments of one, two and one sectors with a gap
after the second segment, at sector 100. -/
theorem C17_runs_are_sector_contiguous_witness :
    ∃ out, process_request ex_tr 0 ex_world
        (ex_req true 100 2048 [⟨4096, 512⟩, ⟨4608, 1024⟩, ⟨8192, 512⟩]) = some out ∧
      (calls out.trace).length = (spec_coalesce 100 [⟨4096, 512⟩, ⟨4608, 1024⟩, ⟨8192, 512⟩]).length ∧
      (∀ (i : Nat) (r : CoalescedRun),
        (spec_coalesce 100 [⟨4096, 512⟩, ⟨4608, 1024⟩, ⟨8192, 512⟩])[i]? = some r →
        (calls out.trace)[i]? = some (run_call 1
          (100 + run_bytes ((spec_coalesce 100 [⟨4096, 512⟩, ⟨4608, 1024⟩, ⟨8192, 512⟩]).take i)
            / 512)
          (r.length / 512) r.buffer)) ∧
      run_bytes (spec_coalesce 100 [⟨4096, 512⟩, ⟨4608, 1024⟩, ⟨8192, 512⟩]) =
        seg_bytes [⟨4096, 512⟩, ⟨4608, 1024⟩, ⟨8192, 512⟩] ∧
      ((spec_coalesce 100 [⟨4096, 512⟩, ⟨4608, 1024⟩, ⟨8192, 512⟩]).map
        (fun r => r.length / 512)).sum = seg_bytes [⟨4096, 512⟩, ⟨4608, 1024⟩, ⟨8192, 512⟩] / 512 :=
  C17_runs_are_sector_contiguous ex_tr 0 ex_world
    (ex_req true 100 2048 [⟨4096, 512⟩, ⟨4608, 1024⟩, ⟨8192, 512⟩])
    (Or.inl rfl) (fun _ => rfl) (by decide) (by decide)

/-! ## `req_check_buffer_align` and the Segment Coalescer -/

/-- On segments that do not end at the null address, the loop of
`req_check_buffer_align` runs to its end exactly on a chain of adjacent segments,
and then returns the first buffer it was given. -/
theorem req_check_buffer_align_loop_iff : ∀ (l : List bio_vec) (p : bio_vec) (firstbuf : Nat),
    p.addr + p.bv_len ≠ 0 → (∀ bv ∈ l, bv.addr + bv.bv_len ≠ 0) → firstbuf ≠ 0 →
    (List.Chain follows p l →
      req_check_buffer_align_loop l firstbuf (p.addr + p.bv_len) = some firstbuf) ∧
    (¬ List.Chain follows p l →
      req_check_buffer_align_loop l firstbuf (p.addr + p.bv_len) = none) := by
  intro l
  induction l with
  | nil =>
    intro p fb _ _ _
    exact ⟨fun _ => rfl, fun h => absurd List.Chain.nil h⟩
  | cons bv rest ih =>
    intro p fb hp hend hfb
    have hbv : bv.addr + bv.bv_len ≠ 0 := hend bv (List.mem_cons_self _ _)
    have hrest : ∀ b ∈ rest, b.addr + b.bv_len ≠ 0 :=
      fun b hb => hend b (List.mem_cons_of_mem _ hb)
    by_cases hadj : p.addr + p.bv_len = bv.addr
    · have hstep : req_check_buffer_align_loop (bv :: rest) fb (p.addr + p.bv_len) =
          req_check_buffer_align_loop rest fb (bv.addr + bv.bv_len) := by
        simp only [req_check_buffer_align_loop]
        rw [if_neg hfb, if_neg (by simp [hadj])]
      obtain ⟨i1, i2⟩ := ih bv fb hbv hrest hfb
      rw [hstep]
      constructor
      · intro hch
        rw [List.chain_cons] at hch
        exact i1 hch.2
      · intro hch
        apply i2
        intro h
        exact hch (List.Chain.cons (by unfold follows; omega) h)
    · constructor
      · intro hch
        rw [List.chain_cons] at hch
        have := hch.1
        unfold follows at this
        omega
      · intro _
        simp only [req_check_buffer_align_loop]
        rw [if_pos ⟨hp, hadj⟩]

/-- On a request whose first segment is not at the null address and whose
segments have non-zero lengths, `req_check_buffer_align` returns 1 and the address
of the first segment when all segments are adjacent, and 0 with `*pbuf` untouched
otherwise. -/
theorem req_check_buffer_align_eq (req : request) (pbuf : Nat) (f : bio_vec)
    (rest : List bio_vec) (hsegs : req.segs = f :: rest) (hf : f.addr ≠ 0)
    (hlen : ∀ bv ∈ req.segs, bv.bv_len ≠ 0) :
    req_check_buffer_align req pbuf =
      if List.Chain' follows req.segs then (1, f.addr) else (0, pbuf) := by
  rw [hsegs] at hlen
  have hend : ∀ bv ∈ rest, bv.addr + bv.bv_len ≠ 0 := by
    intro bv hbv
    have := hlen bv (List.mem_cons_of_mem _ hbv)
    omega
  obtain ⟨i1, i2⟩ := req_check_buffer_align_loop_iff rest f f.addr (by omega) hend hf
  unfold req_check_buffer_align
  rw [hsegs]
  simp only [req_check_buffer_align_loop]
  rw [if_neg (by simp), if_pos trivial]
  by_cases hch : List.Chain' follows (f :: rest)
  · rw [if_pos hch, i1 hch]
  · rw [if_neg hch, i2 hch]

theorem spec_coalesce_from_length_pos (cur : CoalescedRun) :
    ∀ (l : List bio_vec), 1 ≤ (spec_coalesce_from cur l).length := by
  intro l
  induction l generalizing cur with
  | nil => simp [spec_coalesce_from]
  | cons bv rest ih =>
    by_cases hadj : bv.addr = cur.buffer + cur.length
    · simp only [spec_coalesce_from, if_pos hadj]; exact ih _
    · simp only [spec_coalesce_from, if_neg hadj, List.length_cons]; omega

/-- Fragments that are not all adjacent give at least two runs. -/
theorem spec_coalesce_from_length_gap : ∀ (l : List bio_vec) (p : bio_vec) (cur : CoalescedRun),
    p.addr + p.bv_len = cur.buffer + cur.length → ¬ List.Chain follows p l →
    2 ≤ (spec_coalesce_from cur l).length := by
  intro l
  induction l with
  | nil => intro p cur _ h; exact absurd List.Chain.nil h
  | cons bv rest ih =>
    intro p cur hp hch
    by_cases hadj : bv.addr = cur.buffer + cur.length
    · simp only [spec_coalesce_from, if_pos hadj]
      apply ih bv { cur with length := cur.length + bv.bv_len } (by simp; omega)
      intro h
      exact hch (List.Chain.cons (by unfold follows; omega) h)
    · simp only [spec_coalesce_from, if_neg hadj, List.length_cons]
      have := spec_coalesce_from_length_pos
        { start_sector := cur.start_sector + cur.length / 512, length := bv.bv_len,
          buffer := bv.addr } rest
      omega

/-- The Segment Coalescer gives a single run exactly when all fragments are
adjacent. -/
theorem spec_coalesce_single_iff (start : Nat) (f : bio_vec) (rest : List bio_vec) :
    (spec_coalesce start (f :: rest)).length = 1 ↔ List.Chain' follows (f :: rest) := by
  constructor
  · intro h
    by_contra hch
    have := spec_coalesce_from_length_gap rest f
      { start_sector := start, length := f.bv_len, buffer := f.addr } rfl hch
    simp only [spec_coalesce] at h
    omega
  · intro hch
    simp only [spec_coalesce]
    rw [spec_coalesce_from_chain rest f _ rfl hch]
    rfl

/-- Claim C18.  On a request with at least one segment, the first one not at the
null address, all segments of non-zero length: `req_check_buffer_align` returns 1
exactly when the Segment Coalescer gives a single run, which is exactly when the
segment walk of the worker (a read without scratch buffer) makes a single call;
when it returns 1 it sets the buffer to the address of the first segment, and
when it returns 0 it leaves the buffer as it was (the scratch buffer).  When it
returns 1 on a read of at most `MTD_RW_SECTORS` sectors whose first segment is
not the scratch buffer, the read path makes its single `readsect` call into the
first segment, and that call is the whole trace: no lock of the scratch buffer
and no copy. -/
theorem C18_check_buffer_align_is_single_run {σ : Type} (tr : mtd_blktrans_ops σ)
    (mtd_rw_buffer : Nat) (w : World σ) (req : request) (f : bio_vec) (rest : List bio_vec)
    (hsegs : req.segs = f :: rest) (hf : f.addr ≠ 0)
    (hlen : ∀ bv ∈ req.segs, bv.bv_len ≠ 0) :
    ((req_check_buffer_align req mtd_rw_buffer).1 = 1 ↔
      (spec_coalesce (blk_rq_pos req) req.segs).length = 1) ∧
    (req.cmd_write = false →
      ∃ out, process_request tr 0 w req = some out ∧
        ((req_check_buffer_align req mtd_rw_buffer).1 = 1 ↔ (calls out.trace).length = 1)) ∧
    ((req_check_buffer_align req mtd_rw_buffer).1 = 1 →
      (req_check_buffer_align req mtd_rw_buffer).2 = f.addr) ∧
    ((req_check_buffer_align req mtd_rw_buffer).1 ≠ 1 →
      (req_check_buffer_align req mtd_rw_buffer).1 = 0 ∧
      (req_check_buffer_align req mtd_rw_buffer).2 = mtd_rw_buffer) ∧
    (req.cmd_write = false → mtd_rw_buffer ≠ 0 → f.addr ≠ mtd_rw_buffer →
      blk_rq_sectors req ≤ MTD_RW_SECTORS →
      (req_check_buffer_align req mtd_rw_buffer).1 = 1 →
      ∃ out, process_request tr mtd_rw_buffer w req = some out ∧
        out.trace = [Ev.tl (Call.readsect (blk_rq_pos req) (req.data_len / 512) f.addr)
          (tr.readsect w (blk_rq_pos req) (req.data_len / 512) f.addr).2] ∧
        out.w = (tr.readsect w (blk_rq_pos req) (req.data_len / 512) f.addr).1) := by
  have heq := req_check_buffer_align_eq req mtd_rw_buffer f rest hsegs hf hlen
  have hsingle : (spec_coalesce (blk_rq_pos req) req.segs).length = 1 ↔
      List.Chain' follows req.segs := by
    rw [hsegs]; exact spec_coalesce_single_iff _ f rest
  have hret : (req_check_buffer_align req mtd_rw_buffer).1 = 1 ↔ List.Chain' follows req.segs := by
    rw [heq]
    by_cases hch : List.Chain' follows req.segs
    · simp [hch]
    · simp [hch]
  refine ⟨hret.trans hsingle.symm, ?_, ?_, ?_, ?_⟩
  · intro hread
    obtain ⟨out, h1, h2, _, _⟩ := process_request_walk tr 0 w req (Or.inr rfl)
      (fun h => by rw [hread] at h; exact absurd h (by decide))
      (by rw [hsegs]; exact List.cons_ne_nil _ _) hlen
    refine ⟨out, h1, ?_⟩
    rw [h2, List.length_map]
    exact hret.trans hsingle.symm
  · intro h1
    have hch := hret.mp h1
    rw [heq, if_pos hch]
  · intro h1
    have hch : ¬ List.Chain' follows req.segs := fun h => h1 (hret.mpr h)
    rw [heq, if_neg hch]
    exact ⟨rfl, rfl⟩
  · intro hread hbuf hne hq h1
    have hch := hret.mp h1
    have hb : (req_check_buffer_align req mtd_rw_buffer).2 = f.addr := by
      rw [heq, if_pos hch]
    have hq2 : ¬ (req.data_len >>> 9 > MTD_RW_SECTORS) := by
      unfold blk_rq_sectors at hq; omega
    have hp : process_request tr mtd_rw_buffer w req =
        some { w := (tr.readsect w (blk_rq_pos req) (req.data_len >>> 9) f.addr).1,
               block := blk_rq_pos req, data_len := 0, buf := f.addr,
               res := if (tr.readsect w (blk_rq_pos req) (req.data_len >>> 9) f.addr).2 ≠ 0
                 then - EIO_errno else 0,
               trace := [Ev.tl (Call.readsect (blk_rq_pos req) (req.data_len >>> 9) f.addr)
                 (tr.readsect w (blk_rq_pos req) (req.data_len >>> 9) f.addr).2] } := by
      simp only [process_request, rq_data_dir, hread, READ]
      rw [if_pos ⟨by simp, hbuf⟩]
      simp only [read_rw_buffer, hb]
      rw [if_neg hq2, if_neg hne, if_neg hne]
      rfl
    rw [shift9] at hp
    exact ⟨_, hp, rfl, rfl⟩

/-- Claim C18 on a read of two adjacent segments of one sector each, with the
scratch buffer at address 1048576. -/
theorem C18_check_buffer_align_is_single_run_witness :
    (req_check_buffer_align (ex_req false 100 1024 [⟨4096, 512⟩, ⟨4608, 512⟩]) 1048576).1 = 1 ∧
    (req_check_buffer_align (ex_req false 100 1024 [⟨4096, 512⟩, ⟨4608, 512⟩]) 1048576).2 = 4096 ∧
    (spec_coalesce (blk_rq_pos (ex_req false 100 1024 [⟨4096, 512⟩, ⟨4608, 512⟩]))
      (ex_req false 100 1024 [⟨4096, 512⟩, ⟨4608, 512⟩]).segs).length = 1 :=
  ⟨by decide, by decide,
   (C18_check_buffer_align_is_single_run ex_tr 1048576 ex_world
      (ex_req false 100 1024 [⟨4096, 512⟩, ⟨4608, 512⟩]) ⟨4096, 512⟩ [⟨4608, 512⟩] rfl
      (by decide) (by decide)).1.mp (by decide)⟩

/-! ## Sequences of opens, releases and a removal -/

/-- The return value of a first open of a present device with a live medium: that
of the hook `tr->open` when it fails, otherwise that of `__get_mtd_device`. -/
theorem blktrans_open_ret_first {σ : Type} (tr : mtd_blktrans_ops σ) (d : Disk σ)
    (m : mtd_info σ) (hp : d.private_data = true) (hmtd : d.dev.mtd = some m)
    (hopen : d.dev.open_count = 0) (hhook : (open_hook_outcome tr d.w).2 = 0)
    (hget : (m.get_mtd_device (open_hook_outcome tr d.w).1).2 = 0) :
    (blktrans_open tr d).2 = 0 := by
  unfold open_hook_outcome at hhook hget
  unfold blktrans_open
  simp only [hp, kref_get, module_ref, hopen, hmtd]
  cases ho : tr.open_hook with
  | none =>
    simp only [ho] at hhook hget
    simp [hget, blktrans_open_unlock]
  | some f =>
    simp only [ho] at hhook hget
    simp [hhook, hget, blktrans_open_unlock]

/-- An open of a present device whose medium is null only counts, and keeps a
reference when it is the first one. -/
theorem blktrans_open_no_mtd {σ : Type} (tr : mtd_blktrans_ops σ) (d : Disk σ)
    (hp : d.private_data = true) (href : 1 ≤ d.dev.ref) (hmtd : d.dev.mtd = none) :
    (blktrans_open tr d).2 = 0 ∧
    (blktrans_open tr d).1.private_data = true ∧
    (blktrans_open tr d).1.dev.open_count = d.dev.open_count + 1 ∧
    (blktrans_open tr d).1.dev.mtd = none ∧
    (blktrans_open tr d).1.dev.ref = d.dev.ref + (if d.dev.open_count = 0 then 1 else 0) ∧
    (blktrans_open tr d).1.log = d.log := by
  have h0 : d.dev.ref ≠ 0 := by omega
  by_cases hopen : d.dev.open_count = 0
  · unfold blktrans_open
    simp [hp, kref_get, module_ref, hopen, hmtd, blktrans_open_unlock, blktrans_dev_put,
      kref_put]
  · obtain ⟨h1, h2, h3, h4, h5, h6⟩ := blktrans_open_again tr d hp href hopen
    refine ⟨h1, h2, h3, by rw [h4, hmtd], ?_, h6⟩
    rw [h5, if_neg hopen]; rfl

/-- The last release of a present device whose medium is null calls nothing and
drops the reference of the first open; the device is gone when no reference is
left. -/
theorem blktrans_release_no_mtd {σ : Type} (tr : mtd_blktrans_ops σ) (d : Disk σ)
    (hp : d.private_data = true) (href : 1 ≤ d.dev.ref) (hmtd : d.dev.mtd = none)
    (hopen : d.dev.open_count = 1) :
    (blktrans_release tr d).1.dev.open_count = 0 ∧
    (blktrans_release tr d).1.dev.mtd = none ∧
    (blktrans_release tr d).1.dev.ref = d.dev.ref - 1 ∧
    ((blktrans_release tr d).1.private_data = true ↔ d.dev.ref - 1 ≠ 0) ∧
    (blktrans_release tr d).1.log = d.log := by
  have h0 : d.dev.ref ≠ 0 := by omega
  unfold blktrans_release
  simp only [hp, kref_get, hopen]
  rw [if_neg (by simp), if_neg (by simp)]
  by_cases h1 : d.dev.ref - 1 = 0
  · simp [blktrans_dev_put, kref_put, module_ref, hp, hmtd, h0, h1]
  · simp [blktrans_dev_put, kref_put, module_ref, hp, hmtd, h0, h1]

/-- The last release of a device with a live medium drops the reference of the
first open and keeps the medium. -/
theorem blktrans_release_last_ref {σ : Type} (tr : mtd_blktrans_ops σ) (d : Disk σ)
    (m : mtd_info σ) (hp : d.private_data = true) (href : 2 ≤ d.dev.ref)
    (hmtd : d.dev.mtd = some m) (hopen : d.dev.open_count = 1) :
    (blktrans_release tr d).1.dev.ref = d.dev.ref - 1 ∧
    (blktrans_release tr d).1.dev.mtd = some m := by
  unfold blktrans_release
  simp only [hp, kref_get, hopen]
  rw [if_neg (by simp), if_neg (by simp)]
  have h1 : d.dev.ref - 1 ≠ 0 := by omega
  have h2 : d.dev.ref ≠ 0 := by omega
  cases hr : tr.release <;>
    simp [blktrans_dev_put, kref_put, module_ref, hp, hmtd, h1, h2, hr]

/-- An open of a device that is gone fails and changes nothing. -/
theorem blktrans_open_absent {σ : Type} (tr : mtd_blktrans_ops σ) (d : Disk σ)
    (hp : d.private_data = false) : blktrans_open tr d = (d, - ERESTARTSYS) := by
  unfold blktrans_open
  rw [if_pos hp]

/-- The removal of a device with a live medium: the medium becomes null and the
reference of the registration is dropped; when the device is open, the hook
`tr->release`, if there is one, and `__put_mtd_device` are called once each. -/
theorem del_mtd_blktrans_dev_live {σ : Type} (tr : mtd_blktrans_ops σ) (d : Disk σ)
    (m : mtd_info σ) (hmtd : d.dev.mtd = some m) :
    ∃ d1, del_mtd_blktrans_dev tr d = some d1 ∧
      d1.dev.mtd = none ∧
      d1.dev.open_count = d.dev.open_count ∧
      d1.dev.ref = d.dev.ref - 1 ∧
      (d.private_data = true → (d1.private_data = true ↔ d.dev.ref - 1 ≠ 0)) ∧
      d1.log = d.log ++
        (if d.dev.open_count ≠ 0 then release_hook_events tr d.w ++ [LifeEv.put_mtd] else []) := by
  unfold del_mtd_blktrans_dev release_hook_events
  by_cases hopen : d.dev.open_count = 0
  · by_cases h1 : d.dev.ref - 1 = 0
    · simp [hopen, blktrans_dev_put, kref_put, h1]
    · simp [hopen, blktrans_dev_put, kref_put, h1]
  · by_cases h1 : d.dev.ref - 1 = 0
    · cases hr : tr.release <;> simp [hopen, blktrans_dev_put, kref_put, h1, hmtd, hr]
    · cases hr : tr.release <;> simp [hopen, blktrans_dev_put, kref_put, h1, hmtd, hr]

/-- The medium is null after every removal that returns. -/
theorem del_mtd_blktrans_dev_mtd {σ : Type} (tr : mtd_blktrans_ops σ) (d d1 : Disk σ)
    (h : del_mtd_blktrans_dev tr d = some d1) : d1.dev.mtd = none := by
  unfold del_mtd_blktrans_dev at h
  by_cases hopen : d.dev.open_count = 0
  · by_cases h1 : d.dev.ref - 1 = 0
    · simp [hopen, blktrans_dev_put, kref_put, h1] at h
      rw [← h]
    · simp [hopen, blktrans_dev_put, kref_put, h1] at h
      rw [← h]
  · cases hm : d.dev.mtd with
    | none => cases hr : tr.release <;> simp [hopen, hm, hr] at h
    | some m =>
      by_cases h1 : d.dev.ref - 1 = 0
      · cases hr : tr.release <;>
          simp [hopen, blktrans_dev_put, kref_put, h1, hm, hr] at h <;> rw [← h]
      · cases hr : tr.release <;>
          simp [hopen, blktrans_dev_put, kref_put, h1, hm, hr] at h <;> rw [← h]

theorem get_count_first_open {σ : Type} (tr : mtd_blktrans_ops σ) :
    get_count (first_open_events tr) = 1 := by
  cases h : tr.open_hook <;> simp [get_count, first_open_events, h, List.count_cons]

theorem put_count_first_open {σ : Type} (tr : mtd_blktrans_ops σ) :
    put_count (first_open_events tr) = 0 := by
  cases h : tr.open_hook <;> simp [put_count, first_open_events, h, List.count_cons]

theorem get_count_last_release {σ : Type} (tr : mtd_blktrans_ops σ) (w : World σ) :
    get_count (last_release_events tr w) = 0 := by
  cases h : tr.release <;> simp [get_count, last_release_events, h, List.count_cons]

theorem put_count_last_release {σ : Type} (tr : mtd_blktrans_ops σ) (w : World σ) :
    put_count (last_release_events tr w) = 1 := by
  cases h : tr.release <;> simp [put_count, last_release_events, h, List.count_cons]

theorem get_count_put : get_count [LifeEv.put_mtd] = 0 := by
  simp [get_count, List.count_cons]

theorem put_count_put : put_count [LifeEv.put_mtd] = 1 := by
  simp [put_count, List.count_cons]

theorem kref_put_mtd {σ : Type} (d : Disk σ) : (kref_put d).dev.mtd = d.dev.mtd := by
  unfold kref_put
  simp only
  split <;> rfl

theorem blktrans_open_unlock_mtd {σ : Type} (d : Disk σ) (ret : Int) :
    (blktrans_open_unlock d ret).1.dev.mtd = d.dev.mtd := by
  unfold blktrans_open_unlock blktrans_dev_put
  rw [kref_put_mtd]

theorem blktrans_open_error_put_mtd {σ : Type} (d : Disk σ) (ret : Int) :
    (blktrans_open_error_put d ret).1.dev.mtd = d.dev.mtd := by
  unfold blktrans_open_error_put blktrans_dev_put
  rw [kref_put_mtd, kref_put_mtd]
  rfl

theorem blktrans_open_error_release_mtd {σ : Type} (tr : mtd_blktrans_ops σ) (d : Disk σ)
    (ret : Int) : (blktrans_open_error_release tr d ret).1.dev.mtd = d.dev.mtd := by
  unfold blktrans_open_error_release
  cases tr.release <;> simp only [blktrans_open_error_put_mtd]

/-- The function `blktrans_open` never changes `dev->mtd`. -/
theorem blktrans_open_mtd {σ : Type} (tr : mtd_blktrans_ops σ) (d : Disk σ) :
    (blktrans_open tr d).1.dev.mtd = d.dev.mtd := by
  unfold blktrans_open
  simp only
  split
  · rfl
  · split
    · rw [blktrans_open_unlock_mtd]; rfl
    · split
      · rw [blktrans_open_unlock_mtd]; rfl
      · split
        · rw [blktrans_open_error_put_mtd]
          cases tr.open_hook <;> rfl
        · split
          · rw [blktrans_open_error_release_mtd]
            cases tr.open_hook <;> rfl
          · rw [blktrans_open_unlock_mtd]
            cases tr.open_hook <;> rfl

/-- The function `blktrans_release` never changes `dev->mtd`. -/
theorem blktrans_release_mtd {σ : Type} (tr : mtd_blktrans_ops σ) (d : Disk σ) :
    (blktrans_release tr d).1.dev.mtd = d.dev.mtd := by
  unfold blktrans_release
  simp only
  split
  · rfl
  · split
    · unfold blktrans_dev_put; rw [kref_put_mtd]; rfl
    · split
      · unfold blktrans_dev_put; rw [kref_put_mtd]
        cases tr.release <;> simp only [module_ref, kref_put_mtd] <;> rfl
      · unfold blktrans_dev_put; rw [kref_put_mtd]
        simp only [module_ref, kref_put_mtd]
        rfl

/-- An open keeps the state of the device well-formed; once the medium is null it
calls nothing. -/
theorem life_step_open_inv {σ : Type} (tr : mtd_blktrans_ops σ) (r0 : Nat) (hr0 : 1 ≤ r0)
    (s : LifeRun σ) (h : life_inv r0 s) :
    ∃ s1, life_step tr s LifeOp.op_open = some s1 ∧ life_inv r0 s1 ∧
      s1.d.dev.mtd = s.d.dev.mtd ∧ (s.d.dev.mtd = none → s1.d.log = s.d.log) := by
  obtain ⟨hle, hoc, hcase⟩ := h
  unfold open_bit at hcase
  refine ⟨_, rfl, ?_, blktrans_open_mtd tr s.d, ?_⟩
  · unfold life_inv open_bit
    simp only
    rcases hcase with ⟨hm, hp, href, hcnt⟩ | ⟨hm, href, hp, hcnt⟩
    · obtain ⟨m, hmtd⟩ := Option.isSome_iff_exists.mp hm
      by_cases hopen : s.d.dev.open_count = 0
      · rw [if_pos hopen] at href hcnt
        by_cases hhook : (open_hook_outcome tr s.d.w).2 = 0
        · by_cases hget : (m.get_mtd_device (open_hook_outcome tr s.d.w).1).2 = 0
          · have hret := blktrans_open_ret_first tr s.d m hp hmtd hopen hhook hget
            obtain ⟨h1, h2, h3, h4, h5⟩ := blktrans_open_first tr s.d m hp hmtd hopen hret
            rw [if_pos hret, h1, h2, h3, h4, h5, get_count_append, put_count_append,
              get_count_first_open, put_count_first_open]
            refine ⟨by omega, by push_cast; omega, Or.inl ⟨rfl, rfl, ?_, ?_⟩⟩
            · rw [if_neg (by decide)]; omega
            · rw [if_neg (by decide)]; omega
          · obtain ⟨h1, h2, h3, h4, _, h6, h7⟩ :=
              blktrans_open_get_fails tr s.d m hp (by omega) hmtd hopen hhook hget
            rw [if_neg (by rw [h1]; exact hget), h2, h3, h4, h6, h7, get_count_append,
              get_count_append, get_count_append, put_count_append, put_count_append,
              put_count_append, get_count_open_events, get_count_release_events,
              get_count_failed_get _ hget, put_count_open_events, put_count_release_events,
              put_count_get]
            refine ⟨hle, by omega, Or.inl ⟨rfl, rfl, ?_, ?_⟩⟩
            · rw [if_pos rfl]; omega
            · rw [if_pos rfl]; omega
        · obtain ⟨h1, h2, h3, h4, _, h6, h7⟩ :=
            blktrans_open_hook_fails tr s.d m hp (by omega) hmtd hopen hhook
          rw [if_neg (by rw [h1]; exact hhook), h2, h3, h4, h6, h7, get_count_append,
            put_count_append, get_count_open_events, put_count_open_events]
          refine ⟨hle, by omega, Or.inl ⟨rfl, rfl, ?_, ?_⟩⟩
          · rw [if_pos rfl]; omega
          · rw [if_pos rfl]; omega
      · rw [if_neg hopen] at href hcnt
        obtain ⟨h1, h2, h3, h4, h5, h6⟩ := blktrans_open_again tr s.d hp (by omega) hopen
        have hne : ¬ (s.d.dev.open_count + 1 = 0) := by omega
        rw [if_pos h1, h2, h3, h4, h5, h6, if_neg hne]
        exact ⟨by omega, by push_cast; omega, Or.inl ⟨hm, rfl, href, hcnt⟩⟩
    · by_cases hpd : s.d.private_data = true
      · have h0 : s.d.dev.ref ≠ 0 := hp.mp hpd
        obtain ⟨h1, h2, h3, h4, h5, h6⟩ := blktrans_open_no_mtd tr s.d hpd (by omega) hm
        have hne : ¬ (s.d.dev.open_count + 1 = 0) := by omega
        rw [if_pos h1, h2, h3, h4, h5, h6, if_neg hne]
        refine ⟨by omega, by push_cast; omega, Or.inr ⟨rfl, ?_, ?_, hcnt⟩⟩
        · by_cases hopen : s.d.dev.open_count = 0
          · rw [if_pos hopen] at href ⊢; omega
          · rw [if_neg hopen] at href ⊢; omega
        · constructor
          · intro _; omega
          · intro _; rfl
      · have hpf : s.d.private_data = false := by
          cases hx : s.d.private_data
          · rfl
          · exact absurd hx hpd
        rw [blktrans_open_absent tr s.d hpf]
        simp only
        rw [if_neg (by decide)]
        exact ⟨hle, hoc, Or.inr ⟨hm, href, hp, hcnt⟩⟩
  · intro hm
    simp only
    by_cases hpd : s.d.private_data = true
    · rcases hcase with ⟨hm2, _⟩ | ⟨_, href, hp, _⟩
      · rw [hm] at hm2; simp at hm2
      · have h0 : s.d.dev.ref ≠ 0 := hp.mp hpd
        obtain ⟨_, _, _, _, _, h6⟩ := blktrans_open_no_mtd tr s.d hpd (by omega) hm
        exact h6
    · have hpf : s.d.private_data = false := by
        cases hx : s.d.private_data
        · rfl
        · exact absurd hx hpd
      rw [blktrans_open_absent tr s.d hpf]

/-- A release matched by an earlier successful open keeps the state of the device
well-formed; once the medium is null it calls nothing. -/
theorem life_step_release_inv {σ : Type} (tr : mtd_blktrans_ops σ) (r0 : Nat) (hr0 : 1 ≤ r0)
    (s : LifeRun σ) (h : life_inv r0 s) (hrel : s.releases + 1 ≤ s.opens_ok) :
    ∃ s1, life_step tr s LifeOp.op_release = some s1 ∧ life_inv r0 s1 ∧
      s1.d.dev.mtd = s.d.dev.mtd ∧ (s.d.dev.mtd = none → s1.d.log = s.d.log) := by
  obtain ⟨hle, hoc, hcase⟩ := h
  unfold open_bit at hcase
  have hopen : ¬ (s.d.dev.open_count = 0) := by omega
  rw [if_neg hopen] at hcase
  refine ⟨_, rfl, ?_, blktrans_release_mtd tr s.d, ?_⟩
  · unfold life_inv open_bit
    simp only
    rcases hcase with ⟨hm, hp, href, hcnt⟩ | ⟨hm, href, hp, hcnt⟩
    · obtain ⟨m, hmtd⟩ := Option.isSome_iff_exists.mp hm
      by_cases h1 : s.d.dev.open_count = 1
      · obtain ⟨e1, e2, e3⟩ := blktrans_release_last tr s.d m hp (by omega) hmtd h1
        obtain ⟨e4, e5⟩ := blktrans_release_last_ref tr s.d m hp (by omega) hmtd h1
        rw [e1, e2, e3, e4, e5, get_count_append, put_count_append, get_count_last_release,
          put_count_last_release, if_pos rfl]
        exact ⟨by omega, by push_cast; omega, Or.inl ⟨rfl, rfl, by omega, by omega⟩⟩
      · have hnl : s.d.dev.open_count - 1 ≠ 0 := by omega
        obtain ⟨e1, e2, e3, e4, e5⟩ := blktrans_release_not_last tr s.d hp (by omega) hnl
        rw [e1, e2, e3, e4, e5, if_neg hnl]
        exact ⟨by omega, by push_cast; omega, Or.inl ⟨hm, rfl, href, hcnt⟩⟩
    · have h0 : s.d.dev.ref ≠ 0 := by omega
      have hpd : s.d.private_data = true := hp.mpr h0
      by_cases h1 : s.d.dev.open_count = 1
      · obtain ⟨e1, e2, e3, e4, e5⟩ := blktrans_release_no_mtd tr s.d hpd (by omega) hm h1
        rw [e1, e2, e3, e5, if_pos rfl]
        refine ⟨by omega, by push_cast; omega, Or.inr ⟨rfl, by omega, ?_, hcnt⟩⟩
        rw [e4]
      · have hnl : s.d.dev.open_count - 1 ≠ 0 := by omega
        obtain ⟨e1, e2, e3, e4, e5⟩ := blktrans_release_not_last tr s.d hpd (by omega) hnl
        rw [e1, e2, e3, e4, e5, if_neg hnl]
        exact ⟨by omega, by push_cast; omega,
          Or.inr ⟨hm, href, ⟨fun _ => h0, fun _ => rfl⟩, hcnt⟩⟩
  · intro hm
    simp only
    rcases hcase with ⟨hm2, _⟩ | ⟨_, href, hp, _⟩
    · rw [hm] at hm2; simp at hm2
    · have h0 : s.d.dev.ref ≠ 0 := by omega
      have hpd : s.d.private_data = true := hp.mpr h0
      by_cases h1 : s.d.dev.open_count = 1
      · obtain ⟨_, _, _, _, e5⟩ := blktrans_release_no_mtd tr s.d hpd (by omega) hm h1
        exact e5
      · have hnl : s.d.dev.open_count - 1 ≠ 0 := by omega
        obtain ⟨_, _, _, _, e5⟩ := blktrans_release_not_last tr s.d hpd (by omega) hnl
        exact e5

/-- The removal of a device whose medium is live returns and keeps the state of
the device well-formed. -/
theorem life_step_del_inv {σ : Type} (tr : mtd_blktrans_ops σ) (r0 : Nat) (hr0 : 1 ≤ r0)
    (s : LifeRun σ) (h : life_inv r0 s) (hlive : s.d.dev.mtd ≠ none) :
    ∃ s1, life_step tr s LifeOp.op_del = some s1 ∧ life_inv r0 s1 ∧ s1.d.dev.mtd = none := by
  obtain ⟨hle, hoc, hcase⟩ := h
  unfold open_bit at hcase
  rcases hcase with ⟨hm, hp, href, hcnt⟩ | ⟨hm, _⟩
  · obtain ⟨m, hmtd⟩ := Option.isSome_iff_exists.mp hm
    obtain ⟨d1, hdel, e1, e2, e3, e4, e5⟩ := del_mtd_blktrans_dev_live tr s.d m hmtd
    refine ⟨{ s with d := d1 }, by simp only [life_step, hdel], ?_, e1⟩
    unfold life_inv open_bit
    simp only
    rw [e1, e2, e3, e5, get_count_append, put_count_append]
    refine ⟨hle, hoc, Or.inr ⟨rfl, ?_, ?_, ?_⟩⟩
    · by_cases hopen : s.d.dev.open_count = 0
      · rw [if_pos hopen] at href ⊢; omega
      · rw [if_neg hopen] at href ⊢; omega
    · rw [← e3]
      constructor
      · intro hx; rw [e3]; exact (e4 hp).mp hx
      · intro hx; rw [e3] at hx; exact (e4 hp).mpr hx
    · by_cases hopen : s.d.dev.open_count = 0
      · rw [if_pos hopen] at hcnt
        rw [if_neg (by simpa using hopen)]
        simpa [get_count, put_count] using hcnt
      · rw [if_neg hopen] at hcnt
        rw [if_pos hopen, get_count_append, put_count_append, get_count_release_events,
          put_count_release_events, get_count_put, put_count_put]
        omega
  · exact absurd hm hlive

theorem life_run_append {σ : Type} (tr : mtd_blktrans_ops σ) :
    ∀ (a b : List LifeOp) (s : LifeRun σ),
    life_run tr (a ++ b) s = (life_run tr a s).bind (life_run tr b) := by
  intro a
  induction a with
  | nil => intro b s; rfl
  | cons op rest ih =>
    intro b s
    simp only [List.cons_append, life_run]
    cases life_step tr s op with
    | none => rfl
    | some s1 => exact ih b s1

theorem releases_matched_append {σ : Type} (tr : mtd_blktrans_ops σ) :
    ∀ (a b : List LifeOp) (s : LifeRun σ), releases_matched tr (a ++ b) s = true →
    releases_matched tr a s = true ∧
    ∀ s1, life_run tr a s = some s1 → releases_matched tr b s1 = true := by
  intro a
  induction a with
  | nil =>
    intro b s h
    refine ⟨rfl, fun s1 h1 => ?_⟩
    simp only [life_run, Option.some.injEq] at h1
    rw [← h1]; exact h
  | cons op rest ih =>
    intro b s h
    simp only [List.cons_append, releases_matched, life_run] at h ⊢
    cases hs : life_step tr s op with
    | none => simp
    | some s1 =>
      simp only [hs] at h ⊢
      rw [Bool.and_eq_true] at h ⊢
      obtain ⟨i1, i2⟩ := ih b s1 h.2
      exact ⟨⟨h.1, i1⟩, i2⟩

/-- A sequence of calls with at most one removal, none once the medium is null,
and with matched releases, runs to its end from every well-formed state and ends
in one; from a state whose medium is null it calls nothing. -/
theorem life_run_inv {σ : Type} (tr : mtd_blktrans_ops σ) (r0 : Nat) (hr0 : 1 ≤ r0) :
    ∀ (ops : List LifeOp) (s : LifeRun σ), life_inv r0 s →
    (s.d.dev.mtd = none → ops.count LifeOp.op_del = 0) → ops.count LifeOp.op_del ≤ 1 →
    releases_matched tr ops s = true →
    ∃ s1, life_run tr ops s = some s1 ∧ life_inv r0 s1 ∧
      (s.d.dev.mtd = none → s1.d.log = s.d.log ∧ s1.d.dev.mtd = none) := by
  intro ops
  induction ops with
  | nil => intro s h _ _ _; exact ⟨s, rfl, h, fun hm => ⟨rfl, hm⟩⟩
  | cons op rest ih =>
    intro s h hnull hcount hmatch
    cases op with
    | op_open =>
      obtain ⟨s1, hstep, hinv, hmtd, hlog⟩ := life_step_open_inv tr r0 hr0 s h
      simp only [releases_matched, hstep, Bool.and_eq_true] at hmatch
      have hc : List.count LifeOp.op_del (LifeOp.op_open :: rest) =
          List.count LifeOp.op_del rest := by simp [List.count_cons]
      rw [hc] at hnull hcount
      obtain ⟨s2, hrun, hinv2, hlog2⟩ :=
        ih s1 hinv (fun hm => hnull (by rw [← hmtd]; exact hm)) hcount hmatch.2
      refine ⟨s2, by simp only [life_run, hstep]; exact hrun, hinv2, fun hm => ?_⟩
      obtain ⟨e1, e2⟩ := hlog2 (by rw [hmtd]; exact hm)
      exact ⟨by rw [e1]; exact hlog hm, e2⟩
    | op_release =>
      have hrel : s.releases + 1 ≤ s.opens_ok := by
        simp only [releases_matched, life_step, Bool.and_eq_true, decide_eq_true_eq] at hmatch
        exact hmatch.1
      obtain ⟨s1, hstep, hinv, hmtd, hlog⟩ := life_step_release_inv tr r0 hr0 s h hrel
      simp only [releases_matched, hstep, Bool.and_eq_true] at hmatch
      have hc : List.count LifeOp.op_del (LifeOp.op_release :: rest) =
          List.count LifeOp.op_del rest := by simp [List.count_cons]
      rw [hc] at hnull hcount
      obtain ⟨s2, hrun, hinv2, hlog2⟩ :=
        ih s1 hinv (fun hm => hnull (by rw [← hmtd]; exact hm)) hcount hmatch.2
      refine ⟨s2, by simp only [life_run, hstep]; exact hrun, hinv2, fun hm => ?_⟩
      obtain ⟨e1, e2⟩ := hlog2 (by rw [hmtd]; exact hm)
      exact ⟨by rw [e1]; exact hlog hm, e2⟩
    | op_del =>
      have hc : List.count LifeOp.op_del (LifeOp.op_del :: rest) =
          List.count LifeOp.op_del rest + 1 := by simp [List.count_cons]
      rw [hc] at hnull hcount
      have hlive : s.d.dev.mtd ≠ none := fun hm => absurd (hnull hm) (by omega)
      obtain ⟨s1, hstep, hinv, hmtd⟩ := life_step_del_inv tr r0 hr0 s h hlive
      simp only [releases_matched, hstep, Bool.and_eq_true] at hmatch
      obtain ⟨s2, hrun, hinv2, _⟩ := ih s1 hinv (fun _ => by omega) (by omega) hmatch.2
      exact ⟨s2, by simp only [life_run, hstep]; exact hrun, hinv2, fun hm => absurd hm hlive⟩

/-- A closed device with a live medium, `r0` references and as many medium claims
as releases is in a well-formed state. -/
theorem life_inv_init {σ : Type} (d0 : Disk σ) (m : mtd_info σ)
    (hp : d0.private_data = true) (hmtd : d0.dev.mtd = some m)
    (hopen : d0.dev.open_count = 0) (hlog : get_count d0.log = put_count d0.log) :
    life_inv d0.dev.ref (life_init d0) := by
  unfold life_inv open_bit life_init
  simp only
  rw [if_pos hopen]
  exact ⟨Nat.le_refl _, by rw [hopen]; rfl, Or.inl ⟨by rw [hmtd]; rfl, hp, rfl, hlog⟩⟩

/-- In a well-formed state the medium releases do not outnumber the successful
medium claims, and they are as many on a closed device. -/
theorem life_inv_counts {σ : Type} (r0 : Nat) (s : LifeRun σ) (h : life_inv r0 s) :
    put_count s.d.log ≤ get_count s.d.log ∧
    (s.d.dev.open_count = 0 → put_count s.d.log = get_count s.d.log) := by
  obtain ⟨_, _, hcase⟩ := h
  unfold open_bit at hcase
  rcases hcase with ⟨_, _, _, hcnt⟩ | ⟨_, _, _, hcnt⟩
  · refine ⟨by omega, fun h0 => ?_⟩
    rw [if_pos h0] at hcnt; omega
  · exact ⟨by omega, fun _ => by omega⟩

/-- Claim C20.  On a present, closed device with a live medium and as many medium
claims as releases so far, take any sequence of calls of `blktrans_open`,
`blktrans_release` and `del_mtd_blktrans_dev` with at most one removal, in which
the releases never outnumber the successful opens made before them.  Every call
returns, and after every call the number of calls of `__put_mtd_device` is at most
the number of successful calls of `__get_mtd_device`, and the two are equal
whenever `dev->open` is 0.  When the sequence has a removal, the medium is null
after it, and after every later call the medium is still null and the log of the
hooks `tr->open` and `tr->release` and of medium claims and releases is what it
was right after the removal. -/
theorem C20_medium_claims_balanced {σ : Type} (tr : mtd_blktrans_ops σ) (d0 : Disk σ)
    (m : mtd_info σ) (ops : List LifeOp)
    (hp : d0.private_data = true) (href : 1 ≤ d0.dev.ref) (hmtd : d0.dev.mtd = some m)
    (hopen : d0.dev.open_count = 0) (hlog : get_count d0.log = put_count d0.log)
    (hdel : ops.count LifeOp.op_del ≤ 1)
    (hrel : releases_matched tr ops (life_init d0) = true) :
    (∀ k, ∃ s, life_run tr (ops.take k) (life_init d0) = some s ∧
      put_count s.d.log ≤ get_count s.d.log ∧
      (s.d.dev.open_count = 0 → put_count s.d.log = get_count s.d.log)) ∧
    (∀ pre post, ops = pre ++ LifeOp.op_del :: post →
      ∃ s1, life_run tr (pre ++ [LifeOp.op_del]) (life_init d0) = some s1 ∧
        s1.d.dev.mtd = none ∧
        ∀ k, ∃ s, life_run tr (pre ++ LifeOp.op_del :: post.take k) (life_init d0) = some s ∧
          s.d.dev.mtd = none ∧ s.d.log = s1.d.log) := by
  have hinit := life_inv_init d0 m hp hmtd hopen hlog
  have hlive : (life_init d0).d.dev.mtd ≠ none := by
    intro h
    have : d0.dev.mtd = none := h
    rw [hmtd] at this
    exact absurd this (by simp)
  constructor
  · intro k
    have hsplit : ops = ops.take k ++ ops.drop k := (List.take_append_drop k ops).symm
    have hm : releases_matched tr (ops.take k) (life_init d0) = true := by
      rw [hsplit] at hrel
      exact (releases_matched_append tr _ _ _ hrel).1
    have hc : (ops.take k).count LifeOp.op_del ≤ 1 :=
      Nat.le_trans (List.Sublist.count_le (List.take_sublist k ops) _) hdel
    obtain ⟨s, hrun, hinv, _⟩ :=
      life_run_inv tr d0.dev.ref href (ops.take k) (life_init d0) hinit
        (fun h => absurd h hlive) hc hm
    exact ⟨s, hrun, life_inv_counts _ s hinv⟩
  · intro pre post hsplit
    have hsplit2 : ops = (pre ++ [LifeOp.op_del]) ++ post := by
      rw [hsplit, List.append_assoc]; rfl
    have hcnt : (pre ++ [LifeOp.op_del]).count LifeOp.op_del + post.count LifeOp.op_del ≤ 1 := by
      rw [← List.count_append, ← hsplit2]; exact hdel
    have hcnt1 : 1 ≤ (pre ++ [LifeOp.op_del]).count LifeOp.op_del := by
      rw [List.count_append]; simp [List.count_cons]
    have hmall := hrel
    rw [hsplit2] at hmall
    obtain ⟨hm1, hm2⟩ := releases_matched_append tr _ _ _ hmall
    obtain ⟨s1, hrun1, hinv1, _⟩ :=
      life_run_inv tr d0.dev.ref href (pre ++ [LifeOp.op_del]) (life_init d0) hinit
        (fun h => absurd h hlive) (by omega) hm1
    have hnull : s1.d.dev.mtd = none := by
      have hr := hrun1
      rw [life_run_append] at hr
      cases hpre : life_run tr pre (life_init d0) with
      | none => rw [hpre] at hr; simp at hr
      | some s0 =>
        rw [hpre] at hr
        simp only [Option.some_bind, life_run, life_step] at hr
        cases hd : del_mtd_blktrans_dev tr s0.d with
        | none => rw [hd] at hr; simp at hr
        | some d1 =>
          rw [hd] at hr
          simp only [Option.some.injEq] at hr
          rw [← hr]
          exact del_mtd_blktrans_dev_mtd tr s0.d d1 hd
    refine ⟨s1, hrun1, hnull, fun k => ?_⟩
    have hpost : post = post.take k ++ post.drop k := (List.take_append_drop k post).symm
    have hm3 : releases_matched tr (post.take k) s1 = true := by
      have := hm2 s1 hrun1
      rw [hpost] at this
      exact (releases_matched_append tr _ _ _ this).1
    have hc3 : (post.take k).count LifeOp.op_del = 0 := by
      have := List.Sublist.count_le (List.take_sublist k post) LifeOp.op_del
      omega
    obtain ⟨s, hrun, _, hsame⟩ :=
      life_run_inv tr d0.dev.ref href (post.take k) s1 hinv1 (fun _ => hc3) (by omega) hm3
    obtain ⟨e1, e2⟩ := hsame hnull
    refine ⟨s, ?_, e2, e1⟩
    have : pre ++ LifeOp.op_del :: post.take k = (pre ++ [LifeOp.op_del]) ++ post.take k := by
      rw [List.append_assoc]; rfl
    rw [this, life_run_append, hrun1]
    exact hrun

/-- Claim C20 on the example disk: two opens, a release, the removal, the last
release and one more open. -/
theorem C20_medium_claims_balanced_witness :
    ∃ s, life_run ex_tr
        (List.take 6 [LifeOp.op_open, LifeOp.op_open, LifeOp.op_release, LifeOp.op_del,
          LifeOp.op_release, LifeOp.op_open]) (life_init ex_disk) = some s ∧
      put_count s.d.log ≤ get_count s.d.log ∧
      (s.d.dev.open_count = 0 → put_count s.d.log = get_count s.d.log) :=
  (C20_medium_claims_balanced ex_tr ex_disk ex_mtd
    [LifeOp.op_open, LifeOp.op_open, LifeOp.op_release, LifeOp.op_del, LifeOp.op_release,
      LifeOp.op_open] rfl (by decide) rfl rfl rfl (by decide) (by decide)).1 6

/-! ## The capacity of the disk -/

/-- The capacity that `add_mtd_blktrans_dev` sets is at most the size of the device
times the block size, in units of 512 bytes. -/
theorem add_mtd_blktrans_dev_disk_capacity_le {σ : Type} (DISK_NAME_LEN : Nat)
    (tr : mtd_blktrans_ops σ) (new : mtd_blktrans_dev σ) :
    (add_mtd_blktrans_dev_disk DISK_NAME_LEN tr new).capacity ≤
      (new.size * tr.blksize) >>> 9 := by
  show (new.size >>> 9) * tr.blksize ≤ (new.size * tr.blksize) >>> 9
  rw [Nat.shiftRight_eq_div_pow, Nat.shiftRight_eq_div_pow]
  rw [Nat.le_div_iff_mul_le (by decide)]
  have h1 : new.size / 2 ^ 9 * 2 ^ 9 ≤ new.size := Nat.div_mul_le_self new.size (2 ^ 9)
  calc new.size / 2 ^ 9 * tr.blksize * 2 ^ 9
      = new.size / 2 ^ 9 * 2 ^ 9 * tr.blksize := by ring
    _ ≤ new.size * tr.blksize := Nat.mul_le_mul_right tr.blksize h1

/-- The capacity can be smaller than the size of the device times the block size
in units of 512 bytes: a device of size 1000 with blocks of 512 bytes gets the
capacity 512, not 1000. -/
theorem add_mtd_blktrans_dev_disk_capacity_lt :
    (add_mtd_blktrans_dev_disk 32 ex_tr { ex_dev 0 with size := 1000 }).capacity = 512 ∧
    (({ ex_dev 0 with size := 1000 } : mtd_blktrans_dev Unit).size * ex_tr.blksize) >>> 9
      = 1000 := by
  constructor <;> decide

/-- Claim C21, counterexample.  The example device has the size 2048 and blocks of
512 bytes, so its disk gets the capacity 2048, which is `size * blksize / 512`.
With a `sector_t` of 64 bits, a write of one sector at the start sector
`2^64 - 1` lies beyond that, but the sum of line 301 wraps to 0: the request
passes the check and `writesect` is called at the sector `2^64 - 1`. -/
theorem C21_sector_beyond_capacity_admitted :
    (add_mtd_blktrans_dev_disk 32 ex_tr (ex_dev 0)).capacity = 2048 ∧
    (ex_dev 0).size * ex_tr.blksize / 512 = 2048 ∧
    blk_rq_pos (ex_req true 18446744073709551615 512 [⟨4096, 512⟩]) +
      blk_rq_sectors (ex_req true 18446744073709551615 512 [⟨4096, 512⟩]) > 2048 ∧
    (thread_body 64 ex_tr (add_mtd_blktrans_dev_disk 32 ex_tr (ex_dev 0)).capacity 1048576
        (ex_iter (ex_req true 18446744073709551615 512 [⟨4096, 512⟩]))
        (thread_init ex_world)).map (fun s => (s.trace, s.ended)) =
      some ([Ev.tl (Call.writesect 18446744073709551615 1 4096) 0],
        [(ex_req true 18446744073709551615 512 [⟨4096, 512⟩], 0)]) := by
  refine ⟨by decide, by decide, by decide, ?_⟩
  rw [thread_body_admitted 64 ex_tr _ 1048576 _ _
    (ex_req true 18446744073709551615 512 [⟨4096, 512⟩]) rfl rfl rfl (by decide)]
  rfl

/-- Claim C21, as amended.  With the size of the device and the block size as
natural numbers without bound, the capacity that `add_mtd_blktrans_dev` sets for
the disk is `(size >> 9) * blksize`; it is at most `(size * blksize) >> 9`, and
equal to it whenever the size is a multiple of 512.  Hence a request fetched by
the worker of that disk whose start sector plus sector count is below
`2 ^ SECTOR_BITS` (it does not wrap in `sector_t`) and exceeds
`size * blksize / 512` does not pass the check: it is completed with `-EIO`, and
the trace and the world are unchanged. -/
theorem C21_capacity_within_device {σ : Type} (SECTOR_BITS DISK_NAME_LEN : Nat)
    (tr : mtd_blktrans_ops σ) (new : mtd_blktrans_dev σ) :
    (add_mtd_blktrans_dev_disk DISK_NAME_LEN tr new).capacity = new.size / 512 * tr.blksize ∧
    (add_mtd_blktrans_dev_disk DISK_NAME_LEN tr new).capacity ≤ (new.size * tr.blksize) >>> 9 ∧
    (512 ∣ new.size →
      (add_mtd_blktrans_dev_disk DISK_NAME_LEN tr new).capacity =
        (new.size * tr.blksize) >>> 9) ∧
    (∀ (mtd_rw_buffer : Nat) (it : Iter) (s : Thread σ) (req : request),
      s.req = none → it.fetch = some req →
      blk_rq_pos req + blk_rq_sectors req < 2 ^ SECTOR_BITS →
      blk_rq_pos req + blk_rq_sectors req > new.size * tr.blksize / 512 →
      ∃ s1, thread_body SECTOR_BITS tr (add_mtd_blktrans_dev_disk DISK_NAME_LEN tr new).capacity
          mtd_rw_buffer it s = some s1 ∧
        s1.ended = s.ended ++ [(req, - EIO_errno)] ∧ s1.trace = s.trace ∧ s1.w = s.w ∧
        s1.req = none) := by
  have hle := add_mtd_blktrans_dev_disk_capacity_le DISK_NAME_LEN tr new
  refine ⟨?_, hle, ?_, ?_⟩
  · show (new.size >>> 9) * tr.blksize = new.size / 512 * tr.blksize
    rw [Nat.shiftRight_eq_div_pow]
  · rintro ⟨k, hk⟩
    show (new.size >>> 9) * tr.blksize = (new.size * tr.blksize) >>> 9
    rw [Nat.shiftRight_eq_div_pow, Nat.shiftRight_eq_div_pow, hk]
    have e1 : 512 * k / 2 ^ 9 = k := Nat.mul_div_cancel_left k (by decide)
    have e2 : 512 * k * tr.blksize / 2 ^ 9 = k * tr.blksize := by
      rw [Nat.mul_assoc]
      exact Nat.mul_div_cancel_left (k * tr.blksize) (by decide)
    rw [e1, e2]
  · intro mtd_rw_buffer it s req hreq hfetch hfit hbeyond
    have hcap : (blk_rq_pos req + blk_rq_sectors req) % 2 ^ SECTOR_BITS >
        (add_mtd_blktrans_dev_disk DISK_NAME_LEN tr new).capacity := by
      rw [Nat.mod_eq_of_lt hfit]
      rw [Nat.shiftRight_eq_div_pow] at hle
      have : (2 : Nat) ^ 9 = 512 := by decide
      rw [this] at hle
      omega
    have h := thread_body_invalid SECTOR_BITS tr _ mtd_rw_buffer it s req hreq hfetch
      (Or.inr hcap)
    exact ⟨_, h, by simp [fetched_state]⟩

/-- Claim C21 as amended, on the example device, whose size 2048 is a multiple of
512. -/
theorem C21_capacity_within_device_witness :
    512 ∣ (ex_dev 0).size ∧
    (add_mtd_blktrans_dev_disk 32 ex_tr (ex_dev 0)).capacity =
      ((ex_dev 0).size * ex_tr.blksize) >>> 9 :=
  ⟨by decide, (C21_capacity_within_device 64 32 ex_tr (ex_dev 0)).2.2.1 (by decide)⟩

end MtdBlk
